import Mathlib

/-!
# polyfarm-cpp: shape geometry, layout scoring and the evolutionary loop

A shallow embedding of `src/shape.hpp`, `src/vec2.hpp` and the generation loop of
`src/main.cpp`.

Modelling conventions.
* C++ `int` is `Int`; signed overflow is undefined behaviour in C++, so the theorems that
  depend on the `numeric_limits` sentinels carry explicit range hypotheses. Where a sum or a
  difference of positions can overflow, the function is given a second time in `int`
  arithmetic (`overlap_status_int`, `distance_int`, `center_int`, every result wrapped by
  `wrap_int`), and the theorem carries the range hypothesis under which the two agree.
* `std::vector<char>` masks are `List Bool` (`true` is the byte 1). A read outside the
  vector yields `false` and a write outside the vector is dropped (`mask_get`, `mask_set`);
  both are undefined behaviour in C++.
* `uint16_t` indices are `Nat`.
* The `while` loop of `flood_fill` runs on fuel; `flood_fill_total` shows the fuel handed
  to it always suffices.
* The `double` computations of `arrange_circle` (`dist2circle`, `angle_range`,
  `angle_greater`, `round`) are not evaluated: they are the fields of a `fit_env`, and the
  theorems about `arrange_circle` hold for every such environment. The function
  `angle_greater` on its own is given over the rational numbers.
* The `float` steps of the parent selection, `(float)r` and `sqrtf`, are IEEE 754 binary32
  roundings to nearest, computed on whole numbers (`to_float`, `sqrtf_trunc`).
-/

namespace Polyfarm

/-! ## Definitions -/

/-- The `vec2<int>` of `vec2.hpp`. -/
structure vec2i where
  x : Int
  y : Int
deriving DecidableEq, Repr

instance : Add vec2i := ⟨fun a b => ⟨a.x + b.x, a.y + b.y⟩⟩

instance : Sub vec2i := ⟨fun a b => ⟨a.x - b.x, a.y - b.y⟩⟩

/-- The four orthogonal offsets `OFFS`. -/
def OFFS : List vec2i := [⟨1, 0⟩, ⟨0, 1⟩, ⟨-1, 0⟩, ⟨0, -1⟩]

/-- The eight offsets `COFFS` (orthogonal first, then diagonal). -/
def COFFS : List vec2i :=
  [⟨1, 0⟩, ⟨0, 1⟩, ⟨-1, 0⟩, ⟨0, -1⟩, ⟨1, -1⟩, ⟨1, 1⟩, ⟨-1, 1⟩, ⟨-1, -1⟩]

/-- The value `std::numeric_limits<int>::max()`. -/
def INT_MAX : Int := 2147483647

/-- The value `std::numeric_limits<int>::min()`. -/
def INT_MIN : Int := -2147483648

/-- The `enum class overlap`. -/
inductive overlap where
  | Overlap
  | Border
  | Disjoint
deriving DecidableEq, Repr

/-- The `struct shape_pos`: a placement. -/
structure shape_pos where
  x : Int
  y : Int
  shape_idx : Nat
  var_idx : Nat
deriving DecidableEq, Repr

/-- The method `shape_pos::p`. -/
def shape_pos.p (s : shape_pos) : vec2i := ⟨s.x, s.y⟩

/-- The `struct shape`, private members `mask` and `boundary` included. -/
structure shape where
  squares : List vec2i
  width : Int
  height : Int
  mask : List Bool
  boundary : List vec2i
deriving DecidableEq, Repr

/-- Read of `mask[i]` as a truth value (`mask[i] != 0`). -/
def mask_get (m : List Bool) (i : Int) : Bool :=
  if i < 0 then false else m.getD i.toNat false

/-- The write `mask[i] = 1`. -/
def mask_set (m : List Bool) (i : Int) : List Bool :=
  if i < 0 then m else m.set i.toNat true

/-- The method `shape::is_set`. -/
def is_set (sh : shape) (x y : Int) : Bool :=
  if x < 0 ∨ y < 0 ∨ x ≥ sh.width ∨ y ≥ sh.height then false
  else mask_get sh.mask (x + y * sh.width)

/-- The method `shape::setup`, run on a freshly constructed shape (empty mask) whose
`squares` have been filled in: extents, mask, boundary. -/
def setup (squares : List vec2i) : shape :=
  let width := squares.foldl (fun w sq => max w (sq.x + 1)) 0
  let height := squares.foldl (fun h sq => max h (sq.y + 1)) 0
  let mask := squares.foldl (fun m sq => mask_set m (sq.x + sq.y * width))
    (List.replicate (width * height).toNat false)
  let pre : shape := ⟨squares, width, height, mask, []⟩
  let boundary := squares.flatMap (fun sq =>
    (OFFS.map (fun offs => (⟨sq.x + offs.x, sq.y + offs.y⟩ : vec2i))).filter
      (fun c => !(is_set pre c.x c.y)))
  ⟨squares, width, height, mask, boundary⟩

/-- The friend function `overlap_status`. -/
def overlap_status (sh1 : shape) (pos1 : vec2i) (sh2 : shape) (pos2 : vec2i) : overlap :=
  if pos1.x > pos2.x + sh2.width ∨ pos2.x > pos1.x + sh1.width ∨
      pos1.y > pos2.y + sh2.height ∨ pos2.y > pos1.y + sh1.height then overlap.Disjoint
  else
    let dx := pos1.x - pos2.x
    let dy := pos1.y - pos2.y
    if sh1.squares.any (fun sq => is_set sh2 (sq.x + dx) (sq.y + dy)) then overlap.Overlap
    else if sh1.squares.any (fun sq =>
        OFFS.any (fun offs => is_set sh2 (sq.x + dx + offs.x) (sq.y + dy + offs.y))) then
      overlap.Border
    else overlap.Disjoint

/-- The friend function `distance`. -/
def distance (sh1 : shape) (pos1 : vec2i) (sh2 : shape) (pos2 : vec2i) : Int :=
  match overlap_status sh1 pos1 sh2 pos2 with
  | overlap.Border => 0
  | overlap.Overlap => -1
  | overlap.Disjoint =>
    let dx := pos1.x - pos2.x
    let dy := pos1.y - pos2.y
    let min_dist := sh1.squares.foldl (fun m sq1 =>
      sh2.squares.foldl (fun m2 sq2 =>
        min m2 (|sq1.x + dx - sq2.x| + |sq1.y + dy - sq2.y|)) m) INT_MAX
    min_dist - 1

/-- Manhattan distance between two cells. -/
def manhattan (u v : vec2i) : Int := |u.x - v.x| + |u.y - v.y|

/-- All cells of a list have non-negative coordinates. -/
def nonneg_cells (cells : List vec2i) : Prop := ∀ c ∈ cells, 0 ≤ c.x ∧ 0 ≤ c.y

instance (cells : List vec2i) : Decidable (nonneg_cells cells) := by
  unfold nonneg_cells; infer_instance

/-- Some translated cell of the first list coincides with one of the second. -/
def cells_coincide (cA : List vec2i) (p : vec2i) (cB : List vec2i) (q : vec2i) : Prop :=
  ∃ a ∈ cA, ∃ b ∈ cB, a + p = b + q

/-- Some translated cell of the first list is a 4-neighbour of one of the second. -/
def cells_adjacent (cA : List vec2i) (p : vec2i) (cB : List vec2i) (q : vec2i) : Prop :=
  ∃ a ∈ cA, ∃ b ∈ cB, manhattan (a + p) (b + q) = 1

/-- The number `m` is the least Manhattan distance over all pairs of translated cells. -/
def is_min_manhattan (cA : List vec2i) (p : vec2i) (cB : List vec2i) (q : vec2i)
    (m : Int) : Prop :=
  (∃ a ∈ cA, ∃ b ∈ cB, manhattan (a + p) (b + q) = m) ∧
    ∀ a ∈ cA, ∀ b ∈ cB, m ≤ manhattan (a + p) (b + q)

/-! ### Layouts: bounds, flood fill, score, centring -/

/-- The type `shape::variation_array`: for every input shape its list of variations. -/
abbrev variation_array := List (List shape)

/-- The default-constructed `shape()`. -/
def shape_default : shape := ⟨[], 0, 0, [], []⟩

/-- The element `positions[i]`. -/
def pos_at (positions : List shape_pos) (i : Nat) : shape_pos :=
  positions.getD i ⟨0, 0, 0, 0⟩

/-- The element `variations[pos.shape_idx][pos.var_idx]`. -/
def shape_at (variations : variation_array) (pos : shape_pos) : shape :=
  (variations.getD pos.shape_idx []).getD pos.var_idx shape_default

/-- The placements `positions[0], ..., positions[n-1]` read by the loops
`for (int i = 0; i < n; i++)` with `n = variations.size()`. -/
def slots (variations : variation_array) (positions : List shape_pos) : List shape_pos :=
  (List.range variations.length).map (pos_at positions)

/-- The loop body of `get_bounds`: the pair `(lt, rb)` updated with one placement. -/
def bounds_step (variations : variation_array) (acc : vec2i × vec2i) (pos : shape_pos) :
    vec2i × vec2i :=
  let sh := shape_at variations pos
  (⟨min acc.1.x pos.x, min acc.1.y pos.y⟩,
    ⟨max acc.2.x (pos.x + sh.width), max acc.2.y (pos.y + sh.height)⟩)

/-- The function `get_bounds`: the pair `(lt, rb)`. -/
def get_bounds (variations : variation_array) (positions : List shape_pos) : vec2i × vec2i :=
  (slots variations positions).foldl (bounds_step variations)
    (⟨INT_MAX, INT_MAX⟩, ⟨INT_MIN, INT_MIN⟩)

/-- The function `center`. -/
def center (variations : variation_array) (positions : List shape_pos) : List shape_pos :=
  let lt := (get_bounds variations positions).1
  let rb := (get_bounds variations positions).2
  let cx := Int.tdiv (rb.x + lt.x) 2
  let cy := Int.tdiv (rb.y + lt.y) 2
  positions.map (fun pos => { pos with x := pos.x - cx, y := pos.y - cy })

/-- The corner `lt` that `flood_fill` takes from `get_bounds`. -/
def grid_lt (variations : variation_array) (positions : List shape_pos) : vec2i :=
  (get_bounds variations positions).1

/-- The grid width `w = rb.x - lt.x + 1` of `flood_fill`. -/
def grid_w (variations : variation_array) (positions : List shape_pos) : Int :=
  (get_bounds variations positions).2.x - (get_bounds variations positions).1.x + 1

/-- The grid height `h = rb.y - lt.y + 1` of `flood_fill`. -/
def grid_h (variations : variation_array) (positions : List shape_pos) : Int :=
  (get_bounds variations positions).2.y - (get_bounds variations positions).1.y + 1

/-- The block "create the mask" of `flood_fill`: a zeroed `w*h` grid with every placed cell
set. -/
def rasterise (variations : variation_array) (positions : List shape_pos) (lt : vec2i)
    (w h : Int) : List Bool :=
  (slots variations positions).foldl (fun mask pos =>
      (shape_at variations pos).squares.foldl (fun m sq =>
        mask_set m ((pos.x + sq.x - lt.x) + (pos.y + sq.y - lt.y) * w)) mask)
    (List.replicate (w * h).toNat false)

/-- The rasterised occupancy grid of a layout. -/
def grid_mask (variations : variation_array) (positions : List shape_pos) : List Bool :=
  rasterise variations positions (grid_lt variations positions)
    (grid_w variations positions) (grid_h variations positions)

/-- The block "compute the starting point" of `flood_fill`: the grid centre, replaced by the
first of its `COFFS` neighbours that reads 0 when the centre itself is occupied. -/
def seed_cell (w h : Int) (mask : List Bool) : vec2i :=
  let start : vec2i := ⟨Int.tdiv w 2, Int.tdiv h 2⟩
  if mask_get mask (start.x + start.y * w) then
    match COFFS.find? (fun offs => !(mask_get mask ((start + offs).x + (start + offs).y * w))) with
    | some offs => start + offs
    | none => start
  else start

/-- The seed `flood_fill` starts from, in grid coordinates. -/
def grid_seed (variations : variation_array) (positions : List shape_pos) : vec2i :=
  seed_cell (grid_w variations positions) (grid_h variations positions)
    (grid_mask variations positions)

/-- The loop `for (const vec2i& offs : COFFS)` inside the fill, for the popped cell `c`, over
the offsets still to do. The stack `cellq` is kept with its back at the head. `none` is the
`return -1`. -/
def fill_neighbours (w h : Int) (c : vec2i) :
    List vec2i → List vec2i → List Bool → Option (List vec2i × List Bool)
  | [], cellq, mask => some (cellq, mask)
  | offs :: rest, cellq, mask =>
    let c1 := c + offs
    if c1.x < 0 ∨ c1.y < 0 ∨ c1.x ≥ w ∨ c1.y ≥ h then none
    else
      let idx := c1.x + c1.y * w
      if mask_get mask idx = false then
        fill_neighbours w h c rest (c1 :: cellq) (mask_set mask idx)
      else fill_neighbours w h c rest cellq mask

/-- The loop `while (!cellq.empty())` of `flood_fill`, on fuel (one unit per iteration).
The result is the returned `int` and the calls made to `hit_fn`, in order; `none` means the
fuel ran out. -/
def fill_loop (w h : Int) (lt : vec2i) :
    Nat → List vec2i → List Bool → Int → List vec2i → Option (Int × List vec2i)
  | _, [], _, nvisited, hits => some (nvisited, hits)
  | 0, _ :: _, _, _, _ => none
  | fuel + 1, c :: cellq, mask, nvisited, hits =>
    let hits1 := hits ++ [(⟨c.x + lt.x, c.y + lt.y⟩ : vec2i)]
    match fill_neighbours w h c COFFS cellq mask with
    | none => some (-1, hits1)
    | some (cellq1, mask1) => fill_loop w h lt fuel cellq1 mask1 (nvisited + 1) hits1

/-- The function `flood_fill`: the returned `int` together with the list of `hit_fn` calls. -/
def flood_fill (variations : variation_array) (positions : List shape_pos) :
    Option (Int × List vec2i) :=
  let lt := grid_lt variations positions
  let w := grid_w variations positions
  let h := grid_h variations positions
  let mask := grid_mask variations positions
  let c0 := grid_seed variations positions
  fill_loop w h lt (mask.length + 1) [c0] (mask_set mask (c0.x + c0.y * w)) 0 []

/-- The function `score`. Its `double` result is an exact integer, kept as `Int`. -/
def score (variations : variation_array) (positions : List shape_pos) : Option Int :=
  match flood_fill variations positions with
  | none => none
  | some (area, _) =>
    if area > 0 then some area
    else
      let nshapes := variations.length
      let dist := (List.range nshapes).foldl (fun dist i =>
        let pos1 := pos_at positions i
        let pos2 := pos_at positions ((i + 1) % nshapes)
        dist + |distance (shape_at variations pos1) pos1.p
          (shape_at variations pos2) pos2.p|) 0
      some (-dist)

/-- A shape as the program builds it: the result of `setup` on a non-empty list of cells
with non-negative coordinates. -/
def well_formed (sh : shape) : Prop :=
  sh = setup sh.squares ∧ nonneg_cells sh.squares ∧ sh.squares ≠ []

instance (sh : shape) : Decidable (well_formed sh) := by
  unfold well_formed; infer_instance

/-- A valid layout: one slot per input shape, the shape indices a permutation of `0..n-1`,
every variation index in range; every variation is well formed. -/
def valid_layout (variations : variation_array) (positions : List shape_pos) : Prop :=
  positions.length = variations.length ∧
  (positions.map shape_pos.shape_idx).Perm (List.range variations.length) ∧
  (∀ pos ∈ positions, pos.var_idx < (variations.getD pos.shape_idx []).length) ∧
  (∀ vs ∈ variations, ∀ sh ∈ vs, well_formed sh)

instance (variations : variation_array) (positions : List shape_pos) :
    Decidable (valid_layout variations positions) := by
  unfold valid_layout; infer_instance

/-- The gap metric in the spec's words: the sum over every cyclic-adjacent slot pair
`(i, i+1 mod n)` of `|distance(shape_i, shape_{i+1})|`. -/
def gap_sum (variations : variation_array) (positions : List shape_pos) : Int :=
  ((List.range variations.length).map (fun i =>
    |distance (shape_at variations (pos_at positions i)) (pos_at positions i).p
      (shape_at variations (pos_at positions ((i + 1) % variations.length)))
      (pos_at positions ((i + 1) % variations.length)).p|)).sum

/-- The cell lies in the `w` by `h` grid. -/
def in_grid (w h : Int) (c : vec2i) : Prop := 0 ≤ c.x ∧ c.x < w ∧ 0 ≤ c.y ∧ c.y < h

instance (w h : Int) (c : vec2i) : Decidable (in_grid w h c) := by
  unfold in_grid; infer_instance

/-- The cell lies in the grid and is unoccupied. -/
def free_cell (w h : Int) (mask : List Bool) (c : vec2i) : Prop :=
  in_grid w h c ∧ mask_get mask (c.x + c.y * w) = false

instance (w h : Int) (mask : List Bool) (c : vec2i) : Decidable (free_cell w h mask c) := by
  unfold free_cell; infer_instance

/-- The cell lies in the grid and is occupied. -/
def occupied_cell (w h : Int) (mask : List Bool) (c : vec2i) : Prop :=
  in_grid w h c ∧ mask_get mask (c.x + c.y * w) = true

instance (w h : Int) (mask : List Bool) (c : vec2i) :
    Decidable (occupied_cell w h mask c) := by
  unfold occupied_cell; infer_instance

/-- The cell is in the first or last row or column of the grid. -/
def on_edge (w h : Int) (c : vec2i) : Prop :=
  c.x = 0 ∨ c.y = 0 ∨ c.x = w - 1 ∨ c.y = h - 1

instance (w h : Int) (c : vec2i) : Decidable (on_edge w h c) := by
  unfold on_edge; infer_instance

/-- Cells reachable from `s` through unoccupied grid cells by 8-connected steps. -/
inductive reach (w h : Int) (mask : List Bool) (s : vec2i) : vec2i → Prop where
  | seed : free_cell w h mask s → reach w h mask s s
  | step {c o : vec2i} : reach w h mask s c → o ∈ COFFS → free_cell w h mask (c + o) →
      reach w h mask s (c + o)

/-- The occupied cells of the layout form a closed ring around exactly one empty interior
cell `c` (grid coordinates): `c` is unoccupied, its 8 neighbours are occupied, and every
other unoccupied cell of the grid is connected to the edge of the grid. -/
def ring_around (variations : variation_array) (positions : List shape_pos) (c : vec2i) :
    Prop :=
  free_cell (grid_w variations positions) (grid_h variations positions)
    (grid_mask variations positions) c ∧
  (∀ o ∈ COFFS, occupied_cell (grid_w variations positions) (grid_h variations positions)
    (grid_mask variations positions) (c + o)) ∧
  (∀ d, free_cell (grid_w variations positions) (grid_h variations positions)
      (grid_mask variations positions) d → d ≠ c →
    ∃ e, reach (grid_w variations positions) (grid_h variations positions)
      (grid_mask variations positions) d e ∧
      on_edge (grid_w variations positions) (grid_h variations positions) e)

/-- The state invariant of the fill loop started from seed `s` on the rasterised mask
`mask0`: `cellq` is the stack, `mask` the current mask, `visited` the cells popped so far. -/
def fill_inv (w h : Int) (mask0 : List Bool) (s : vec2i) (cellq : List vec2i)
    (mask : List Bool) (visited : List vec2i) : Prop :=
  mask.length = (w * h).toNat ∧
  (∀ c, in_grid w h c → (mask_get mask (c.x + c.y * w) = true ↔
    mask_get mask0 (c.x + c.y * w) = true ∨ c ∈ cellq ∨ c ∈ visited)) ∧
  (∀ c, c ∈ cellq ∨ c ∈ visited → reach w h mask0 s c) ∧
  (cellq ++ visited).Nodup ∧
  (∀ c ∈ visited, ∀ o ∈ COFFS, in_grid w h (c + o) ∧
    mask_get mask ((c + o).x + (c + o).y * w) = true) ∧
  (s ∈ cellq ∨ s ∈ visited)

/-- One placement moved by the vector `t`; the indices stay. -/
def shift_pos (t : vec2i) (pos : shape_pos) : shape_pos :=
  { pos with x := pos.x + t.x, y := pos.y + t.y }

/-- Every placement of the layout moved by the same vector `t`. -/
def translate (positions : List shape_pos) (t : vec2i) : List shape_pos :=
  positions.map (shift_pos t)

/-- No `int` overflow in the bounding boxes: both corners of every placed shape's box are
representable. -/
def in_int_range (variations : variation_array) (positions : List shape_pos) : Prop :=
  ∀ pos ∈ positions,
    INT_MIN ≤ pos.x ∧ pos.x ≤ INT_MAX ∧ INT_MIN ≤ pos.y ∧ pos.y ≤ INT_MAX ∧
    INT_MIN ≤ pos.x + (shape_at variations pos).width ∧
    pos.x + (shape_at variations pos).width ≤ INT_MAX ∧
    INT_MIN ≤ pos.y + (shape_at variations pos).height ∧
    pos.y + (shape_at variations pos).height ≤ INT_MAX

instance (variations : variation_array) (positions : List shape_pos) :
    Decidable (in_int_range variations positions) := by
  unfold in_int_range; infer_instance

/-- The indices `x + y*w` written by the block "create the mask" of `flood_fill`, in order. -/
def raster_indices (variations : variation_array) (positions : List shape_pos) (lt : vec2i)
    (w : Int) : List Int :=
  (slots variations positions).flatMap (fun pos =>
    (shape_at variations pos).squares.map (fun sq =>
      (pos.x + sq.x - lt.x) + (pos.y + sq.y - lt.y) * w))

/-- The indices read by the loop `for (const vec2i& offs : COFFS)` of the block "compute the
starting point", over the offsets still to do: one per neighbour, up to and including the
first that reads 0 (the `break`). -/
def probe_indices (w : Int) (mask : List Bool) (start : vec2i) : List vec2i → List Int
  | [] => []
  | offs :: rest =>
    let c := start + offs
    (c.x + c.y * w) ::
      (if mask_get mask (c.x + c.y * w) = false then [] else probe_indices w mask start rest)

/-- The indices read by the block "compute the starting point": the centre, then the probes
of the nudge when the centre is occupied. -/
def seed_indices (w h : Int) (mask : List Bool) : List Int :=
  let start : vec2i := ⟨Int.tdiv w 2, Int.tdiv h 2⟩
  (start.x + start.y * w) ::
    (if mask_get mask (start.x + start.y * w) then probe_indices w mask start COFFS else [])

/-- The indices `idx` read inside the fill for the popped cell `c`, over the offsets still
to do; the loop stops at the first neighbour off the grid (the `return -1`). -/
def neighbour_indices (w h : Int) (c : vec2i) : List vec2i → List Bool → List Int
  | [], _ => []
  | offs :: rest, mask =>
    let c1 := c + offs
    if c1.x < 0 ∨ c1.y < 0 ∨ c1.x ≥ w ∨ c1.y ≥ h then []
    else
      let idx := c1.x + c1.y * w
      idx :: (if mask_get mask idx = false then
          neighbour_indices w h c rest (mask_set mask idx)
        else neighbour_indices w h c rest mask)

/-- The indices read by the loop `while (!cellq.empty())`, on the fuel of `fill_loop`. -/
def fill_indices (w h : Int) : Nat → List vec2i → List Bool → List Int
  | _, [], _ => []
  | 0, _ :: _, _ => []
  | fuel + 1, c :: cellq, mask =>
    neighbour_indices w h c COFFS mask ++
      (match fill_neighbours w h c COFFS cellq mask with
      | none => []
      | some (cellq1, mask1) => fill_indices w h fuel cellq1 mask1)

/-- Every index at which `flood_fill` reads or writes its grid `mask`, in order: the
rasterised cells, the centre and the nudge probes, the seed, the neighbours of the fill. -/
def flood_fill_indices (variations : variation_array) (positions : List shape_pos) :
    List Int :=
  let lt := grid_lt variations positions
  let w := grid_w variations positions
  let h := grid_h variations positions
  let mask := grid_mask variations positions
  let c0 := grid_seed variations positions
  raster_indices variations positions lt w ++ seed_indices w h mask ++
    (c0.x + c0.y * w) ::
      fill_indices w h (mask.length + 1) [c0] (mask_set mask (c0.x + c0.y * w))

/-! ### The same functions in `int` arithmetic -/

/-- The value an `int` computation leaves when its exact result is `x`: the representative
of `x` modulo `2^32` in `[-2^31, 2^31)`. Signed overflow is undefined behaviour in C++; this
is the two's-complement result. The theorems use it only through `wrap_int_fits`: a result
that fits is left alone. -/
def wrap_int (x : Int) : Int := (x + 2147483648) % 4294967296 - 2147483648

/-- The number is representable as an `int`. -/
def fits_int (x : Int) : Prop := INT_MIN ≤ x ∧ x ≤ INT_MAX

instance (x : Int) : Decidable (fits_int x) := by
  unfold fits_int; infer_instance

/-- The method `shape::is_set` in `int` arithmetic. -/
def is_set_int (sh : shape) (x y : Int) : Bool :=
  if x < 0 ∨ y < 0 ∨ x ≥ sh.width ∨ y ≥ sh.height then false
  else mask_get sh.mask (wrap_int (x + wrap_int (y * sh.width)))

/-- The friend function `overlap_status` in `int` arithmetic: every sum and difference the
code computes is wrapped. -/
def overlap_status_int (sh1 : shape) (pos1 : vec2i) (sh2 : shape) (pos2 : vec2i) : overlap :=
  if pos1.x > wrap_int (pos2.x + sh2.width) ∨ pos2.x > wrap_int (pos1.x + sh1.width) ∨
      pos1.y > wrap_int (pos2.y + sh2.height) ∨ pos2.y > wrap_int (pos1.y + sh1.height) then
    overlap.Disjoint
  else
    let dx := wrap_int (pos1.x - pos2.x)
    let dy := wrap_int (pos1.y - pos2.y)
    if sh1.squares.any (fun sq =>
        is_set_int sh2 (wrap_int (sq.x + dx)) (wrap_int (sq.y + dy))) then overlap.Overlap
    else if sh1.squares.any (fun sq =>
        OFFS.any (fun offs => is_set_int sh2 (wrap_int (wrap_int (sq.x + dx) + offs.x))
          (wrap_int (wrap_int (sq.y + dy) + offs.y)))) then
      overlap.Border
    else overlap.Disjoint

/-- The friend function `distance` in `int` arithmetic. -/
def distance_int (sh1 : shape) (pos1 : vec2i) (sh2 : shape) (pos2 : vec2i) : Int :=
  match overlap_status_int sh1 pos1 sh2 pos2 with
  | overlap.Border => 0
  | overlap.Overlap => -1
  | overlap.Disjoint =>
    let dx := wrap_int (pos1.x - pos2.x)
    let dy := wrap_int (pos1.y - pos2.y)
    let min_dist := sh1.squares.foldl (fun m sq1 =>
      let x := wrap_int (sq1.x + dx)
      let y := wrap_int (sq1.y + dy)
      sh2.squares.foldl (fun m2 sq2 =>
        min m2 (wrap_int (wrap_int |wrap_int (x - sq2.x)| + wrap_int |wrap_int (y - sq2.y)|)))
        m) INT_MAX
    wrap_int (min_dist - 1)

/-- No `int` overflow in `overlap_status`: the positions and the four corner sums of the
early-out are representable, the widths and the heights of the two shapes add up to less
than `INT_MAX`, and the two masks have an `int` size. -/
def overlap_in_range (sh1 : shape) (pos1 : vec2i) (sh2 : shape) (pos2 : vec2i) : Prop :=
  fits_int pos1.x ∧ fits_int pos1.y ∧ fits_int pos2.x ∧ fits_int pos2.y ∧
  fits_int (pos1.x + sh1.width) ∧ fits_int (pos1.y + sh1.height) ∧
  fits_int (pos2.x + sh2.width) ∧ fits_int (pos2.y + sh2.height) ∧
  sh1.width + sh2.width < INT_MAX ∧ sh1.height + sh2.height < INT_MAX ∧
  sh1.width * sh1.height ≤ INT_MAX ∧ sh2.width * sh2.height ≤ INT_MAX

instance (sh1 : shape) (pos1 : vec2i) (sh2 : shape) (pos2 : vec2i) :
    Decidable (overlap_in_range sh1 pos1 sh2 pos2) := by
  unfold overlap_in_range; infer_instance

/-- No `int` overflow in the minimum loop of `distance`: the offset between the two
positions and the extents of the two shapes add up to at most `INT_MAX`. -/
def gap_in_range (sh1 : shape) (pos1 : vec2i) (sh2 : shape) (pos2 : vec2i) : Prop :=
  |pos1.x - pos2.x| + |pos1.y - pos2.y| + sh1.width + sh2.width + sh1.height + sh2.height ≤
    INT_MAX

instance (sh1 : shape) (pos1 : vec2i) (sh2 : shape) (pos2 : vec2i) :
    Decidable (gap_in_range sh1 pos1 sh2 pos2) := by
  unfold gap_in_range; infer_instance

/-- The cells of the shape lie in its box `[0, width) x [0, height)`. -/
def cells_in_box (sh : shape) : Prop :=
  ∀ sq ∈ sh.squares, 0 ≤ sq.x ∧ sq.x < sh.width ∧ 0 ≤ sq.y ∧ sq.y < sh.height

/-- The function `center` in `int` arithmetic: the corner sums and the subtractions are
wrapped. -/
def center_int (variations : variation_array) (positions : List shape_pos) : List shape_pos :=
  let lt := (get_bounds variations positions).1
  let rb := (get_bounds variations positions).2
  let cx := Int.tdiv (wrap_int (rb.x + lt.x)) 2
  let cy := Int.tdiv (wrap_int (rb.y + lt.y)) 2
  positions.map (fun pos => { pos with x := wrap_int (pos.x - cx), y := wrap_int (pos.y - cy) })

/-- No `int` overflow in the corner sums `rb.x + lt.x` and `rb.y + lt.y` of `center`. -/
def center_in_range (variations : variation_array) (positions : List shape_pos) : Prop :=
  fits_int ((get_bounds variations positions).2.x + (get_bounds variations positions).1.x) ∧
  fits_int ((get_bounds variations positions).2.y + (get_bounds variations positions).1.y)

instance (variations : variation_array) (positions : List shape_pos) :
    Decidable (center_in_range variations positions) := by
  unfold center_in_range; infer_instance

/-! ### The generation loop of `main` -/

/-- The values returned by the successive `rand()` calls of one pass of the flip loop:
the mutation kind, the two slot draws, and up to two further draws (the two variation draws
of a re-variation, or the offset draw of a range shift). -/
structure flip_draws where
  mutation : Nat
  pidx1 : Nat
  pidx2 : Nat
  r1 : Nat
  r2 : Nat
deriving DecidableEq, Repr

/-- The assignment
`target[k].var_idx = (uint16_t)(r % variations[target[k].shape_idx].size())`. -/
def set_var (variations : variation_array) (target : List shape_pos) (k r : Nat) :
    List shape_pos :=
  target.set k { pos_at target k with
    var_idx := (r % (variations.getD (pos_at target k).shape_idx []).length) % 65536 }

/-- The statements `target[k].x += offs.x; target[k].y += offs.y`. -/
def shift_slot (offs : vec2i) (target : List shape_pos) (k : Nat) : List shape_pos :=
  target.set k { pos_at target k with
    x := (pos_at target k).x + offs.x, y := (pos_at target k).y + offs.y }

/-- The statement `std::swap(target[i].shape_idx, target[j].shape_idx)`. -/
def swap_shape_idx (target : List shape_pos) (i j : Nat) : List shape_pos :=
  (target.set i { pos_at target i with shape_idx := (pos_at target j).shape_idx }).set j
    { pos_at target j with shape_idx := (pos_at target i).shape_idx }

/-- The statement `std::swap(target[i].var_idx, target[j].var_idx)`. -/
def swap_var_idx (target : List shape_pos) (i j : Nat) : List shape_pos :=
  (target.set i { pos_at target i with var_idx := (pos_at target j).var_idx }).set j
    { pos_at target j with var_idx := (pos_at target i).var_idx }

/-- One pass of the loop `for (int iii = 0; iii < num_flips; iii++)` of `main`, with
`nshapes = variations.size()`. -/
def apply_flip (variations : variation_array) (target : List shape_pos) (d : flip_draws) :
    List shape_pos :=
  let nshapes := variations.length
  let mutation := d.mutation % 3
  let pidx1 := d.pidx1 % nshapes
  let pidx2 := d.pidx2 % nshapes
  if mutation = 0 then
    set_var variations (set_var variations target pidx1 d.r1) pidx2 d.r2
  else if mutation = 1 then
    let offs := COFFS.getD (d.r1 % 8) ⟨0, 0⟩
    (List.range' pidx1 (pidx2 + 1 - pidx1)).foldl (shift_slot offs) target
  else
    swap_var_idx (swap_shape_idx target pidx1 pidx2) pidx1 pidx2

/-- The whole flip loop: one `apply_flip` per drawn tuple, `num_flips` of them. -/
def mutate (variations : variation_array) (target : List shape_pos)
    (draws : List flip_draws) : List shape_pos :=
  draws.foldl (apply_flip variations) target

/-- The slot conditions of a valid layout: length `n`, the `shape_idx` values a permutation
of `0..n-1`, every `var_idx` a valid index into the variations of its slot's shape. -/
def slots_ok (variations : variation_array) (positions : List shape_pos) : Prop :=
  positions.length = variations.length ∧
  (positions.map shape_pos.shape_idx).Perm (List.range variations.length) ∧
  (∀ pos ∈ positions, pos.var_idx < (variations.getD pos.shape_idx []).length)

instance (variations : variation_array) (positions : List shape_pos) :
    Decidable (slots_ok variations positions) := by
  unfold slots_ok; infer_instance

/-- The `(shape_idx, var_idx)` pairs of a layout, slot by slot. -/
def slot_ids (positions : List shape_pos) : List (Nat × Nat) :=
  positions.map (fun pos => (pos.shape_idx, pos.var_idx))

/-- The elite-transfer loop of `main` over the remaining entries of `scores` (in sorted
order, each entry the layout `*(scores[i].pos)`): `cur_gen` is the buffer being filled and
`ii` the number of layouts copied so far. -/
def elite_loop (NUM_ELITE : Nat) :
    List (List shape_pos) → List (List shape_pos) → Nat → List (List shape_pos) × Nat
  | [], cur_gen, ii => (cur_gen, ii)
  | pos :: rest, cur_gen, ii =>
    let dupe := (List.range ii).any (fun j => decide (cur_gen.getD j [] = pos))
    let cur_gen1 := if dupe then cur_gen else cur_gen.set ii pos
    let ii1 := if dupe then ii else ii + 1
    if ii1 = NUM_ELITE then (cur_gen1, ii1) else elite_loop NUM_ELITE rest cur_gen1 ii1

/-- The elite transfer of one generation: the loop started with `ii = 0`. -/
def elite_transfer (NUM_ELITE : Nat) (sorted cur_gen : List (List shape_pos)) :
    List (List shape_pos) × Nat :=
  elite_loop NUM_ELITE sorted cur_gen 0

/-- The distinct layouts of a list in order of first occurrence. -/
def first_distinct : List (List shape_pos) → List (List shape_pos)
  | [] => []
  | x :: xs => x :: (first_distinct xs).filter (fun y => decide (y ≠ x))

/-! ### Rotations, mirror, variations -/

/-- The `enum class rotation`. -/
inductive rotation where
  | None
  | CW_90
  | CW_180
  | CW_270
deriving DecidableEq, Repr

/-- The operator `shape::operator==`: same width and same mask. -/
def shape_eq (a b : shape) : Bool := decide (a.width = b.width) && decide (a.mask = b.mask)

/-- The method `shape::mirrored`. -/
def mirrored (sh : shape) : shape :=
  setup (sh.squares.map (fun sq => (⟨sh.width - sq.x - 1, sq.y⟩ : vec2i)))

/-- The cell that `shape::rotated` writes for the cell `sq` of a shape of width `w` and
height `h` (the `switch (rot)`). -/
def rotate_cell (w h : Int) (rot : rotation) (sq : vec2i) : vec2i :=
  match rot with
  | rotation.CW_90 => ⟨h - sq.y - 1, sq.x⟩
  | rotation.CW_180 => ⟨w - sq.x - 1, h - sq.y - 1⟩
  | rotation.CW_270 => ⟨sq.y, w - sq.x - 1⟩
  | rotation.None => ⟨sq.x, sq.y⟩

/-- The method `shape::rotated`. -/
def rotated (sh : shape) (rot : rotation) : shape :=
  setup (sh.squares.map (rotate_cell sh.width sh.height rot))

/-- The lambda `add_shape` of `get_variations`: append `sh` unless `std::find` finds an
equal shape in `res`. -/
def add_shape (res : List shape) (sh : shape) : List shape :=
  if res.any (fun r => shape_eq r sh) then res else res ++ [sh]

/-- The method `shape::get_variations`. -/
def get_variations (sh : shape) : List shape :=
  let res := add_shape [] sh
  let res := add_shape res (rotated sh rotation.CW_90)
  let res := add_shape res (rotated sh rotation.CW_180)
  let res := add_shape res (rotated sh rotation.CW_270)
  let m := mirrored sh
  let res := add_shape res m
  let res := add_shape res (rotated m rotation.CW_90)
  let res := add_shape res (rotated m rotation.CW_180)
  add_shape res (rotated m rotation.CW_270)

/-- Width and height are the largest x and y coordinate plus 1 (the largest are attained
when there is a cell at all). -/
def extents_match (sh : shape) : Prop :=
  (∀ c ∈ sh.squares, c.x + 1 ≤ sh.width ∧ c.y + 1 ≤ sh.height) ∧
  (sh.squares ≠ [] → (∃ c ∈ sh.squares, c.x + 1 = sh.width) ∧
    (∃ c ∈ sh.squares, c.y + 1 = sh.height))

/-- What `setup` guarantees of the shapes the program builds: mask and boundary come from
the cell list, the cells are non-negative, the extents are the largest coordinates plus 1. -/
def built_shape (sh : shape) : Prop :=
  sh = setup sh.squares ∧ nonneg_cells sh.squares ∧ extents_match sh

/-- The bounding box is tight at the origin: some cell has x = 0 and some cell has y = 0. -/
def tight_at_origin (sh : shape) : Prop :=
  (∃ c ∈ sh.squares, c.x = 0) ∧ (∃ c ∈ sh.squares, c.y = 0)

/-- A normalized shape in the sense of the spec: built by `setup`, non-negative, extents the
largest coordinates plus 1, bounding box tight at the origin. -/
def normalized (sh : shape) : Prop := built_shape sh ∧ tight_at_origin sh

/-- The eight candidates that `get_variations` offers to `add_shape`, in its order: the
shape, its three rotations, its mirror image, the three rotations of the mirror image. -/
def candidates (sh : shape) : List shape :=
  [sh, rotated sh rotation.CW_90, rotated sh rotation.CW_180, rotated sh rotation.CW_270,
    mirrored sh, rotated (mirrored sh) rotation.CW_90, rotated (mirrored sh) rotation.CW_180,
    rotated (mirrored sh) rotation.CW_270]

/-- First-seen order, in the words of the spec: of a list of shapes keep, in order, every
shape that is not equal (`shape::operator==`) to an earlier one. -/
def first_seen : List shape → List shape
  | [] => []
  | x :: xs => x :: (first_seen xs).filter (fun y => !(shape_eq x y))

/-! ### Parsing -/

/-- The space character. -/
def SPACE : Char := Char.ofNat 32

/-- The loop `for (int i = 0; i < n; i++)` of `shape::parse` over the characters of one
line still to read, `i` the index of the next one; the state is `sh.squares` and `nparsed`. -/
def parse_line (row : Int) : Int → List Char → List vec2i × Int → List vec2i × Int
  | _, [], acc => acc
  | i, ch :: rest, acc =>
    parse_line row (i + 1) rest
      (if ch ≠ SPACE then (acc.1 ++ [(⟨i, row⟩ : vec2i)], acc.2 + 1) else acc)

/-- The loop `while (std::getline(is, line))` of `shape::parse`. The stream is the list of
its remaining lines; the result is the final `(sh.squares, nparsed)` and the lines left in
the stream. -/
def parse_rows : Int → List (List Char) → List vec2i × Int →
    (List vec2i × Int) × List (List Char)
  | _, [], acc => (acc, [])
  | row, line :: rest, acc =>
    if line = [] then (acc, rest)
    else parse_rows (row + 1) rest (parse_line row 0 line acc)

/-- The function `shape::parse(std::istream&, shape&)` on a fresh shape: the returned
`bool`, the shape, and the stream afterwards. -/
def parse (is : List (List Char)) : Bool × shape × List (List Char) :=
  let r := parse_rows 0 is ([], 0)
  (decide (r.1.2 ≠ 0), setup r.1.1, r.2)

/-- The loop `while (true)` of `shape::parse(std::istream&)`, on fuel. -/
def parse_all_loop : Nat → List (List Char) → List shape → Option (List shape)
  | 0, _, _ => none
  | fuel + 1, is, res =>
    if (parse is).1 = false then some res
    else parse_all_loop fuel (parse is).2.2 (res ++ [(parse is).2.1])

/-- The function `shape::parse(std::istream&)`. -/
def parse_all (is : List (List Char)) : Option (List shape) :=
  parse_all_loop (is.length + 1) is []

/-- The layout `pos` that the seeding loop of `main` builds before it calls
`arrange_circle`: `nshapes` placements `{0, 0, i, 0}`. -/
def seed_layout (nshapes : Nat) : List shape_pos :=
  (List.range nshapes).map (fun i => (⟨0, 0, i, 0⟩ : shape_pos))

/-- The start of `main`: the arguments `(variations, pos)` of its first call
`shape::arrange_circle(R, variations, pos)` (seeding loop, `k = 0`; `GENERATION_SIZE` is
10000, so the loop body runs). No statement between `shape::parse(ifs)` and that call
tests the parsed list. -/
def main_first_seed (is : List (List Char)) : Option (variation_array × List shape_pos) :=
  (parse_all is).map (fun shapes => (shapes.map get_variations, seed_layout shapes.length))

/-- The first text block of a stream: its lines up to the first empty line or the end. -/
def first_block (is : List (List Char)) : List (List Char) :=
  is.takeWhile (fun l => decide (l ≠ []))

/-- The stream after its first block and the empty line that ends it. -/
def after_block (is : List (List Char)) : List (List Char) :=
  (is.dropWhile (fun l => decide (l ≠ []))).drop 1

/-- The cells of a text block in the spec's words: one cell (column index, row index) for
each non-space character, in row-major order. -/
def block_cells (block : List (List Char)) : List vec2i :=
  block.enum.flatMap (fun rl =>
    (rl.2.enum.filter (fun ic => decide (ic.2 ≠ SPACE))).map
      (fun ic => (⟨(ic.1 : Int), (rl.1 : Int)⟩ : vec2i)))

/-- The blocks of a stream: maximal runs of lines separated by single empty lines; `acc` is
the block being collected. -/
def text_blocks_from : List (List Char) → List (List Char) → List (List (List Char))
  | [], acc => [acc]
  | l :: rest, acc =>
    if l = [] then acc :: text_blocks_from rest [] else text_blocks_from rest (acc ++ [l])

/-- The blocks of a stream. -/
def text_blocks (is : List (List Char)) : List (List (List Char)) := text_blocks_from is []

/-- The shapes `shape::parse(std::istream&)` returns, in the words of what the loop does:
the shapes of the blocks that come before the first block without a cell. -/
def parsed_shapes (is : List (List Char)) : List shape :=
  ((text_blocks is).takeWhile (fun b => decide (block_cells b ≠ []))).map
    (fun b => setup (block_cells b))

/-! ### Parent selection -/

/-- The conversion `(float)r` of a non-negative `int`: `r` rounded to 24 significant bits, to
nearest, ties to even (IEEE 754 binary32). The result is a whole number, kept as `Nat`. -/
def to_float (r : Nat) : Nat :=
  if r < 2 ^ 24 then r
  else
    let s := Nat.log 2 r - 23
    let q := r / 2 ^ s
    let rem := r % 2 ^ s
    let half := 2 ^ (s - 1)
    (if rem > half ∨ (rem = half ∧ q % 2 = 1) then q + 1 else q) * 2 ^ s

/-- The value `(int)sqrtf(x)` for a whole `float` x below `2^48`: the square root rounded to
24 significant bits (IEEE 754, correctly rounded), then truncated. With `n` the integer part
of the exact root, the rounded root reaches `n + 1` exactly when the root is at least the
midpoint `n + 1 - 2^(k-24)` of the last two `float`s up to `n + 1`, where `2^k <= n`. -/
def sqrtf_trunc (x : Nat) : Nat :=
  let n := Nat.sqrt x
  if n = 0 then 0
  else
    let M := 2 ^ (24 - Nat.log 2 n)
    if ((n + 1) * M - 1) ^ 2 ≤ x * M ^ 2 then n + 1 else n

/-- The index `(int)sqrtf((float)(rand()%(pick_size*pick_size)))` of `main` for the drawn
value `r`. -/
def parent_index (pick_size r : Nat) : Nat :=
  sqrtf_trunc (to_float (r % (pick_size * pick_size)))

/-- The number of values `0 <= r < P*P` that select rank `j`. -/
def pick_count (P j : Nat) : Nat :=
  ((List.range (P * P)).filter (fun r => decide (parent_index P r = j))).length

/-! ### Core extraction -/

/-- The function `extract_core` called with a fresh shape: the returned `bool`, the shape
`sh` and the offset `pos`. The visitor takes the running minimum into `pos` and appends
the cell to `sh.squares`. -/
def extract_core (variations : variation_array) (positions : List shape_pos) :
    Option (Bool × shape × vec2i) :=
  match flood_fill variations positions with
  | none => none
  | some (num_visited, hits) =>
    let pos := hits.foldl (fun (p : vec2i) c => (⟨min p.x c.x, min p.y c.y⟩ : vec2i))
      ⟨INT_MAX, INT_MAX⟩
    some (decide (num_visited > 0), setup (hits.map (fun sq => sq - pos)), pos)

/-! ### Angles -/

/-- The constant `PI` of `shape.hpp`: the decimal literal `3.14159265358979323846` as it is
written. -/
def PI : ℚ := 314159265358979323846 / 100000000000000000000

/-- The function `angle_greater`. A `double` is a rational number here: the comparisons and
the two subtractions are exact on the arguments the tests use. -/
def angle_greater (lhs rhs : ℚ) : Bool :=
  if lhs < rhs ∧ rhs - lhs > PI then true
  else decide (lhs > rhs ∧ lhs - rhs < PI)

/-! ### Circular seeding -/

/-- The `double`-valued parts of `arrange_circle`, which are not computed here and are
handed to the model as they are: the type of the cost values with the comparison
`d < min_d`, the start value `numeric_limits<double>::max()`, the value `MAX_DIST + n` for
an `int` n, the value `sh.dist2circle(radius, p)/sh.angle_range(p).second`, the test
`angle_greater(sh.angle_range(p).second, prev_angles.second)` with `prev_angles` the angle
range of the previous shape at the previous position, and the seed position
`((int)round(radius - sh.width*0.5), (int)round(-sh.height*0.5))`. -/
structure fit_env where
  cost : Type
  lt : cost → cost → Bool
  DBL_MAX : cost
  big : Int → cost
  radial : shape → vec2i → cost
  turns_back : shape → vec2i → shape → vec2i → Bool
  seed : shape → vec2i

/-- The candidates of `best_fit` in the order of its three nested loops: the variation
index, the variation, and the position `p = pos + bpos - cpos`. -/
def fit_candidates (boundary : List vec2i) (pos : vec2i) (variations : List shape) :
    List (Nat × shape × vec2i) :=
  variations.enum.flatMap (fun vs =>
    boundary.flatMap (fun bpos =>
      vs.2.squares.map (fun cpos => (vs.1, vs.2, pos + bpos - cpos))))

/-- The method `shape::best_fit` of the shape with boundary list `boundary`. The closure
`fit_fn` reads `positions` by reference, so it is handed the current value of `res`. -/
def best_fit (env : fit_env) (fit_fn : shape_pos → vec2i → shape → env.cost)
    (boundary : List vec2i) (res : shape_pos) (pos : vec2i) (variations : List shape) :
    shape_pos :=
  ((fit_candidates boundary pos variations).foldl
    (fun (st : shape_pos × env.cost) c =>
      let d := fit_fn st.1 c.2.2 c.2.1
      if env.lt d st.2 then ({ st.1 with x := c.2.2.x, y := c.2.2.y, var_idx := c.1 }, d)
      else st)
    (res, env.DBL_MAX)).1

/-- The lambda that `arrange_circle` hands to `best_fit` in pass `i`, writing slot `k`:
`res` is the current value of that slot, `prev_shape` and `prev_start` are the previous
shape and position as read when the pass began. -/
def fit_cost (env : fit_env) (variations : variation_array) (positions : List shape_pos)
    (i k : Nat) (prev_shape : shape) (prev_start : vec2i) (res : shape_pos) (p : vec2i)
    (sh : shape) : env.cost :=
  let nshapes := variations.length
  let live := positions.set k res
  let prev_pos := pos_at live (i - 1)
  let next_pos := pos_at live ((i + 1) % nshapes)
  let d1 := distance sh p (shape_at variations next_pos) next_pos.p
  if i = nshapes ∧ d1 ≠ 0 then env.big |d1|
  else
    let d := distance sh p prev_shape prev_pos.p
    if d ≠ 0 then env.big 0
    else if env.turns_back sh p prev_shape prev_start then env.big 0
    else env.radial sh p

/-- The body of the loop `for (int i = 0; i <= nshapes; i++)` of `arrange_circle`. -/
def arrange_step (env : fit_env) (variations : variation_array) (positions : List shape_pos)
    (i : Nat) : List shape_pos :=
  let nshapes := variations.length
  if i = 0 then
    let pos := pos_at positions 0
    let sh := (variations.getD pos.shape_idx []).getD 0 shape_default
    positions.set 0 { pos with x := (env.seed sh).x, y := (env.seed sh).y, var_idx := 0 }
  else
    let prev_pos := pos_at positions (i - 1)
    let prev_shape := shape_at variations prev_pos
    let k := i % nshapes
    let vars := variations.getD (pos_at positions k).shape_idx []
    positions.set k (best_fit env (fit_cost env variations positions i k prev_shape prev_pos.p)
      prev_shape.boundary (pos_at positions k) prev_pos.p vars)

/-- The function `arrange_circle`: the passes `i = 0, ..., nshapes`. -/
def arrange_circle (env : fit_env) (variations : variation_array)
    (positions : List shape_pos) : List shape_pos :=
  (List.range (variations.length + 1)).foldl (arrange_step env variations) positions

/-- The values `MAX_DIST + n` for `int` n from 0 on are exact in a `double`: they compare
as the numbers n do, and all lie below `numeric_limits<double>::max()`. -/
def exact_penalties (env : fit_env) : Prop :=
  ∀ a b : Int, 0 ≤ a → a ≤ INT_MAX → 0 ≤ b → b ≤ INT_MAX →
    env.lt (env.big a) (env.big b) = decide (a < b) ∧ env.lt (env.big a) env.DBL_MAX = true

/-- The layout that the passes `i = 0, ..., nshapes - 1` of `arrange_circle` leave to the
closing pass. -/
def before_closing (env : fit_env) (variations : variation_array)
    (positions : List shape_pos) : List shape_pos :=
  (List.range variations.length).foldl (arrange_step env variations) positions

/-- The fit cost of the closing pass in the words of the spec, for the candidate shape `sh`
at `p`, with `prev` the placement in slot n-1 and `next` the placement in slot 1: the penalty
`MAX_DIST + |d1|` unless the candidate borders `next`; else `MAX_DIST` unless it borders
`prev` and its angle range does not turn back behind that of `prev`; else the radial cost. -/
def closing_cost (env : fit_env) (variations : variation_array) (prev next : shape_pos)
    (p : vec2i) (sh : shape) : env.cost :=
  if distance sh p (shape_at variations next) next.p ≠ 0 then
    env.big |distance sh p (shape_at variations next) next.p|
  else if distance sh p (shape_at variations prev) prev.p ≠ 0 then env.big 0
  else if env.turns_back sh p (shape_at variations prev) prev.p then env.big 0
  else env.radial sh p

/-- The candidates of the closing pass: the variations of the shape of slot 0, put with one
of their cells on a boundary cell of the shape in slot n-1. -/
def closing_candidates (variations : variation_array) (pre : List shape_pos) :
    List (Nat × shape × vec2i) :=
  fit_candidates (shape_at variations (pos_at pre (variations.length - 1))).boundary
    (pos_at pre (variations.length - 1)).p
    (variations.getD (pos_at pre 0).shape_idx [])

/-- The placement `res` after `best_fit` has taken the candidate `c`. -/
def placed (res : shape_pos) (c : Nat × shape × vec2i) : shape_pos :=
  ⟨c.2.2.x, c.2.2.y, res.shape_idx, c.1⟩

/-- The comparison `<` of the cost values is a strict weak order, as `<` on `double`s is
when no value is a NaN. -/
def ordered_costs (env : fit_env) : Prop :=
  (∀ a, env.lt a a = false) ∧
  (∀ a b c, env.lt a b = true → env.lt b c = true → env.lt a c = true) ∧
  (∀ a b c, env.lt a b = true → env.lt a c = true ∨ env.lt c b = true)

/-! ### Example layouts -/

/-- Two shapes whose union is a 3 by 3 ring of 8 cells around the empty cell (1, 1): an
L-shaped pentomino and a 3-cell corner. -/
def ring_variations : variation_array :=
  [[setup [⟨0, 0⟩, ⟨1, 0⟩, ⟨2, 0⟩, ⟨0, 1⟩, ⟨0, 2⟩]], [setup [⟨1, 0⟩, ⟨0, 1⟩, ⟨1, 1⟩]]]

/-- The placements that close the ring of `ring_variations`. -/
def ring_positions : List shape_pos := [⟨0, 0, 0, 0⟩, ⟨1, 1, 1, 0⟩]

/-- The ring of `ring_variations` whose second shape carries a 6-cell arm to the right:
the occupied cells still enclose exactly the cell (1, 1). -/
def arm_variations : variation_array :=
  [[setup [⟨0, 0⟩, ⟨1, 0⟩, ⟨2, 0⟩, ⟨0, 1⟩, ⟨0, 2⟩]],
    [setup [⟨1, 0⟩, ⟨2, 0⟩, ⟨3, 0⟩, ⟨4, 0⟩, ⟨5, 0⟩, ⟨6, 0⟩, ⟨7, 0⟩, ⟨0, 1⟩, ⟨1, 1⟩]]]

/-- The placements that close the ring of `arm_variations`. -/
def arm_positions : List shape_pos := [⟨0, 0, 0, 0⟩, ⟨1, 1, 1, 0⟩]

/-- Two shapes whose union is a 4 by 4 block with the single cell (2, 2) missing. -/
def thick_variations : variation_array :=
  [[setup [⟨0, 0⟩, ⟨1, 0⟩, ⟨2, 0⟩, ⟨3, 0⟩, ⟨0, 1⟩, ⟨1, 1⟩, ⟨2, 1⟩, ⟨3, 1⟩]],
    [setup [⟨0, 0⟩, ⟨1, 0⟩, ⟨3, 0⟩, ⟨0, 1⟩, ⟨1, 1⟩, ⟨2, 1⟩, ⟨3, 1⟩]]]

/-- The placements of `thick_variations`: the second shape directly below the first. -/
def thick_positions : List shape_pos := [⟨0, 0, 0, 0⟩, ⟨0, 2, 1, 0⟩]

/-- One shape: a solid 5 by 5 block. -/
def block_variations : variation_array :=
  [[setup [⟨0, 0⟩, ⟨1, 0⟩, ⟨2, 0⟩, ⟨3, 0⟩, ⟨4, 0⟩, ⟨0, 1⟩, ⟨1, 1⟩, ⟨2, 1⟩, ⟨3, 1⟩, ⟨4, 1⟩,
    ⟨0, 2⟩, ⟨1, 2⟩, ⟨2, 2⟩, ⟨3, 2⟩, ⟨4, 2⟩, ⟨0, 3⟩, ⟨1, 3⟩, ⟨2, 3⟩, ⟨3, 3⟩, ⟨4, 3⟩,
    ⟨0, 4⟩, ⟨1, 4⟩, ⟨2, 4⟩, ⟨3, 4⟩, ⟨4, 4⟩]]]

/-- The single placement of `block_variations`. -/
def block_positions : List shape_pos := [⟨0, 0, 0, 0⟩]

/-- The text of `SHAPE1` of the unit tests, line by line. -/
def SHAPE1 : List (List Char) := ["   ".toList, " O".toList, " OOO ".toList, " O".toList]

/-- The text of `SHAPE3` of the unit tests, line by line. -/
def SHAPE3 : List (List Char) := ["OOOO".toList, "   O".toList]

/-- An environment with whole-number costs: `MAX_DIST + n` is `100000 + n`, the start value
is a number above all of these, the radial cost is constantly 0 and no candidate is rejected
by the angle test. -/
def whole_env : fit_env :=
  ⟨Int, fun a b => decide (a < b), 4294967296, fun n => 100000 + n, fun _ _ => 0,
    fun _ _ _ _ => false, fun _ => ⟨0, -1⟩⟩

/-- Three shapes of one cell each. -/
def three_cells : variation_array := [[setup [⟨0, 0⟩]], [setup [⟨0, 0⟩]], [setup [⟨0, 0⟩]]]

/-- The layout of `three_cells` before the closing pass, as the program seeds it with the
radius `3/(2*PI)` that `main` estimates: slot 0 still holds the seed placement `(0, -1)`. -/
def three_cells_closing : List shape_pos := [⟨0, -1, 0, 0⟩, ⟨-1, -1, 1, 0⟩, ⟨-1, 0, 2, 0⟩]

/-! ## Theorems -/

theorem vec2i_add_x (a b : vec2i) : (a + b).x = a.x + b.x := rfl

theorem vec2i_add_y (a b : vec2i) : (a + b).y = a.y + b.y := rfl

/-! ### Masks and grid indices -/

theorem foldl_max_ge_init (f : vec2i → Int) (l : List vec2i) (a : Int) :
    a ≤ l.foldl (fun w sq => max w (f sq)) a := by
  induction l generalizing a with
  | nil => simp
  | cons c l ih =>
    simp only [List.foldl_cons]
    exact le_trans (le_max_left _ _) (ih _)

theorem foldl_max_ge_mem (f : vec2i → Int) (l : List vec2i) (a : Int) :
    ∀ c ∈ l, f c ≤ l.foldl (fun w sq => max w (f sq)) a := by
  induction l generalizing a with
  | nil => simp
  | cons c l ih =>
    intro d hd
    simp only [List.foldl_cons]
    rcases List.mem_cons.mp hd with h | h
    · subst h
      exact le_trans (le_max_right _ _) (foldl_max_ge_init f l _)
    · exact ih _ d h

theorem foldl_max_attained (f : vec2i → Int) (l : List vec2i) (a : Int) :
    l.foldl (fun w sq => max w (f sq)) a = a ∨
      ∃ c ∈ l, l.foldl (fun w sq => max w (f sq)) a = f c := by
  induction l generalizing a with
  | nil => simp
  | cons c l ih =>
    simp only [List.foldl_cons]
    rcases ih (max a (f c)) with h | ⟨d, hd, h⟩
    · rcases max_cases a (f c) with ⟨hm, _⟩ | ⟨hm, _⟩
      · left; rw [h, hm]
      · right; exact ⟨c, List.mem_cons_self _ _, by rw [h, hm]⟩
    · right; exact ⟨d, List.mem_cons_of_mem _ hd, h⟩

theorem mask_set_length (m : List Bool) (i : Int) : (mask_set m i).length = m.length := by
  unfold mask_set; split <;> simp

theorem mask_get_set (m : List Bool) (i j : Int) :
    mask_get (mask_set m i) j = true ↔
      mask_get m j = true ∨ (i = j ∧ 0 ≤ j ∧ j < m.length) := by
  unfold mask_get mask_set
  by_cases hj : j < 0
  · simp [hj]
  · by_cases hi : i < 0
    · simp [hi, hj]; intro h; omega
    · simp only [hi, hj, if_false]
      rw [List.getD_eq_getElem?_getD, List.getD_eq_getElem?_getD, List.getElem?_set]
      by_cases hij : i = j
      · subst hij
        by_cases hl : i.toNat < m.length
        · have : i < m.length := by omega
          simp [hl, this]; omega
        · have : ¬ i < m.length := by omega
          have hn : m[i.toNat]? = none := List.getElem?_eq_none (by omega)
          simp [hl, this, hn]
      · have : i.toNat ≠ j.toNat := by omega
        simp [this, hij]

theorem mask_fold_length (f : vec2i → Int) (l : List vec2i) (m : List Bool) :
    (l.foldl (fun m c => mask_set m (f c)) m).length = m.length := by
  induction l generalizing m with
  | nil => simp
  | cons c l ih => simp only [List.foldl_cons]; rw [ih, mask_set_length]

theorem mask_get_fold (f : vec2i → Int) (l : List vec2i) (m : List Bool) (j : Int) :
    mask_get (l.foldl (fun m c => mask_set m (f c)) m) j = true ↔
      mask_get m j = true ∨ (∃ c ∈ l, f c = j) ∧ 0 ≤ j ∧ j < m.length := by
  induction l generalizing m with
  | nil => simp
  | cons c l ih =>
    simp only [List.foldl_cons]
    rw [ih, mask_get_set, mask_set_length]
    constructor
    · rintro ((h | ⟨h1, h2, h3⟩) | ⟨⟨d, hd, h⟩, h2, h3⟩)
      · exact Or.inl h
      · exact Or.inr ⟨⟨c, List.mem_cons_self _ _, h1⟩, h2, h3⟩
      · exact Or.inr ⟨⟨d, List.mem_cons_of_mem _ hd, h⟩, h2, h3⟩
    · rintro (h | ⟨⟨d, hd, h⟩, h2, h3⟩)
      · exact Or.inl (Or.inl h)
      · rcases List.mem_cons.mp hd with e | e
        · subst e; exact Or.inl (Or.inr ⟨h, h2, h3⟩)
        · exact Or.inr ⟨⟨d, e, h⟩, h2, h3⟩

theorem mask_get_replicate (n : Nat) (j : Int) : mask_get (List.replicate n false) j = false := by
  unfold mask_get
  split
  · rfl
  · rw [List.getD_eq_getElem?_getD]
    by_cases h : j.toNat < n
    · simp [List.getElem?_replicate, h]
    · simp [List.getElem?_replicate, h]

theorem grid_idx_range (w h x y : Int) (hx0 : 0 ≤ x) (hxw : x < w) (hy0 : 0 ≤ y) (hyh : y < h) :
    0 ≤ x + y * w ∧ x + y * w < w * h := by
  have hw : 0 < w := by omega
  constructor
  · have := mul_nonneg hy0 hw.le
    omega
  · have h1 : y * w ≤ (h - 1) * w := mul_le_mul_of_nonneg_right (by omega) hw.le
    have h2 : (h - 1) * w = w * h - w := by ring
    omega

theorem grid_idx_inj (w x y x2 y2 : Int) (hx0 : 0 ≤ x) (hxw : x < w)
    (hx20 : 0 ≤ x2) (hx2w : x2 < w) (e : x + y * w = x2 + y2 * w) : x = x2 ∧ y = y2 := by
  have hw : 0 < w := by omega
  have e1 : (x + y * w) % w = x := by
    rw [Int.add_mul_emod_self]; exact Int.emod_eq_of_lt hx0 hxw
  have e2 : (x2 + y2 * w) % w = x2 := by
    rw [Int.add_mul_emod_self]; exact Int.emod_eq_of_lt hx20 hx2w
  have hx : x = x2 := by rw [← e1, ← e2, e]
  refine ⟨hx, ?_⟩
  subst hx
  have : y * w = y2 * w := by omega
  exact Int.eq_of_mul_eq_mul_right (by omega) this


theorem setup_width_ge (cells : List vec2i) : ∀ c ∈ cells, c.x + 1 ≤ (setup cells).width :=
  foldl_max_ge_mem (fun c => c.x + 1) cells 0

theorem setup_height_ge (cells : List vec2i) : ∀ c ∈ cells, c.y + 1 ≤ (setup cells).height :=
  foldl_max_ge_mem (fun c => c.y + 1) cells 0

theorem setup_width_nonneg (cells : List vec2i) : 0 ≤ (setup cells).width :=
  foldl_max_ge_init (fun c => c.x + 1) cells 0

theorem setup_height_nonneg (cells : List vec2i) : 0 ≤ (setup cells).height :=
  foldl_max_ge_init (fun c => c.y + 1) cells 0

theorem setup_squares (cells : List vec2i) : (setup cells).squares = cells := rfl

theorem setup_mask_length (cells : List vec2i) :
    (setup cells).mask.length = ((setup cells).width * (setup cells).height).toNat := by
  show (cells.foldl (fun m sq => mask_set m (sq.x + sq.y * (setup cells).width)) _).length = _
  rw [mask_fold_length (fun sq => sq.x + sq.y * (setup cells).width)]
  simp
  rfl

theorem setup_mask_get (cells : List vec2i) (j : Int) :
    mask_get (setup cells).mask j = true ↔
      (∃ c ∈ cells, c.x + c.y * (setup cells).width = j) ∧ 0 ≤ j ∧
        j < (setup cells).width * (setup cells).height := by
  have h := mask_get_fold (fun sq => sq.x + sq.y * (setup cells).width) cells
    (List.replicate ((setup cells).width * (setup cells).height).toNat false) j
  have e : mask_get (setup cells).mask j = mask_get (cells.foldl
      (fun m sq => mask_set m (sq.x + sq.y * (setup cells).width))
      (List.replicate ((setup cells).width * (setup cells).height).toNat false)) j := rfl
  rw [e, h, mask_get_replicate]
  simp only [Bool.false_eq_true, false_or, List.length_replicate]
  constructor
  · rintro ⟨h1, h2, h3⟩
    refine ⟨h1, h2, ?_⟩
    omega
  · rintro ⟨h1, h2, h3⟩
    refine ⟨h1, h2, ?_⟩
    omega

/-- On a shape built by `setup` from non-negative cells, `is_set` is cell membership. -/
theorem is_set_setup (cells : List vec2i) (hc : nonneg_cells cells) (x y : Int) :
    is_set (setup cells) x y = true ↔ (⟨x, y⟩ : vec2i) ∈ cells := by
  unfold is_set
  constructor
  · intro h
    split at h
    · exact absurd h (by simp)
    · rename_i hr
      simp only [not_or, not_lt, ge_iff_le, not_le] at hr
      obtain ⟨hx0, hy0, hxw, hyh⟩ := hr
      obtain ⟨⟨c, hcm, he⟩, -, -⟩ := (setup_mask_get cells _).mp h
      have hcx := setup_width_ge cells c hcm
      obtain ⟨e1, e2⟩ := grid_idx_inj _ _ _ _ _ (hc c hcm).1 (by omega) hx0 hxw he
      have : c = ⟨x, y⟩ := by cases c; simp_all
      rw [← this]; exact hcm
  · intro hm
    have hx := setup_width_ge cells _ hm
    have hy := setup_height_ge cells _ hm
    have h0 := hc _ hm
    simp only at hx hy h0
    have hr : ¬ (x < 0 ∨ y < 0 ∨ x ≥ (setup cells).width ∨ y ≥ (setup cells).height) := by
      omega
    rw [if_neg hr]
    have hrange := grid_idx_range (setup cells).width (setup cells).height x y
      h0.1 (by omega) h0.2 (by omega)
    exact (setup_mask_get cells _).mpr ⟨⟨_, hm, rfl⟩, hrange.1, hrange.2⟩

theorem manhattan_zero_iff (u v : vec2i) : manhattan u v = 0 ↔ u = v := by
  unfold manhattan
  constructor
  · intro h
    rcases abs_cases (u.x - v.x) with ⟨h1, h2⟩ | ⟨h1, h2⟩ <;>
      rcases abs_cases (u.y - v.y) with ⟨h3, h4⟩ | ⟨h3, h4⟩ <;>
      (cases u; cases v; simp only [vec2i.mk.injEq] at *; constructor <;> omega)
  · rintro rfl; simp

theorem manhattan_one_iff (u v : vec2i) :
    manhattan u v = 1 ↔ ∃ o ∈ OFFS, u.x + o.x = v.x ∧ u.y + o.y = v.y := by
  unfold manhattan OFFS
  simp only [List.mem_cons, List.mem_singleton, exists_eq_or_imp, exists_eq_left,
    List.not_mem_nil, false_and, exists_false, or_false]
  rcases abs_cases (u.x - v.x) with ⟨h1, h2⟩ | ⟨h1, h2⟩ <;>
    rcases abs_cases (u.y - v.y) with ⟨h3, h4⟩ | ⟨h3, h4⟩ <;>
    (constructor <;> intro h <;> omega)

theorem manhattan_nonneg (u v : vec2i) : 0 ≤ manhattan u v := by
  unfold manhattan; positivity


/-! ### Overlap classification -/

theorem overlap_any_iff (cA cB : List vec2i) (hB : nonneg_cells cB) (p q : vec2i) :
    cA.any (fun sq => is_set (setup cB) (sq.x + (p.x - q.x)) (sq.y + (p.y - q.y))) = true ↔
      cells_coincide cA p cB q := by
  rw [List.any_eq_true]
  unfold cells_coincide
  constructor
  · rintro ⟨a, ha, h⟩
    rw [is_set_setup cB hB] at h
    refine ⟨a, ha, _, h, ?_⟩
    cases a; cases p; cases q
    show vec2i.mk _ _ = vec2i.mk _ _
    simp only [vec2i.mk.injEq]
    constructor <;> ring
  · rintro ⟨a, ha, b, hb, h⟩
    refine ⟨a, ha, ?_⟩
    rw [is_set_setup cB hB]
    have hx : a.x + p.x = b.x + q.x := congrArg vec2i.x h
    have hy : a.y + p.y = b.y + q.y := congrArg vec2i.y h
    have : (⟨a.x + (p.x - q.x), a.y + (p.y - q.y)⟩ : vec2i) = b := by
      cases b; simp only [vec2i.mk.injEq] at *; constructor <;> omega
    rw [this]; exact hb

theorem border_any_iff (cA cB : List vec2i) (hB : nonneg_cells cB) (p q : vec2i) :
    cA.any (fun sq => OFFS.any (fun offs =>
      is_set (setup cB) (sq.x + (p.x - q.x) + offs.x) (sq.y + (p.y - q.y) + offs.y))) = true ↔
      cells_adjacent cA p cB q := by
  rw [List.any_eq_true]
  unfold cells_adjacent
  constructor
  · rintro ⟨a, ha, h⟩
    rw [List.any_eq_true] at h
    obtain ⟨o, ho, h⟩ := h
    rw [is_set_setup cB hB] at h
    refine ⟨a, ha, _, h, ?_⟩
    rw [manhattan_one_iff]
    refine ⟨o, ho, ?_, ?_⟩
    · show a.x + p.x + o.x = a.x + (p.x - q.x) + o.x + q.x
      ring
    · show a.y + p.y + o.y = a.y + (p.y - q.y) + o.y + q.y
      ring
  · rintro ⟨a, ha, b, hb, h⟩
    rw [manhattan_one_iff] at h
    obtain ⟨o, ho, hx, hy⟩ := h
    refine ⟨a, ha, ?_⟩
    rw [List.any_eq_true]
    refine ⟨o, ho, ?_⟩
    rw [is_set_setup cB hB]
    have hx2 : a.x + p.x + o.x = b.x + q.x := hx
    have hy2 : a.y + p.y + o.y = b.y + q.y := hy
    have : (⟨a.x + (p.x - q.x) + o.x, a.y + (p.y - q.y) + o.y⟩ : vec2i) = b := by
      cases b; simp only [vec2i.mk.injEq] at *; constructor <;> omega
    rw [this]; exact hb

/-- When the bounding-box test of `overlap_status` fires, every pair of translated cells is
at Manhattan distance at least 2. -/
theorem early_out_far (cA cB : List vec2i) (hA : nonneg_cells cA) (hB : nonneg_cells cB)
    (p q : vec2i)
    (h : p.x > q.x + (setup cB).width ∨ q.x > p.x + (setup cA).width ∨
      p.y > q.y + (setup cB).height ∨ q.y > p.y + (setup cA).height) :
    ∀ a ∈ cA, ∀ b ∈ cB, 2 ≤ manhattan (a + p) (b + q) := by
  intro a ha b hb
  have ax := setup_width_ge cA a ha
  have ay := setup_height_ge cA a ha
  have bx := setup_width_ge cB b hb
  have byy := setup_height_ge cB b hb
  have a0 := hA a ha
  have b0 := hB b hb
  unfold manhattan
  simp only [vec2i_add_x, vec2i_add_y]
  rcases abs_cases (a.x + p.x - (b.x + q.x)) with ⟨h1, h2⟩ | ⟨h1, h2⟩ <;>
    rcases abs_cases (a.y + p.y - (b.y + q.y)) with ⟨h3, h4⟩ | ⟨h3, h4⟩ <;>
    omega

theorem coincide_manhattan (cA cB : List vec2i) (p q : vec2i) :
    cells_coincide cA p cB q ↔ ∃ a ∈ cA, ∃ b ∈ cB, manhattan (a + p) (b + q) = 0 := by
  unfold cells_coincide
  simp only [manhattan_zero_iff]

/-- The three outcomes of `overlap_status`, by what the translated cells do. -/
theorem overlap_status_classify (cA cB : List vec2i) (hA : nonneg_cells cA)
    (hB : nonneg_cells cB) (p q : vec2i) :
    (cells_coincide cA p cB q →
      overlap_status (setup cA) p (setup cB) q = overlap.Overlap) ∧
    (¬ cells_coincide cA p cB q → cells_adjacent cA p cB q →
      overlap_status (setup cA) p (setup cB) q = overlap.Border) ∧
    (¬ cells_coincide cA p cB q → ¬ cells_adjacent cA p cB q →
      overlap_status (setup cA) p (setup cB) q = overlap.Disjoint) := by
  unfold overlap_status
  by_cases hE : p.x > q.x + (setup cB).width ∨ q.x > p.x + (setup cA).width ∨
      p.y > q.y + (setup cB).height ∨ q.y > p.y + (setup cA).height
  · rw [if_pos hE]
    have far := early_out_far cA cB hA hB p q hE
    have hnc : ¬ cells_coincide cA p cB q := by
      rw [coincide_manhattan]
      rintro ⟨a, ha, b, hb, h⟩
      have := far a ha b hb
      omega
    have hna : ¬ cells_adjacent cA p cB q := by
      rintro ⟨a, ha, b, hb, h⟩
      have := far a ha b hb
      omega
    simp [hnc, hna]
  · rw [if_neg hE]
    simp only [setup_squares]
    by_cases hO : cells_coincide cA p cB q
    · have := (overlap_any_iff cA cB hB p q).mpr hO
      simp [this, hO]
    · have h1 : ¬ (cA.any (fun sq =>
          is_set (setup cB) (sq.x + (p.x - q.x)) (sq.y + (p.y - q.y))) = true) :=
        fun h => hO ((overlap_any_iff cA cB hB p q).mp h)
      by_cases hBd : cells_adjacent cA p cB q
      · have := (border_any_iff cA cB hB p q).mpr hBd
        simp [h1, this, hO, hBd]
      · have h2 : ¬ (cA.any (fun sq => OFFS.any (fun offs =>
            is_set (setup cB) (sq.x + (p.x - q.x) + offs.x)
              (sq.y + (p.y - q.y) + offs.y))) = true) :=
          fun h => hBd ((border_any_iff cA cB hB p q).mp h)
        simp [h1, h2, hO, hBd]

/-! ### Distance -/

theorem foldl_min_spec {α : Type} (g : α → Int) (l : List α) (m0 : Int) :
    l.foldl (fun m b => min m (g b)) m0 ≤ m0 ∧
    (∀ b ∈ l, l.foldl (fun m b => min m (g b)) m0 ≤ g b) ∧
    (l.foldl (fun m b => min m (g b)) m0 = m0 ∨
      ∃ b ∈ l, l.foldl (fun m b => min m (g b)) m0 = g b) := by
  induction l generalizing m0 with
  | nil => simp
  | cons c l ih =>
    simp only [List.foldl_cons]
    obtain ⟨h1, h2, h3⟩ := ih (min m0 (g c))
    refine ⟨le_trans h1 (min_le_left _ _), ?_, ?_⟩
    · intro b hb
      rcases List.mem_cons.mp hb with e | e
      · subst e; exact le_trans h1 (min_le_right _ _)
      · exact h2 b e
    · rcases h3 with h | ⟨b, hb, h⟩
      · rcases min_cases m0 (g c) with ⟨hm, _⟩ | ⟨hm, _⟩
        · left; rw [h, hm]
        · right; exact ⟨c, List.mem_cons_self _ _, by rw [h, hm]⟩
      · right; exact ⟨b, List.mem_cons_of_mem _ hb, h⟩

theorem foldl_min2_spec {α β : Type} (G : α → β → Int) (lA : List α) (lB : List β) (m0 : Int) :
    lA.foldl (fun m a => lB.foldl (fun m2 b => min m2 (G a b)) m) m0 ≤ m0 ∧
    (∀ a ∈ lA, ∀ b ∈ lB,
      lA.foldl (fun m a => lB.foldl (fun m2 b => min m2 (G a b)) m) m0 ≤ G a b) ∧
    (lA.foldl (fun m a => lB.foldl (fun m2 b => min m2 (G a b)) m) m0 = m0 ∨
      ∃ a ∈ lA, ∃ b ∈ lB,
        lA.foldl (fun m a => lB.foldl (fun m2 b => min m2 (G a b)) m) m0 = G a b) := by
  induction lA generalizing m0 with
  | nil => simp
  | cons c lA ih =>
    simp only [List.foldl_cons]
    obtain ⟨h1, h2, h3⟩ := ih (lB.foldl (fun m2 b => min m2 (G c b)) m0)
    obtain ⟨k1, k2, k3⟩ := foldl_min_spec (G c) lB m0
    refine ⟨le_trans h1 k1, ?_, ?_⟩
    · intro a ha b hb
      rcases List.mem_cons.mp ha with e | e
      · subst e; exact le_trans h1 (k2 b hb)
      · exact h2 a e b hb
    · rcases h3 with h | ⟨a, ha, b, hb, h⟩
      · rcases k3 with k | ⟨b, hb, k⟩
        · left; rw [h, k]
        · right; exact ⟨c, List.mem_cons_self _ _, b, hb, by rw [h, k]⟩
      · right; exact ⟨a, List.mem_cons_of_mem _ ha, b, hb, h⟩

theorem pair_dist_eq (a b p q : vec2i) :
    |a.x + (p.x - q.x) - b.x| + |a.y + (p.y - q.y) - b.y| = manhattan (a + p) (b + q) := by
  unfold manhattan
  simp only [vec2i_add_x, vec2i_add_y]
  have e1 : a.x + (p.x - q.x) - b.x = a.x + p.x - (b.x + q.x) := by ring
  have e2 : a.y + (p.y - q.y) - b.y = a.y + p.y - (b.y + q.y) := by ring
  rw [e1, e2]

/-- The double loop of `distance` computes the least pairwise Manhattan distance when both
cell lists are non-empty and every pairwise distance fits an `int`. -/
theorem min_dist_loop (cA cB : List vec2i) (p q : vec2i) (hneA : cA ≠ []) (hneB : cB ≠ [])
    (hfit : ∀ a ∈ cA, ∀ b ∈ cB, manhattan (a + p) (b + q) ≤ INT_MAX) :
    is_min_manhattan cA p cB q
      (cA.foldl (fun m sq1 => cB.foldl (fun m2 sq2 =>
        min m2 (|sq1.x + (p.x - q.x) - sq2.x| + |sq1.y + (p.y - q.y) - sq2.y|)) m) INT_MAX) := by
  obtain ⟨h1, h2, h3⟩ := foldl_min2_spec
    (fun (a b : vec2i) => |a.x + (p.x - q.x) - b.x| + |a.y + (p.y - q.y) - b.y|) cA cB INT_MAX
  simp only [pair_dist_eq] at h1 h2 h3 ⊢
  refine ⟨?_, h2⟩
  rcases h3 with h | ⟨a, ha, b, hb, h⟩
  · obtain ⟨a, ha⟩ := List.exists_mem_of_ne_nil cA hneA
    obtain ⟨b, hb⟩ := List.exists_mem_of_ne_nil cB hneB
    refine ⟨a, ha, b, hb, ?_⟩
    have := h2 a ha b hb
    have := hfit a ha b hb
    omega
  · exact ⟨a, ha, b, hb, h.symm⟩

/-- C2: for non-empty shapes built by `setup` from non-negative cells, at positions whose
pairwise cell distances fit an `int`, `distance` is the least Manhattan distance over all pairs
of translated cells minus 1; it is -1 exactly on `Overlap`, 0 exactly on `Border`, positive
exactly on `Disjoint`, and never below -1. -/
theorem distance_spec (cA cB : List vec2i) (hA : nonneg_cells cA) (hB : nonneg_cells cB)
    (hneA : cA ≠ []) (hneB : cB ≠ []) (p q : vec2i)
    (hfit : ∀ a ∈ cA, ∀ b ∈ cB, manhattan (a + p) (b + q) ≤ INT_MAX) :
    is_min_manhattan cA p cB q (distance (setup cA) p (setup cB) q + 1) ∧
    (distance (setup cA) p (setup cB) q = -1 ↔
      overlap_status (setup cA) p (setup cB) q = overlap.Overlap) ∧
    (distance (setup cA) p (setup cB) q = 0 ↔
      overlap_status (setup cA) p (setup cB) q = overlap.Border) ∧
    (0 < distance (setup cA) p (setup cB) q ↔
      overlap_status (setup cA) p (setup cB) q = overlap.Disjoint) ∧
    -1 ≤ distance (setup cA) p (setup cB) q := by
  obtain ⟨hOv, hBo, hDi⟩ := overlap_status_classify cA cB hA hB p q
  unfold distance
  by_cases hO : cells_coincide cA p cB q
  · rw [hOv hO]
    simp only [reduceCtorEq, iff_false, iff_true, true_and]
    have hc := hO
    rw [coincide_manhattan] at hc
    refine ⟨⟨by simpa using hc, fun a _ b _ => by simpa using manhattan_nonneg _ _⟩, ?_⟩
    simp
  · have hnc := hO
    rw [coincide_manhattan] at hnc
    by_cases hadj : cells_adjacent cA p cB q
    · rw [hBo hO hadj]
      simp only [reduceCtorEq, iff_false, iff_true, true_and]
      refine ⟨⟨by simpa [cells_adjacent] using hadj, ?_⟩, ?_⟩
      · intro a ha b hb
        have h0 := manhattan_nonneg (a + p) (b + q)
        have hne : manhattan (a + p) (b + q) ≠ 0 := fun h => hnc ⟨a, ha, b, hb, h⟩
        simp only [zero_add]
        omega
      · simp
    · rw [hDi hO hadj]
      simp only [reduceCtorEq, iff_false, iff_true, true_and, setup_squares]
      have hmin := min_dist_loop cA cB p q hneA hneB hfit
      have hge : ∀ a ∈ cA, ∀ b ∈ cB, 2 ≤ manhattan (a + p) (b + q) := by
        intro a ha b hb
        have h0 := manhattan_nonneg (a + p) (b + q)
        have hne : manhattan (a + p) (b + q) ≠ 0 := fun h => hnc ⟨a, ha, b, hb, h⟩
        have hne1 : manhattan (a + p) (b + q) ≠ 1 := fun h => hadj ⟨a, ha, b, hb, h⟩
        omega
      obtain ⟨⟨a, ha, b, hb, hab⟩, hle⟩ := hmin
      have h2 := hge a ha b hb
      refine ⟨⟨⟨a, ha, b, hb, by rw [hab]; ring⟩, fun a' ha' b' hb' => ?_⟩, ?_, ?_, ?_, ?_⟩
      · have := hle a' ha' b' hb'
        omega
      all_goals omega

set_option maxRecDepth 4000 in
theorem distance_spec_witness :
    is_min_manhattan [⟨3, 0⟩, ⟨1, 1⟩, ⟨2, 1⟩, ⟨3, 1⟩, ⟨1, 2⟩] ⟨0, -4⟩
      [⟨0, 0⟩, ⟨1, 0⟩, ⟨2, 0⟩, ⟨3, 0⟩, ⟨3, 1⟩] ⟨1, 1⟩
      (distance (setup [⟨3, 0⟩, ⟨1, 1⟩, ⟨2, 1⟩, ⟨3, 1⟩, ⟨1, 2⟩]) ⟨0, -4⟩
        (setup [⟨0, 0⟩, ⟨1, 0⟩, ⟨2, 0⟩, ⟨3, 0⟩, ⟨3, 1⟩]) ⟨1, 1⟩ + 1) ∧
    distance (setup [⟨3, 0⟩, ⟨1, 1⟩, ⟨2, 1⟩, ⟨3, 1⟩, ⟨1, 2⟩]) ⟨0, -4⟩
        (setup [⟨0, 0⟩, ⟨1, 0⟩, ⟨2, 0⟩, ⟨3, 0⟩, ⟨3, 1⟩]) ⟨1, 1⟩ = 2 :=
  ⟨(distance_spec [⟨3, 0⟩, ⟨1, 1⟩, ⟨2, 1⟩, ⟨3, 1⟩, ⟨1, 2⟩]
      [⟨0, 0⟩, ⟨1, 0⟩, ⟨2, 0⟩, ⟨3, 0⟩, ⟨3, 1⟩] (by decide) (by decide) (by decide) (by decide)
      ⟨0, -4⟩ ⟨1, 1⟩ (by decide)).1, by decide⟩

/-! ### Flood fill terminates; score -/

theorem mask_get_false_of_set_count (m : List Bool) (i : Int) (h0 : 0 ≤ i) (hlt : i < m.length)
    (hf : mask_get m i = false) : (mask_set m i).count false + 1 = m.count false := by
  unfold mask_get at hf
  unfold mask_set
  have hi : ¬ i < 0 := by omega
  simp only [hi, if_false] at hf ⊢
  have hl : i.toNat < m.length := by omega
  rw [List.getD_eq_getElem?_getD, List.getElem?_eq_getElem hl] at hf
  simp only [Option.getD_some] at hf
  rw [List.count_set _ _ _ _ hl, hf]
  simp only [beq_self_eq_true, if_true, Bool.true_beq, Bool.false_eq_true, if_false, add_zero]
  have : 0 < m.count false := by
    apply List.count_pos_iff.mpr
    rw [← hf]; exact List.getElem_mem hl
  omega

theorem fill_neighbours_measure (w h : Int) (c : vec2i) (offs cellq : List vec2i)
    (mask : List Bool) (hlen : mask.length = (w * h).toNat) (cellq1 : List vec2i)
    (mask1 : List Bool) (hres : fill_neighbours w h c offs cellq mask = some (cellq1, mask1)) :
    mask1.length = mask.length ∧
      cellq1.length + mask1.count false = cellq.length + mask.count false := by
  induction offs generalizing cellq mask with
  | nil =>
    simp only [fill_neighbours, Option.some.injEq, Prod.mk.injEq] at hres
    obtain ⟨rfl, rfl⟩ := hres
    exact ⟨rfl, rfl⟩
  | cons o offs ih =>
    simp only [fill_neighbours] at hres
    split at hres
    · exact absurd hres (by simp)
    · rename_i hr
      simp only [not_or, not_lt, ge_iff_le, not_le] at hr
      obtain ⟨hx0, hy0, hxw, hyh⟩ := hr
      have hrange := grid_idx_range w h _ _ hx0 hxw hy0 hyh
      split at hres
      · rename_i hf
        obtain ⟨e1, e2⟩ := ih _ _ (by rw [mask_set_length]; exact hlen) hres
        have hc := mask_get_false_of_set_count mask _ hrange.1 (by omega) hf
        rw [mask_set_length] at e1
        refine ⟨e1, ?_⟩
        rw [e2, List.length_cons]
        omega
      · exact ih _ _ hlen hres

theorem fill_loop_total (w h : Int) (lt : vec2i) (fuel : Nat) (cellq : List vec2i)
    (mask : List Bool) (nvisited : Int) (hits : List vec2i)
    (hlen : mask.length = (w * h).toNat) (hfuel : cellq.length + mask.count false ≤ fuel) :
    ∃ r, fill_loop w h lt fuel cellq mask nvisited hits = some r := by
  induction fuel generalizing cellq mask nvisited hits with
  | zero =>
    cases cellq with
    | nil => exact ⟨(nvisited, hits), by simp [fill_loop]⟩
    | cons c cellq => simp at hfuel
  | succ fuel ih =>
    cases cellq with
    | nil => exact ⟨(nvisited, hits), by simp [fill_loop]⟩
    | cons c cellq =>
      simp only [fill_loop]
      cases hn : fill_neighbours w h c COFFS cellq mask with
      | none => exact ⟨_, rfl⟩
      | some res =>
        obtain ⟨cellq1, mask1⟩ := res
        obtain ⟨e1, e2⟩ := fill_neighbours_measure w h c COFFS cellq mask hlen cellq1 mask1 hn
        simp only
        apply ih
        · rw [e1]; exact hlen
        · rw [e2]; simp only [List.length_cons] at hfuel; omega

theorem rasterise_length (variations : variation_array) (positions : List shape_pos)
    (lt : vec2i) (w h : Int) :
    (rasterise variations positions lt w h).length = (w * h).toNat := by
  unfold rasterise
  generalize slots variations positions = sl
  have key : ∀ (m : List Bool), (sl.foldl (fun mask pos =>
      (shape_at variations pos).squares.foldl (fun m sq =>
        mask_set m ((pos.x + sq.x - lt.x) + (pos.y + sq.y - lt.y) * w)) mask) m).length
      = m.length := by
    induction sl with
    | nil => intro m; rfl
    | cons s sl ih =>
      intro m
      simp only [List.foldl_cons]
      rw [ih, mask_fold_length (fun sq => (s.x + sq.x - lt.x) + (s.y + sq.y - lt.y) * w)]
  rw [key]; simp

theorem grid_mask_length (variations : variation_array) (positions : List shape_pos) :
    (grid_mask variations positions).length =
      (grid_w variations positions * grid_h variations positions).toNat :=
  rasterise_length _ _ _ _ _

/-- The fuel `flood_fill` hands to its loop always suffices: `flood_fill` returns. -/
theorem flood_fill_total (variations : variation_array) (positions : List shape_pos) :
    ∃ r, flood_fill variations positions = some r := by
  unfold flood_fill
  apply fill_loop_total
  · rw [mask_set_length]; exact grid_mask_length _ _
  · have := List.count_le_length false
      (mask_set (grid_mask variations positions)
        ((grid_seed variations positions).x +
          (grid_seed variations positions).y * grid_w variations positions))
    rw [mask_set_length] at this
    simp only [List.length_singleton]
    omega

theorem score_fold_eq (variations : variation_array) (positions : List shape_pos) (l : List Nat)
    (a : Int) :
    l.foldl (fun dist i =>
        dist + |distance (shape_at variations (pos_at positions i)) (pos_at positions i).p
          (shape_at variations (pos_at positions ((i + 1) % variations.length)))
          (pos_at positions ((i + 1) % variations.length)).p|) a =
      a + (l.map (fun i =>
        |distance (shape_at variations (pos_at positions i)) (pos_at positions i).p
          (shape_at variations (pos_at positions ((i + 1) % variations.length)))
          (pos_at positions ((i + 1) % variations.length)).p|)).sum := by
  induction l generalizing a with
  | nil => simp
  | cons i l ih =>
    simp only [List.foldl_cons, List.map_cons, List.sum_cons]
    rw [ih]; ring

theorem gap_sum_nonneg (variations : variation_array) (positions : List shape_pos) :
    0 ≤ gap_sum variations positions := by
  unfold gap_sum
  apply List.sum_nonneg
  intro x hx
  simp only [List.mem_map] at hx
  obtain ⟨i, _, rfl⟩ := hx
  exact abs_nonneg _

theorem score_eq (variations : variation_array) (positions : List shape_pos) (area : Int)
    (hits : List vec2i) (hff : flood_fill variations positions = some (area, hits)) :
    score variations positions =
      some (if 0 < area then area else -(gap_sum variations positions)) := by
  unfold score
  rw [hff]
  simp only [gt_iff_lt]
  split
  · rfl
  · rw [score_fold_eq]
    simp [gap_sum]


/-- C3: `score` returns the `flood_fill` area when that area is positive and otherwise minus
the sum over the cyclic-adjacent slot pairs of `|distance|`, which is at most 0; hence an
open layout scores at most 0 and strictly below every closed layout, and of two closed
layouts the one with the strictly larger area scores strictly higher. (Holds for every
layout the model accepts, valid ones included.) -/
theorem score_spec (variations : variation_array) (positions : List shape_pos) :
    (∃ area hits, flood_fill variations positions = some (area, hits) ∧
      (0 < area → score variations positions = some area) ∧
      (¬ 0 < area → score variations positions = some (-(gap_sum variations positions)) ∧
        -(gap_sum variations positions) ≤ 0)) ∧
    (∀ (variations2 : variation_array) (positions2 : List shape_pos) (a1 a2 s1 s2 : Int)
      (h1 h2 : List vec2i),
      flood_fill variations positions = some (a1, h1) →
      flood_fill variations2 positions2 = some (a2, h2) →
      score variations positions = some s1 → score variations2 positions2 = some s2 →
      (¬ 0 < a1 → s1 ≤ 0) ∧ (¬ 0 < a1 → 0 < a2 → s1 < s2) ∧
      (0 < a1 → 0 < a2 → a1 < a2 → s1 < s2)) := by
  constructor
  · obtain ⟨⟨area, hits⟩, hff⟩ := flood_fill_total variations positions
    have hs := score_eq variations positions area hits hff
    have hg := gap_sum_nonneg variations positions
    refine ⟨area, hits, hff, ?_, ?_⟩
    · intro ha; rw [hs, if_pos ha]
    · intro ha; rw [hs, if_neg ha]; exact ⟨rfl, by omega⟩
  · intro variations2 positions2 a1 a2 s1 s2 h1 h2 f1 f2 e1 e2
    have hs1 := score_eq variations positions a1 h1 f1
    have hs2 := score_eq variations2 positions2 a2 h2 f2
    have hg := gap_sum_nonneg variations positions
    rw [hs1] at e1
    rw [hs2] at e2
    simp only [Option.some.injEq] at e1 e2
    refine ⟨?_, ?_, ?_⟩
    · intro ha; rw [if_neg ha] at e1; omega
    · intro ha hb; rw [if_neg ha] at e1; rw [if_pos hb] at e2; omega
    · intro ha hb hab; rw [if_pos ha] at e1; rw [if_pos hb] at e2; omega

/-! ### Flood fill: the traversal -/

theorem reach_free (w h : Int) (mask0 : List Bool) (s c : vec2i)
    (hr : reach w h mask0 s c) : free_cell w h mask0 c := by
  cases hr with
  | seed hs => exact hs
  | step _ _ hf => exact hf

theorem mask_get_set_mono (m : List Bool) (i j : Int) (h : mask_get m j = true) :
    mask_get (mask_set m i) j = true :=
  (mask_get_set m i j).mpr (Or.inl h)

theorem in_grid_idx_inj (w h : Int) (c d : vec2i) (hc : in_grid w h c) (hd : in_grid w h d)
    (e : c.x + c.y * w = d.x + d.y * w) : c = d := by
  obtain ⟨e1, e2⟩ := grid_idx_inj w c.x c.y d.x d.y hc.1 hc.2.1 hd.1 hd.2.1 e
  cases c; cases d; simp_all

/-- What one run of the neighbour loop does when it does not return -1. -/
theorem fill_neighbours_some (w h : Int) (c : vec2i) (offs cellq : List vec2i)
    (mask : List Bool) (hlen : mask.length = (w * h).toNat) (cellq1 : List vec2i)
    (mask1 : List Bool) (hres : fill_neighbours w h c offs cellq mask = some (cellq1, mask1)) :
    ∃ pushed : List vec2i, cellq1 = pushed ++ cellq ∧ pushed.Nodup ∧
      (∀ d ∈ pushed, in_grid w h d ∧ mask_get mask (d.x + d.y * w) = false ∧
        ∃ o ∈ offs, d = c + o) ∧
      (∀ d, in_grid w h d → (mask_get mask1 (d.x + d.y * w) = true ↔
        mask_get mask (d.x + d.y * w) = true ∨ d ∈ pushed)) ∧
      (∀ o ∈ offs, in_grid w h (c + o) ∧
        mask_get mask1 ((c + o).x + (c + o).y * w) = true) ∧
      mask1.length = mask.length := by
  induction offs generalizing cellq mask with
  | nil =>
    simp only [fill_neighbours, Option.some.injEq, Prod.mk.injEq] at hres
    obtain ⟨rfl, rfl⟩ := hres
    exact ⟨[], by simp, List.nodup_nil, by simp, by simp, by simp, rfl⟩
  | cons o offs ih =>
    simp only [fill_neighbours] at hres
    split at hres
    · exact absurd hres (by simp)
    · rename_i hr
      simp only [not_or, not_lt, ge_iff_le, not_le] at hr
      have hg : in_grid w h (c + o) := ⟨hr.1, hr.2.2.1, hr.2.1, hr.2.2.2⟩
      have hrange := grid_idx_range w h _ _ hg.1 hg.2.1 hg.2.2.1 hg.2.2.2
      split at hres
      · rename_i hf
        obtain ⟨pushed, e, hnd, hp, hm, ho, hl⟩ :=
          ih _ _ (by rw [mask_set_length]; exact hlen) hres
        have hset : mask_get (mask_set mask ((c + o).x + (c + o).y * w))
            ((c + o).x + (c + o).y * w) = true :=
          (mask_get_set _ _ _).mpr (Or.inr ⟨rfl, hrange.1, by omega⟩)
        have hnotin : c + o ∉ pushed := by
          intro hin
          have := (hp _ hin).2.1
          rw [hset] at this
          exact absurd this (by simp)
        refine ⟨pushed ++ [c + o], by rw [e]; simp, ?_, ?_, ?_, ?_, ?_⟩
        · rw [List.nodup_append]
          refine ⟨hnd, List.nodup_singleton _, ?_⟩
          intro d hd hd2
          rw [List.mem_singleton] at hd2
          subst hd2
          exact hnotin hd
        · intro d hd
          rcases List.mem_append.mp hd with hd | hd
          · obtain ⟨h1, h2, o2, ho2, h3⟩ := hp d hd
            refine ⟨h1, ?_, o2, List.mem_cons_of_mem _ ho2, h3⟩
            cases hmd : mask_get mask (d.x + d.y * w) with
            | false => rfl
            | true =>
              have := mask_get_set_mono mask ((c + o).x + (c + o).y * w) _ hmd
              rw [h2] at this
              exact absurd this (by simp)
          · rw [List.mem_singleton] at hd
            subst hd
            exact ⟨hg, hf, o, List.mem_cons_self _ _, rfl⟩
        · intro d hd
          rw [hm d hd, mask_get_set, List.mem_append, List.mem_singleton]
          constructor
          · rintro ((h1 | ⟨h1, -, -⟩) | h1)
            · exact Or.inl h1
            · exact Or.inr (Or.inr (in_grid_idx_inj w h d (c + o) hd hg h1.symm))
            · exact Or.inr (Or.inl h1)
          · rintro (h1 | h1 | h1)
            · exact Or.inl (Or.inl h1)
            · exact Or.inr h1
            · subst h1
              exact Or.inl (Or.inr ⟨rfl, hrange.1, by omega⟩)
        · intro o2 ho2
          rcases List.mem_cons.mp ho2 with e2 | e2
          · subst e2
            exact ⟨hg, (hm _ hg).mpr (Or.inl hset)⟩
          · exact ho o2 e2
        · rw [hl, mask_set_length]
      · rename_i hf
        have hf2 : mask_get mask ((c + o).x + (c + o).y * w) = true := by
          cases hmd : mask_get mask ((c + o).x + (c + o).y * w) with
          | false => exact absurd hmd hf
          | true => rfl
        obtain ⟨pushed, e, hnd, hp, hm, ho, hl⟩ := ih _ _ hlen hres
        refine ⟨pushed, e, hnd, ?_, hm, ?_, hl⟩
        · intro d hd
          obtain ⟨h1, h2, o2, ho2, h3⟩ := hp d hd
          exact ⟨h1, h2, o2, List.mem_cons_of_mem _ ho2, h3⟩
        · intro o2 ho2
          rcases List.mem_cons.mp ho2 with e2 | e2
          · subst e2
            exact ⟨hg, (hm _ hg).mpr (Or.inl hf2)⟩
          · exact ho o2 e2

/-- The neighbour loop returns -1 only when some neighbour lies outside the grid. -/
theorem fill_neighbours_none (w h : Int) (c : vec2i) (offs cellq : List vec2i)
    (mask : List Bool) (hres : fill_neighbours w h c offs cellq mask = none) :
    ∃ o ∈ offs, ¬ in_grid w h (c + o) := by
  induction offs generalizing cellq mask with
  | nil => simp [fill_neighbours] at hres
  | cons o offs ih =>
    simp only [fill_neighbours] at hres
    split at hres
    · rename_i hr
      refine ⟨o, List.mem_cons_self _ _, ?_⟩
      unfold in_grid
      omega
    · split at hres
      · obtain ⟨o2, ho2, h2⟩ := ih _ _ hres
        exact ⟨o2, List.mem_cons_of_mem _ ho2, h2⟩
      · obtain ⟨o2, ho2, h2⟩ := ih _ _ hres
        exact ⟨o2, List.mem_cons_of_mem _ ho2, h2⟩

theorem coffs_bound (o : vec2i) (ho : o ∈ COFFS) :
    -1 ≤ o.x ∧ o.x ≤ 1 ∧ -1 ≤ o.y ∧ o.y ≤ 1 := by
  simp only [COFFS, List.mem_cons, List.mem_singleton, List.not_mem_nil, or_false] at ho
  rcases ho with rfl | rfl | rfl | rfl | rfl | rfl | rfl | rfl <;> simp

theorem edge_of_neighbour_out (w h : Int) (c o : vec2i) (hc : in_grid w h c) (ho : o ∈ COFFS)
    (hout : ¬ in_grid w h (c + o)) : on_edge w h c := by
  have hb := coffs_bound o ho
  unfold in_grid at hc hout
  unfold on_edge
  simp only [vec2i_add_x, vec2i_add_y] at hout
  omega

theorem not_edge_of_neighbours_in (w h : Int) (c : vec2i)
    (hin : ∀ o ∈ COFFS, in_grid w h (c + o)) : ¬ on_edge w h c := by
  have h1 := hin ⟨1, 0⟩ (by simp [COFFS])
  have h2 := hin ⟨0, 1⟩ (by simp [COFFS])
  have h3 := hin ⟨-1, 0⟩ (by simp [COFFS])
  have h4 := hin ⟨0, -1⟩ (by simp [COFFS])
  unfold in_grid at h1 h2 h3 h4
  unfold on_edge
  simp only [vec2i_add_x, vec2i_add_y] at h1 h2 h3 h4
  omega



theorem fill_inv_closed (w h : Int) (mask0 : List Bool) (s : vec2i) (mask : List Bool)
    (visited : List vec2i) (hinv : fill_inv w h mask0 s [] mask visited) :
    (∀ c, c ∈ visited ↔ reach w h mask0 s c) ∧ ∀ c ∈ visited, ¬ on_edge w h c := by
  obtain ⟨-, hm, hr, -, hcl, hs⟩ := hinv
  refine ⟨fun c => ⟨fun hc => hr c (Or.inr hc), ?_⟩, ?_⟩
  · intro hreach
    induction hreach with
    | seed _ =>
      rcases hs with hs | hs
      · simp at hs
      · exact hs
    | step _ ho hf ih =>
      obtain ⟨hg, hset⟩ := hcl _ ih _ ho
      rcases (hm _ hg).mp hset with h1 | h1 | h1
      · rw [hf.2] at h1; exact absurd h1 (by simp)
      · simp at h1
      · exact h1
  · intro c hc
    exact not_edge_of_neighbours_in w h c (fun o ho => (hcl c hc o ho).1)

theorem fill_inv_step (w h : Int) (mask0 : List Bool) (s c : vec2i) (cellq : List vec2i)
    (mask : List Bool) (visited : List vec2i) (hinv : fill_inv w h mask0 s (c :: cellq) mask visited)
    (cellq1 : List vec2i) (mask1 : List Bool)
    (hres : fill_neighbours w h c COFFS cellq mask = some (cellq1, mask1)) :
    fill_inv w h mask0 s cellq1 mask1 (visited ++ [c]) := by
  obtain ⟨hlen, hm, hr, hnd, hcl, hs⟩ := hinv
  obtain ⟨pushed, e, hpnd, hp, hm1, ho, hl⟩ :=
    fill_neighbours_some w h c COFFS cellq mask hlen cellq1 mask1 hres
  subst e
  have hcreach : reach w h mask0 s c := hr c (Or.inl (List.mem_cons_self _ _))
  have hInGrid : ∀ d, d ∈ c :: cellq ∨ d ∈ visited → in_grid w h d :=
    fun d hd => (reach_free w h mask0 s d (hr d hd)).1
  refine ⟨by rw [hl]; exact hlen, ?_, ?_, ?_, ?_, ?_⟩
  · intro d hd
    rw [hm1 d hd, hm d hd]
    simp only [List.mem_cons, List.mem_append, List.mem_singleton]
    tauto
  · intro d hd
    simp only [List.mem_append, List.mem_singleton] at hd
    rcases hd with (hd | hd) | (hd | hd)
    · obtain ⟨hg, hf, o, hoc, rfl⟩ := hp d hd
      refine reach.step hcreach hoc ⟨hg, ?_⟩
      cases hmd : mask_get mask0 ((c + o).x + (c + o).y * w) with
      | false => rfl
      | true =>
        have := (hm _ hg).mpr (Or.inl hmd)
        rw [hf] at this
        exact absurd this (by simp)
    · exact hr d (Or.inl (List.mem_cons_of_mem _ hd))
    · exact hr d (Or.inr hd)
    · subst hd; exact hcreach
  · have hperm : ((pushed ++ cellq) ++ (visited ++ [c])).Perm (pushed ++ (c :: cellq ++ visited)) := by
      rw [List.append_assoc]
      apply List.Perm.append_left
      have h1 : (cellq ++ (visited ++ [c])).Perm ((visited ++ [c]) ++ cellq) :=
        List.perm_append_comm
      have h2 : ((visited ++ [c]) ++ cellq).Perm (visited ++ (c :: cellq)) := by
        simp
      have h3 : (visited ++ (c :: cellq)).Perm ((c :: cellq) ++ visited) :=
        List.perm_append_comm
      exact (h1.trans h2).trans h3
    rw [hperm.nodup_iff, List.nodup_append]
    refine ⟨hpnd, hnd, ?_⟩
    intro d hd1 hd2
    have hf := (hp d hd1).2.1
    have hmem : d ∈ c :: cellq ∨ d ∈ visited := List.mem_append.mp hd2
    have hg := hInGrid d hmem
    have := (hm d hg).mpr (Or.inr hmem)
    rw [hf] at this
    exact absurd this (by simp)
  · intro d hd o hoc
    rcases List.mem_append.mp hd with hd | hd
    · obtain ⟨hg, hset⟩ := hcl d hd o hoc
      exact ⟨hg, (hm1 _ hg).mpr (Or.inl hset)⟩
    · rw [List.mem_singleton] at hd
      subst hd
      exact ho o hoc
  · simp only [List.mem_cons, List.mem_append, List.mem_singleton] at hs ⊢
    tauto

/-- The fill loop from a state satisfying the invariant either returns -1 with a reachable
cell on the edge of the grid, or returns the number of reachable cells, having visited each
exactly once, none of them on the edge. -/
theorem fill_loop_spec (w h : Int) (lt : vec2i) (mask0 : List Bool) (s : vec2i) (fuel : Nat)
    (cellq : List vec2i) (mask : List Bool) (visited : List vec2i) (nvisited : Int)
    (hits : List vec2i) (hinv : fill_inv w h mask0 s cellq mask visited)
    (hnv : nvisited = visited.length)
    (hhits : hits = visited.map (fun c => (⟨c.x + lt.x, c.y + lt.y⟩ : vec2i)))
    (r : Int) (hs : List vec2i)
    (hres : fill_loop w h lt fuel cellq mask nvisited hits = some (r, hs)) :
    (r = -1 ∧ ∃ e, reach w h mask0 s e ∧ on_edge w h e) ∨
    (∃ comp : List vec2i, r = comp.length ∧
      hs = comp.map (fun c => (⟨c.x + lt.x, c.y + lt.y⟩ : vec2i)) ∧ comp.Nodup ∧
      (∀ c, c ∈ comp ↔ reach w h mask0 s c) ∧ ∀ c ∈ comp, ¬ on_edge w h c) := by
  induction fuel generalizing cellq mask visited nvisited hits with
  | zero =>
    cases cellq with
    | nil =>
      simp only [fill_loop, Option.some.injEq, Prod.mk.injEq] at hres
      obtain ⟨rfl, rfl⟩ := hres
      obtain ⟨h1, h2⟩ := fill_inv_closed w h mask0 s mask visited hinv
      have hnd : visited.Nodup := by simpa using hinv.2.2.2.1
      exact Or.inr ⟨visited, hnv, hhits, hnd, h1, h2⟩
    | cons c cellq => simp [fill_loop] at hres
  | succ fuel ih =>
    cases cellq with
    | nil =>
      simp only [fill_loop, Option.some.injEq, Prod.mk.injEq] at hres
      obtain ⟨rfl, rfl⟩ := hres
      obtain ⟨h1, h2⟩ := fill_inv_closed w h mask0 s mask visited hinv
      have hnd : visited.Nodup := by simpa using hinv.2.2.2.1
      exact Or.inr ⟨visited, hnv, hhits, hnd, h1, h2⟩
    | cons c cellq =>
      simp only [fill_loop] at hres
      have hcreach : reach w h mask0 s c := hinv.2.2.1 c (Or.inl (List.mem_cons_self _ _))
      cases hn : fill_neighbours w h c COFFS cellq mask with
      | none =>
        rw [hn] at hres
        simp only [Option.some.injEq, Prod.mk.injEq] at hres
        obtain ⟨o, ho, hout⟩ := fill_neighbours_none w h c COFFS cellq mask hn
        exact Or.inl ⟨hres.1.symm, c, hcreach,
          edge_of_neighbour_out w h c o (reach_free w h mask0 s c hcreach).1 ho hout⟩
      | some res =>
        obtain ⟨cellq1, mask1⟩ := res
        rw [hn] at hres
        simp only at hres
        have hinv1 := fill_inv_step w h mask0 s c cellq mask visited hinv cellq1 mask1 hn
        exact ih cellq1 mask1 (visited ++ [c]) (nvisited + 1)
          (hits ++ [⟨c.x + lt.x, c.y + lt.y⟩]) hinv1
          (by rw [hnv]; simp) (by rw [hhits]; simp) hres

theorem fill_inv_init (w h : Int) (mask0 : List Bool) (s : vec2i)
    (hlen : mask0.length = (w * h).toNat) (hfree : free_cell w h mask0 s) :
    fill_inv w h mask0 s [s] (mask_set mask0 (s.x + s.y * w)) [] := by
  have hrange := grid_idx_range w h _ _ hfree.1.1 hfree.1.2.1 hfree.1.2.2.1 hfree.1.2.2.2
  refine ⟨by rw [mask_set_length]; exact hlen, ?_, ?_, by simp, by simp, by simp⟩
  · intro c hc
    rw [mask_get_set]
    simp only [List.mem_singleton, List.not_mem_nil, or_false]
    constructor
    · rintro (h1 | ⟨h1, -, -⟩)
      · exact Or.inl h1
      · exact Or.inr (in_grid_idx_inj w h c s hc hfree.1 h1.symm)
    · rintro (h1 | h1)
      · exact Or.inl h1
      · subst h1
        exact Or.inr ⟨rfl, hrange.1, by omega⟩
  · intro c hc
    simp only [List.mem_singleton, List.not_mem_nil, or_false] at hc
    subst hc
    exact reach.seed hfree


/-! ### The rasterised grid of a valid layout -/

theorem slots_eq (variations : variation_array) (positions : List shape_pos)
    (hlen : positions.length = variations.length) : slots variations positions = positions := by
  unfold slots
  apply List.ext_getElem
  · simp [hlen]
  · intro i h1 h2
    simp [pos_at, List.getD_eq_getElem?_getD, List.getElem?_eq_getElem h2]

theorem bounds_fold_spec (variations : variation_array) (sl : List shape_pos)
    (acc : vec2i × vec2i) :
    (sl.foldl (bounds_step variations) acc).1.x ≤ acc.1.x ∧
    (sl.foldl (bounds_step variations) acc).1.y ≤ acc.1.y ∧
    acc.2.x ≤ (sl.foldl (bounds_step variations) acc).2.x ∧
    acc.2.y ≤ (sl.foldl (bounds_step variations) acc).2.y ∧
    ∀ pos ∈ sl, (sl.foldl (bounds_step variations) acc).1.x ≤ pos.x ∧
      (sl.foldl (bounds_step variations) acc).1.y ≤ pos.y ∧
      pos.x + (shape_at variations pos).width ≤ (sl.foldl (bounds_step variations) acc).2.x ∧
      pos.y + (shape_at variations pos).height ≤ (sl.foldl (bounds_step variations) acc).2.y := by
  induction sl generalizing acc with
  | nil => simp
  | cons s sl ih =>
    simp only [List.foldl_cons]
    obtain ⟨h1, h2, h3, h4, h5⟩ := ih (bounds_step variations acc s)
    have e1 : (bounds_step variations acc s).1.x = min acc.1.x s.x := rfl
    have e2 : (bounds_step variations acc s).1.y = min acc.1.y s.y := rfl
    have e3 : (bounds_step variations acc s).2.x = max acc.2.x (s.x + (shape_at variations s).width) := rfl
    have e4 : (bounds_step variations acc s).2.y = max acc.2.y (s.y + (shape_at variations s).height) := rfl
    rw [e1] at h1; rw [e2] at h2; rw [e3] at h3; rw [e4] at h4
    refine ⟨le_trans h1 (min_le_left _ _), le_trans h2 (min_le_left _ _),
      le_trans (le_max_left _ _) h3, le_trans (le_max_left _ _) h4, ?_⟩
    intro pos hpos
    rcases List.mem_cons.mp hpos with e | e
    · subst e
      exact ⟨le_trans h1 (min_le_right _ _), le_trans h2 (min_le_right _ _),
        le_trans (le_max_right _ _) h3, le_trans (le_max_right _ _) h4⟩
    · exact h5 pos e

theorem mask_get_fold2 (sl : List shape_pos) (cells : shape_pos → List vec2i)
    (f : shape_pos → vec2i → Int) (m0 : List Bool) (j : Int) :
    mask_get (sl.foldl (fun mask pos =>
      (cells pos).foldl (fun m sq => mask_set m (f pos sq)) mask) m0) j = true ↔
      mask_get m0 j = true ∨
        (∃ pos ∈ sl, ∃ sq ∈ cells pos, f pos sq = j) ∧ 0 ≤ j ∧ j < m0.length := by
  induction sl generalizing m0 with
  | nil => simp
  | cons s sl ih =>
    simp only [List.foldl_cons]
    rw [ih, mask_get_fold (f s), mask_fold_length (f s)]
    constructor
    · rintro ((h | ⟨⟨c, hc, h⟩, h2, h3⟩) | ⟨⟨pos, hpos, sq, hsq, h⟩, h2, h3⟩)
      · exact Or.inl h
      · exact Or.inr ⟨⟨s, List.mem_cons_self _ _, c, hc, h⟩, h2, h3⟩
      · exact Or.inr ⟨⟨pos, List.mem_cons_of_mem _ hpos, sq, hsq, h⟩, h2, h3⟩
    · rintro (h | ⟨⟨pos, hpos, sq, hsq, h⟩, h2, h3⟩)
      · exact Or.inl (Or.inl h)
      · rcases List.mem_cons.mp hpos with e | e
        · subst e; exact Or.inl (Or.inr ⟨⟨sq, hsq, h⟩, h2, h3⟩)
        · exact Or.inr ⟨⟨pos, e, sq, hsq, h⟩, h2, h3⟩

/-- A grid index reads occupied exactly when some cell of some placed shape was written
there. -/
theorem rasterise_get (variations : variation_array) (positions : List shape_pos)
    (lt : vec2i) (w h j : Int) :
    mask_get (rasterise variations positions lt w h) j = true ↔
      (∃ pos ∈ slots variations positions, ∃ sq ∈ (shape_at variations pos).squares,
        (pos.x + sq.x - lt.x) + (pos.y + sq.y - lt.y) * w = j) ∧ 0 ≤ j ∧ j < w * h := by
  unfold rasterise
  rw [mask_get_fold2 (slots variations positions) (fun pos => (shape_at variations pos).squares)
    (fun pos sq => (pos.x + sq.x - lt.x) + (pos.y + sq.y - lt.y) * w), mask_get_replicate]
  simp only [Bool.false_eq_true, false_or, List.length_replicate]
  constructor
  · rintro ⟨h1, h2, h3⟩
    exact ⟨h1, h2, by omega⟩
  · rintro ⟨h1, h2, h3⟩
    exact ⟨h1, h2, by omega⟩

theorem shape_at_wf (variations : variation_array) (positions : List shape_pos)
    (hv : valid_layout variations positions) (pos : shape_pos) (hpos : pos ∈ positions) :
    well_formed (shape_at variations pos) := by
  obtain ⟨hlen, hperm, hvar, hwf⟩ := hv
  have hidx : pos.shape_idx < variations.length := by
    have : pos.shape_idx ∈ positions.map shape_pos.shape_idx := List.mem_map_of_mem _ hpos
    have := hperm.mem_iff.mp this
    simpa using this
  have hv2 := hvar pos hpos
  have e : variations.getD pos.shape_idx [] = variations[pos.shape_idx] := by
    rw [List.getD_eq_getElem?_getD, List.getElem?_eq_getElem hidx]; rfl
  rw [e] at hv2
  have e2 : shape_at variations pos = variations[pos.shape_idx][pos.var_idx] := by
    unfold shape_at
    rw [e, List.getD_eq_getElem?_getD, List.getElem?_eq_getElem hv2]; rfl
  rw [e2]
  exact hwf _ (List.getElem_mem hidx) _ (List.getElem_mem hv2)



theorem wf_cell_bounds (sh : shape) (hwf : well_formed sh) (sq : vec2i) (hsq : sq ∈ sh.squares) :
    0 ≤ sq.x ∧ sq.x + 1 ≤ sh.width ∧ 0 ≤ sq.y ∧ sq.y + 1 ≤ sh.height := by
  have h1 := setup_width_ge sh.squares sq hsq
  have h2 := setup_height_ge sh.squares sq hsq
  have e1 := congrArg shape.width hwf.1
  have e2 := congrArg shape.height hwf.1
  have h0 := hwf.2.1 sq hsq
  omega

theorem wf_extent_pos (sh : shape) (hwf : well_formed sh) : 1 ≤ sh.width ∧ 1 ≤ sh.height := by
  obtain ⟨sq, hsq⟩ := List.exists_mem_of_ne_nil _ hwf.2.2
  have := wf_cell_bounds sh hwf sq hsq
  omega

theorem get_bounds_spec (variations : variation_array) (positions : List shape_pos)
    (hlen : positions.length = variations.length) (pos : shape_pos) (hpos : pos ∈ positions) :
    (get_bounds variations positions).1.x ≤ pos.x ∧
    (get_bounds variations positions).1.y ≤ pos.y ∧
    pos.x + (shape_at variations pos).width ≤ (get_bounds variations positions).2.x ∧
    pos.y + (shape_at variations pos).height ≤ (get_bounds variations positions).2.y := by
  unfold get_bounds
  rw [slots_eq variations positions hlen]
  exact (bounds_fold_spec variations positions _).2.2.2.2 pos hpos

/-- Every rasterised cell of a valid layout lies in the grid, off its last row and column. -/
theorem grid_cell_bounds (variations : variation_array) (positions : List shape_pos)
    (hv : valid_layout variations positions) (pos : shape_pos) (hpos : pos ∈ positions)
    (sq : vec2i) (hsq : sq ∈ (shape_at variations pos).squares) :
    0 ≤ pos.x + sq.x - (grid_lt variations positions).x ∧
    pos.x + sq.x - (grid_lt variations positions).x ≤ grid_w variations positions - 2 ∧
    0 ≤ pos.y + sq.y - (grid_lt variations positions).y ∧
    pos.y + sq.y - (grid_lt variations positions).y ≤ grid_h variations positions - 2 := by
  have hb := get_bounds_spec variations positions hv.1 pos hpos
  have hc := wf_cell_bounds _ (shape_at_wf variations positions hv pos hpos) sq hsq
  unfold grid_lt grid_w grid_h
  omega

theorem grid_extent_pos (variations : variation_array) (positions : List shape_pos)
    (hv : valid_layout variations positions) (hne : variations ≠ []) :
    2 ≤ grid_w variations positions ∧ 2 ≤ grid_h variations positions := by
  have hp : positions ≠ [] := by
    intro h
    have := hv.1
    rw [h] at this
    exact hne (List.length_eq_zero.mp this.symm)
  obtain ⟨pos, hpos⟩ := List.exists_mem_of_ne_nil _ hp
  have hb := get_bounds_spec variations positions hv.1 pos hpos
  have hc := wf_extent_pos _ (shape_at_wf variations positions hv pos hpos)
  unfold grid_w grid_h
  omega

theorem occupied_bound (variations : variation_array) (positions : List shape_pos)
    (hv : valid_layout variations positions) (c : vec2i)
    (hc : in_grid (grid_w variations positions) (grid_h variations positions) c)
    (hocc : mask_get (grid_mask variations positions)
      (c.x + c.y * grid_w variations positions) = true) :
    c.x ≤ grid_w variations positions - 2 ∧ c.y ≤ grid_h variations positions - 2 := by
  unfold grid_mask at hocc
  rw [rasterise_get, slots_eq variations positions hv.1] at hocc
  obtain ⟨⟨pos, hpos, sq, hsq, he⟩, -, -⟩ := hocc
  have hb := grid_cell_bounds variations positions hv pos hpos sq hsq
  obtain ⟨e1, e2⟩ := grid_idx_inj _ _ _ _ _ hb.1 (by omega) hc.1 hc.2.1 he
  omega

/-- The seed `flood_fill` starts from lies in the grid, for every valid non-empty layout. -/
theorem grid_seed_in_grid (variations : variation_array) (positions : List shape_pos)
    (hv : valid_layout variations positions) (hne : variations ≠ []) :
    in_grid (grid_w variations positions) (grid_h variations positions)
      (grid_seed variations positions) := by
  have hext := grid_extent_pos variations positions hv hne
  have ew : Int.tdiv (grid_w variations positions) 2 = grid_w variations positions / 2 :=
    Int.tdiv_eq_ediv (by omega) (by omega)
  have eh : Int.tdiv (grid_h variations positions) 2 = grid_h variations positions / 2 :=
    Int.tdiv_eq_ediv (by omega) (by omega)
  have hcen : in_grid (grid_w variations positions) (grid_h variations positions)
      ⟨Int.tdiv (grid_w variations positions) 2, Int.tdiv (grid_h variations positions) 2⟩ := by
    unfold in_grid
    simp only [ew, eh]
    omega
  unfold grid_seed seed_cell
  simp only
  split
  · rename_i hocc
    have hb := occupied_bound variations positions hv _ hcen hocc
    simp only [ew, eh] at hb
    split
    · rename_i offs hfind
      have hb2 := coffs_bound offs (List.mem_of_find?_eq_some hfind)
      unfold in_grid
      simp only [vec2i_add_x, vec2i_add_y, ew, eh]
      omega
    · exact hcen
  · exact hcen


/-- C5: for every valid non-empty layout whose chosen seed cell is unoccupied, `flood_fill`
returns; it returns -1 if some cell in the first or last row or column of the grid is
reachable from the seed through unoccupied cells by 8-connected steps; otherwise it returns
the number of cells of the seed's 8-connected unoccupied component, and the visitor is called
exactly once for each cell of that component, in world coordinates. -/
theorem flood_fill_spec (variations : variation_array) (positions : List shape_pos)
    (hv : valid_layout variations positions) (hne : variations ≠ [])
    (hfree : mask_get (grid_mask variations positions)
      ((grid_seed variations positions).x +
        (grid_seed variations positions).y * grid_w variations positions) = false) :
    ∃ r hits, flood_fill variations positions = some (r, hits) ∧
      ((∃ e, reach (grid_w variations positions) (grid_h variations positions)
          (grid_mask variations positions) (grid_seed variations positions) e ∧
          on_edge (grid_w variations positions) (grid_h variations positions) e) → r = -1) ∧
      (¬ (∃ e, reach (grid_w variations positions) (grid_h variations positions)
          (grid_mask variations positions) (grid_seed variations positions) e ∧
          on_edge (grid_w variations positions) (grid_h variations positions) e) →
        ∃ comp : List vec2i, comp.Nodup ∧
          (∀ c, c ∈ comp ↔ reach (grid_w variations positions) (grid_h variations positions)
            (grid_mask variations positions) (grid_seed variations positions) c) ∧
          r = comp.length ∧
          hits = comp.map (fun c => (⟨c.x + (grid_lt variations positions).x,
            c.y + (grid_lt variations positions).y⟩ : vec2i))) := by
  obtain ⟨⟨r, hits⟩, hff⟩ := flood_fill_total variations positions
  have hseed : free_cell (grid_w variations positions) (grid_h variations positions)
      (grid_mask variations positions) (grid_seed variations positions) :=
    ⟨grid_seed_in_grid variations positions hv hne, hfree⟩
  have hinit := fill_inv_init _ _ _ _ (grid_mask_length variations positions) hseed
  have hspec := fill_loop_spec (grid_w variations positions) (grid_h variations positions)
    (grid_lt variations positions) (grid_mask variations positions)
    (grid_seed variations positions) _ _ _ [] 0 [] hinit (by simp) (by simp) r hits hff
  refine ⟨r, hits, hff, ?_, ?_⟩
  · intro hex
    rcases hspec with ⟨h1, -⟩ | ⟨comp, -, -, -, hmem, hedge⟩
    · exact h1
    · obtain ⟨e, he, hon⟩ := hex
      exact absurd hon (hedge e ((hmem e).mpr he))
  · intro hnex
    rcases hspec with ⟨-, hex⟩ | ⟨comp, h1, h2, h3, hmem, -⟩
    · exact absurd hex hnex
    · exact ⟨comp, h3, hmem, h1, h2⟩

set_option maxRecDepth 8000 in
theorem flood_fill_spec_witness :
    valid_layout thick_variations thick_positions ∧
    ∃ r hits, flood_fill thick_variations thick_positions = some (r, hits) ∧
      ((∃ e, reach (grid_w thick_variations thick_positions)
          (grid_h thick_variations thick_positions)
          (grid_mask thick_variations thick_positions)
          (grid_seed thick_variations thick_positions) e ∧
          on_edge (grid_w thick_variations thick_positions)
            (grid_h thick_variations thick_positions) e) → r = -1) ∧
      (¬ (∃ e, reach (grid_w thick_variations thick_positions)
          (grid_h thick_variations thick_positions)
          (grid_mask thick_variations thick_positions)
          (grid_seed thick_variations thick_positions) e ∧
          on_edge (grid_w thick_variations thick_positions)
            (grid_h thick_variations thick_positions) e) →
        ∃ comp : List vec2i, comp.Nodup ∧
          (∀ c, c ∈ comp ↔ reach (grid_w thick_variations thick_positions)
            (grid_h thick_variations thick_positions)
            (grid_mask thick_variations thick_positions)
            (grid_seed thick_variations thick_positions) c) ∧
          r = comp.length ∧
          hits = comp.map (fun c => (⟨c.x + (grid_lt thick_variations thick_positions).x,
            c.y + (grid_lt thick_variations thick_positions).y⟩ : vec2i))) :=
  ⟨by decide, flood_fill_spec thick_variations thick_positions (by decide) (by decide)
    (by decide)⟩


/-! ### Closed rings and occupied seeds -/

theorem fill_neighbours_all_occupied (w h : Int) (c : vec2i) (offs cellq : List vec2i)
    (mask : List Bool)
    (hocc : ∀ o ∈ offs, occupied_cell w h mask (c + o)) :
    fill_neighbours w h c offs cellq mask = some (cellq, mask) := by
  induction offs with
  | nil => rfl
  | cons o offs ih =>
    obtain ⟨hg, hm⟩ := hocc o (List.mem_cons_self _ _)
    have hr : ¬ ((c + o).x < 0 ∨ (c + o).y < 0 ∨ (c + o).x ≥ w ∨ (c + o).y ≥ h) := by
      unfold in_grid at hg; omega
    simp only [fill_neighbours, if_neg hr, hm, Bool.true_eq_false, if_false]
    exact ih (fun o2 ho2 => hocc o2 (List.mem_cons_of_mem _ ho2))

/-- C4 (amended): when the occupied cells form a closed ring around exactly one empty
interior cell and the seed chosen by `flood_fill` is that cell, `flood_fill` returns 1 (not
-1) and calls the visitor once, on that cell. -/
theorem flood_fill_ring_at_seed (variations : variation_array) (positions : List shape_pos)
    (c : vec2i) (hring : ring_around variations positions c)
    (hseed : grid_seed variations positions = c) :
    flood_fill variations positions =
      some (1, [⟨c.x + (grid_lt variations positions).x,
        c.y + (grid_lt variations positions).y⟩]) := by
  obtain ⟨_, hocc, -⟩ := hring
  unfold flood_fill
  simp only [hseed, fill_loop]
  rw [fill_neighbours_all_occupied]
  · simp [fill_loop]
  · intro o ho
    obtain ⟨hg, hm⟩ := hocc o ho
    exact ⟨hg, mask_get_set_mono _ _ _ hm⟩

theorem ring_grid_free_on_edge (d : vec2i)
    (hf : free_cell (grid_w ring_variations ring_positions)
      (grid_h ring_variations ring_positions) (grid_mask ring_variations ring_positions) d)
    (hd : d ≠ ⟨1, 1⟩) :
    on_edge (grid_w ring_variations ring_positions) (grid_h ring_variations ring_positions) d := by
  have hw : grid_w ring_variations ring_positions = 4 := by decide
  have hh : grid_h ring_variations ring_positions = 4 := by decide
  obtain ⟨x, y⟩ := d
  obtain ⟨⟨hx0, hxw, hy0, hyh⟩, hm⟩ := hf
  rw [hw] at hxw hm ⊢
  rw [hh] at hyh ⊢
  simp only at hx0 hxw hy0 hyh hm
  interval_cases x <;> interval_cases y <;>
    first
      | (exact absurd rfl hd)
      | (revert hm; decide)

set_option maxRecDepth 8000 in
theorem arm_grid_free_escapes (d : vec2i)
    (hf : free_cell (grid_w arm_variations arm_positions)
      (grid_h arm_variations arm_positions) (grid_mask arm_variations arm_positions) d)
    (hd : d ≠ ⟨1, 1⟩) :
    on_edge (grid_w arm_variations arm_positions) (grid_h arm_variations arm_positions) d ∨
    (free_cell (grid_w arm_variations arm_positions)
      (grid_h arm_variations arm_positions) (grid_mask arm_variations arm_positions)
      (d + ⟨0, 1⟩) ∧
     on_edge (grid_w arm_variations arm_positions) (grid_h arm_variations arm_positions)
      (d + ⟨0, 1⟩)) := by
  have hw : grid_w arm_variations arm_positions = 10 := by decide
  have hh : grid_h arm_variations arm_positions = 4 := by decide
  obtain ⟨x, y⟩ := d
  obtain ⟨⟨hx0, hxw, hy0, hyh⟩, hm⟩ := hf
  rw [hw] at hxw hm ⊢
  rw [hh] at hyh ⊢
  simp only at hx0 hxw hy0 hyh hm
  interval_cases x <;> interval_cases y <;>
    first
      | (exact absurd rfl hd)
      | (revert hm; decide)

set_option maxRecDepth 8000 in
/-- C4 (counterexample): two valid layouts closed around exactly one empty cell on which
`flood_fill` returns -1. In the 3 by 3 ring of `ring_variations` the grid centre (2, 2) is a
ring cell and the nudge moves the seed to (3, 2), outside the ring. In `arm_variations` the
grid centre (5, 2) is a free cell outside the ring. -/
theorem flood_fill_ring_counterexample :
    (valid_layout ring_variations ring_positions ∧
      ring_around ring_variations ring_positions ⟨1, 1⟩ ∧
      flood_fill ring_variations ring_positions = some (-1, [⟨3, 2⟩])) ∧
    (valid_layout arm_variations arm_positions ∧
      ring_around arm_variations arm_positions ⟨1, 1⟩ ∧
      flood_fill arm_variations arm_positions = some (-1, [⟨5, 2⟩, ⟨4, 3⟩])) := by
  refine ⟨⟨by decide, ⟨by decide, by decide, ?_⟩, by decide⟩,
    ⟨by decide, ⟨by decide, by decide, ?_⟩, by decide⟩⟩
  · intro d hf hd
    exact ⟨d, reach.seed hf, ring_grid_free_on_edge d hf hd⟩
  · intro d hf hd
    rcases arm_grid_free_escapes d hf hd with h | ⟨h1, h2⟩
    · exact ⟨d, reach.seed hf, h⟩
    · exact ⟨d + ⟨0, 1⟩, reach.step (reach.seed hf) (by decide) h1, h2⟩

theorem thick_grid_free_on_edge (d : vec2i)
    (hf : free_cell (grid_w thick_variations thick_positions)
      (grid_h thick_variations thick_positions) (grid_mask thick_variations thick_positions) d)
    (hd : d ≠ ⟨2, 2⟩) :
    on_edge (grid_w thick_variations thick_positions)
      (grid_h thick_variations thick_positions) d := by
  have hw : grid_w thick_variations thick_positions = 5 := by decide
  have hh : grid_h thick_variations thick_positions = 5 := by decide
  obtain ⟨x, y⟩ := d
  obtain ⟨⟨hx0, hxw, hy0, hyh⟩, hm⟩ := hf
  rw [hw] at hxw hm ⊢
  rw [hh] at hyh ⊢
  simp only at hx0 hxw hy0 hyh hm
  interval_cases x <;> interval_cases y <;>
    first
      | (exact absurd rfl hd)
      | (revert hm; decide)

set_option maxRecDepth 8000 in
theorem flood_fill_ring_at_seed_witness :
    ring_around thick_variations thick_positions ⟨2, 2⟩ ∧
    grid_seed thick_variations thick_positions = ⟨2, 2⟩ ∧
    flood_fill thick_variations thick_positions =
      some (1, [⟨2 + (grid_lt thick_variations thick_positions).x,
        2 + (grid_lt thick_variations thick_positions).y⟩]) :=
  have hr : ring_around thick_variations thick_positions ⟨2, 2⟩ :=
    ⟨by decide, by decide,
      fun d hf hd => ⟨d, reach.seed hf, thick_grid_free_on_edge d hf hd⟩⟩
  ⟨hr, by decide, flood_fill_ring_at_seed thick_variations thick_positions ⟨2, 2⟩ hr (by decide)⟩

set_option maxRecDepth 8000 in
/-- C6 (the code at the failing input): for one solid 5 by 5 block the grid centre (3, 3) and
its 8 neighbours are all occupied, the nudge finds no free cell, and `flood_fill` still
returns 1, so `score` is 1 instead of the gap metric. -/
theorem score_solid_block :
    valid_layout block_variations block_positions ∧
    occupied_cell (grid_w block_variations block_positions)
      (grid_h block_variations block_positions)
      (grid_mask block_variations block_positions) ⟨3, 3⟩ ∧
    (∀ o ∈ COFFS, occupied_cell (grid_w block_variations block_positions)
      (grid_h block_variations block_positions)
      (grid_mask block_variations block_positions) ((⟨3, 3⟩ : vec2i) + o)) ∧
    grid_seed block_variations block_positions = ⟨3, 3⟩ ∧
    flood_fill block_variations block_positions = some (1, [⟨3, 3⟩]) ∧
    score block_variations block_positions = some 1 ∧
    gap_sum block_variations block_positions = 1 := by
  refine ⟨by decide, by decide, by decide, by decide, by decide, by decide, by decide⟩


/-! ### Translation and centring -/

theorem tdiv_two_residue (s : Int) : Int.tdiv (s - 2 * Int.tdiv s 2) 2 = 0 := by
  rcases le_or_lt 0 s with h | h
  · rw [Int.tdiv_eq_ediv h (by norm_num)]
    have : s - 2 * (s / 2) = 0 ∨ s - 2 * (s / 2) = 1 := by omega
    rcases this with e | e <;> rw [e] <;> decide
  · have e1 : Int.tdiv s 2 = -((-s) / 2) := by
      have : s = -(-s) := by ring
      conv_lhs => rw [this, Int.neg_tdiv, Int.tdiv_eq_ediv (by omega) (by norm_num)]
    rw [e1]
    have : s - 2 * -((-s) / 2) = 0 ∨ s - 2 * -((-s) / 2) = -1 := by omega
    rcases this with e | e <;> rw [e] <;> decide

theorem shape_at_shift (variations : variation_array) (t : vec2i) (pos : shape_pos) :
    shape_at variations (shift_pos t pos) = shape_at variations pos := rfl

theorem translate_length (positions : List shape_pos) (t : vec2i) :
    (translate positions t).length = positions.length := by
  simp [translate]

theorem center_eq_translate (variations : variation_array) (positions : List shape_pos) :
    center variations positions = translate positions
      ⟨-Int.tdiv ((get_bounds variations positions).2.x + (get_bounds variations positions).1.x) 2,
       -Int.tdiv ((get_bounds variations positions).2.y + (get_bounds variations positions).1.y) 2⟩ := by
  unfold center translate
  apply List.map_congr_left
  intro pos _
  simp only [shift_pos, sub_eq_add_neg]

theorem bounds_step_shift (variations : variation_array) (t : vec2i) (acc : vec2i × vec2i)
    (pos : shape_pos) :
    bounds_step variations (acc.1 + t, acc.2 + t) (shift_pos t pos) =
      ((bounds_step variations acc pos).1 + t, (bounds_step variations acc pos).2 + t) := by
  unfold bounds_step
  simp only [shape_at_shift]
  show ((⟨min (acc.1.x + t.x) (pos.x + t.x), min (acc.1.y + t.y) (pos.y + t.y)⟩ : vec2i),
    (⟨max (acc.2.x + t.x) (pos.x + t.x + (shape_at variations pos).width),
      max (acc.2.y + t.y) (pos.y + t.y + (shape_at variations pos).height)⟩ : vec2i)) =
    ((⟨min acc.1.x pos.x + t.x, min acc.1.y pos.y + t.y⟩ : vec2i),
      (⟨max acc.2.x (pos.x + (shape_at variations pos).width) + t.x,
        max acc.2.y (pos.y + (shape_at variations pos).height) + t.y⟩ : vec2i))
  rw [min_add_add_right, min_add_add_right]
  have e1 : pos.x + t.x + (shape_at variations pos).width =
      pos.x + (shape_at variations pos).width + t.x := by ring
  have e2 : pos.y + t.y + (shape_at variations pos).height =
      pos.y + (shape_at variations pos).height + t.y := by ring
  rw [e1, e2, max_add_add_right, max_add_add_right]

theorem bounds_fold_shift (variations : variation_array) (t : vec2i) (sl : List shape_pos)
    (acc : vec2i × vec2i) :
    (translate sl t).foldl (bounds_step variations) (acc.1 + t, acc.2 + t) =
      ((sl.foldl (bounds_step variations) acc).1 + t,
        (sl.foldl (bounds_step variations) acc).2 + t) := by
  induction sl generalizing acc with
  | nil => rfl
  | cons s sl ih =>
    simp only [translate, List.map_cons, List.foldl_cons] at ih ⊢
    rw [bounds_step_shift, ih]

theorem bounds_step_first (variations : variation_array) (pos : shape_pos)
    (h1 : pos.x ≤ INT_MAX) (h2 : pos.y ≤ INT_MAX)
    (h3 : INT_MIN ≤ pos.x + (shape_at variations pos).width)
    (h4 : INT_MIN ≤ pos.y + (shape_at variations pos).height) :
    bounds_step variations (⟨INT_MAX, INT_MAX⟩, ⟨INT_MIN, INT_MIN⟩) pos =
      (⟨pos.x, pos.y⟩, ⟨pos.x + (shape_at variations pos).width,
        pos.y + (shape_at variations pos).height⟩) := by
  unfold bounds_step
  simp only [min_eq_right h1, min_eq_right h2, max_eq_right h3, max_eq_right h4]

/-- Moving a non-empty layout by `t` moves both corners of its bounding box by `t`, as long
as the coordinates stay within `int`. -/
theorem get_bounds_translate (variations : variation_array) (positions : List shape_pos)
    (hlen : positions.length = variations.length) (hne : variations ≠ []) (t : vec2i)
    (hr : in_int_range variations positions)
    (hrt : in_int_range variations (translate positions t)) :
    get_bounds variations (translate positions t) =
      ((get_bounds variations positions).1 + t, (get_bounds variations positions).2 + t) := by
  unfold get_bounds
  rw [slots_eq variations positions hlen,
    slots_eq variations (translate positions t) (by rw [translate_length]; exact hlen)]
  cases positions with
  | nil => exact absurd (List.length_eq_zero.mp hlen.symm) hne
  | cons s sl =>
    have hs := hr s (List.mem_cons_self _ _)
    have hst := hrt (shift_pos t s) (by simp [translate])
    rw [shape_at_shift] at hst
    have e : translate (s :: sl) t = shift_pos t s :: translate sl t := rfl
    rw [e, List.foldl_cons, List.foldl_cons,
      bounds_step_first variations s hs.2.1 hs.2.2.2.1 hs.2.2.2.2.1 hs.2.2.2.2.2.2.1,
      bounds_step_first variations (shift_pos t s) hst.2.1 hst.2.2.2.1 hst.2.2.2.2.1
        hst.2.2.2.2.2.2.1]
    rw [shape_at_shift]
    have e2 : ((⟨(shift_pos t s).x, (shift_pos t s).y⟩ : vec2i),
        (⟨(shift_pos t s).x + (shape_at variations s).width,
          (shift_pos t s).y + (shape_at variations s).height⟩ : vec2i)) =
        ((⟨s.x, s.y⟩ : vec2i) + t, (⟨s.x + (shape_at variations s).width,
          s.y + (shape_at variations s).height⟩ : vec2i) + t) := by
      show ((⟨s.x + t.x, s.y + t.y⟩ : vec2i), (⟨s.x + t.x + (shape_at variations s).width,
          s.y + t.y + (shape_at variations s).height⟩ : vec2i)) =
        ((⟨s.x + t.x, s.y + t.y⟩ : vec2i), (⟨s.x + (shape_at variations s).width + t.x,
          s.y + (shape_at variations s).height + t.y⟩ : vec2i))
      congr 2 <;> ring
    rw [e2]
    exact bounds_fold_shift variations t sl
      ((⟨s.x, s.y⟩ : vec2i), (⟨s.x + (shape_at variations s).width,
        s.y + (shape_at variations s).height⟩ : vec2i))



theorem grid_translate (variations : variation_array) (positions : List shape_pos)
    (hlen : positions.length = variations.length) (hne : variations ≠ []) (t : vec2i)
    (hr : in_int_range variations positions)
    (hrt : in_int_range variations (translate positions t)) :
    grid_lt variations (translate positions t) = grid_lt variations positions + t ∧
    grid_w variations (translate positions t) = grid_w variations positions ∧
    grid_h variations (translate positions t) = grid_h variations positions := by
  have hb := get_bounds_translate variations positions hlen hne t hr hrt
  unfold grid_lt grid_w grid_h
  rw [hb]
  refine ⟨rfl, ?_, ?_⟩
  · simp only [vec2i_add_x]; ring
  · simp only [vec2i_add_y]; ring

theorem rasterise_translate (variations : variation_array) (positions : List shape_pos)
    (hlen : positions.length = variations.length) (t lt : vec2i) (w h : Int) :
    rasterise variations (translate positions t) (lt + t) w h =
      rasterise variations positions lt w h := by
  unfold rasterise
  rw [slots_eq variations positions hlen,
    slots_eq variations (translate positions t) (by rw [translate_length]; exact hlen)]
  unfold translate
  rw [List.foldl_map]
  apply List.foldl_ext
  intro m pos _
  rw [shape_at_shift]
  apply List.foldl_ext
  intro m2 sq _
  have e : (shift_pos t pos).x + sq.x - (lt + t).x + ((shift_pos t pos).y + sq.y - (lt + t).y) * w
      = pos.x + sq.x - lt.x + (pos.y + sq.y - lt.y) * w := by
    show pos.x + t.x + sq.x - (lt.x + t.x) + (pos.y + t.y + sq.y - (lt.y + t.y)) * w = _
    ring
  rw [e]

theorem grid_mask_translate (variations : variation_array) (positions : List shape_pos)
    (hlen : positions.length = variations.length) (hne : variations ≠ []) (t : vec2i)
    (hr : in_int_range variations positions)
    (hrt : in_int_range variations (translate positions t)) :
    grid_mask variations (translate positions t) = grid_mask variations positions := by
  obtain ⟨e1, e2, e3⟩ := grid_translate variations positions hlen hne t hr hrt
  unfold grid_mask
  rw [e1, e2, e3]
  exact rasterise_translate variations positions hlen t _ _ _

theorem fill_loop_count_indep (w h : Int) (lt lt2 : vec2i) (fuel : Nat) (cellq : List vec2i)
    (mask : List Bool) (nvisited : Int) (hits hits2 : List vec2i) :
    (fill_loop w h lt2 fuel cellq mask nvisited hits2).map Prod.fst =
      (fill_loop w h lt fuel cellq mask nvisited hits).map Prod.fst := by
  induction fuel generalizing cellq mask nvisited hits hits2 with
  | zero =>
    cases cellq with
    | nil => simp [fill_loop]
    | cons c cellq => simp [fill_loop]
  | succ fuel ih =>
    cases cellq with
    | nil => simp [fill_loop]
    | cons c cellq =>
      simp only [fill_loop]
      cases fill_neighbours w h c COFFS cellq mask with
      | none => simp
      | some res => exact ih _ _ _ _ _

/-- Moving a layout by `t` does not change the value `flood_fill` returns. -/
theorem flood_fill_translate (variations : variation_array) (positions : List shape_pos)
    (hlen : positions.length = variations.length) (hne : variations ≠ []) (t : vec2i)
    (hr : in_int_range variations positions)
    (hrt : in_int_range variations (translate positions t)) :
    (flood_fill variations (translate positions t)).map Prod.fst =
      (flood_fill variations positions).map Prod.fst := by
  obtain ⟨e1, e2, e3⟩ := grid_translate variations positions hlen hne t hr hrt
  have e4 := grid_mask_translate variations positions hlen hne t hr hrt
  unfold flood_fill grid_seed
  simp only [e2, e3, e4]
  exact fill_loop_count_indep _ _ _ _ _ _ _ _ _ _

theorem overlap_status_translate (sh1 sh2 : shape) (p q t : vec2i) :
    overlap_status sh1 (p + t) sh2 (q + t) = overlap_status sh1 p sh2 q := by
  unfold overlap_status
  simp only [vec2i_add_x, vec2i_add_y]
  have hdx : p.x + t.x - (q.x + t.x) = p.x - q.x := by ring
  have hdy : p.y + t.y - (q.y + t.y) = p.y - q.y := by ring
  have hc : (p.x + t.x > q.x + t.x + sh2.width ∨ q.x + t.x > p.x + t.x + sh1.width ∨
      p.y + t.y > q.y + t.y + sh2.height ∨ q.y + t.y > p.y + t.y + sh1.height) ↔
      (p.x > q.x + sh2.width ∨ q.x > p.x + sh1.width ∨
      p.y > q.y + sh2.height ∨ q.y > p.y + sh1.height) := by
    constructor <;> intro h <;> omega
  simp only [hdx, hdy, hc]

/-- The function `distance` depends only on the difference of the two positions. -/
theorem distance_translate (sh1 sh2 : shape) (p q t : vec2i) :
    distance sh1 (p + t) sh2 (q + t) = distance sh1 p sh2 q := by
  unfold distance
  rw [overlap_status_translate]
  simp only [vec2i_add_x, vec2i_add_y]
  have hdx : p.x + t.x - (q.x + t.x) = p.x - q.x := by ring
  have hdy : p.y + t.y - (q.y + t.y) = p.y - q.y := by ring
  simp only [hdx, hdy]

theorem shift_pos_p (t : vec2i) (pos : shape_pos) : (shift_pos t pos).p = pos.p + t := rfl

theorem pos_at_translate (positions : List shape_pos) (t : vec2i) (i : Nat)
    (hi : i < positions.length) :
    pos_at (translate positions t) i = shift_pos t (pos_at positions i) := by
  unfold pos_at translate
  rw [List.getD_eq_getElem?_getD, List.getD_eq_getElem?_getD, List.getElem?_map,
    List.getElem?_eq_getElem hi]
  rfl

theorem gap_sum_translate (variations : variation_array) (positions : List shape_pos)
    (hlen : positions.length = variations.length) (t : vec2i) :
    gap_sum variations (translate positions t) = gap_sum variations positions := by
  unfold gap_sum
  congr 1
  apply List.map_congr_left
  intro i hi
  have hi2 : i < variations.length := List.mem_range.mp hi
  have hi3 : (i + 1) % variations.length < variations.length := Nat.mod_lt _ (by omega)
  rw [pos_at_translate positions t i (by omega),
    pos_at_translate positions t _ (by omega)]
  simp only [shape_at_shift, shift_pos_p, distance_translate]

theorem score_translate (variations : variation_array) (positions : List shape_pos)
    (hlen : positions.length = variations.length) (hne : variations ≠ []) (t : vec2i)
    (hr : in_int_range variations positions)
    (hrt : in_int_range variations (translate positions t)) :
    score variations (translate positions t) = score variations positions := by
  obtain ⟨⟨a1, h1⟩, f1⟩ := flood_fill_total variations positions
  obtain ⟨⟨a2, h2⟩, f2⟩ := flood_fill_total variations (translate positions t)
  have hff := flood_fill_translate variations positions hlen hne t hr hrt
  rw [f1, f2] at hff
  simp only [Option.map_some', Option.some.injEq] at hff
  rw [score_eq _ _ a1 h1 f1, score_eq _ _ a2 h2 f2, hff, gap_sum_translate _ _ hlen]



/-- C7: for every valid non-empty layout whose coordinates stay within `int`, before and
after the move, recentring changes neither `score` nor the `flood_fill` result, and moving
every placement by one vector `t` changes neither of them nor any pairwise `distance`. -/
theorem score_center_invariant (variations : variation_array) (positions : List shape_pos)
    (hv : valid_layout variations positions) (hne : variations ≠ [])
    (hr : in_int_range variations positions)
    (hrc : in_int_range variations (center variations positions)) :
    score variations (center variations positions) = score variations positions ∧
    (flood_fill variations (center variations positions)).map Prod.fst =
      (flood_fill variations positions).map Prod.fst ∧
    ∀ t : vec2i, in_int_range variations (translate positions t) →
      score variations (translate positions t) = score variations positions ∧
      (flood_fill variations (translate positions t)).map Prod.fst =
        (flood_fill variations positions).map Prod.fst ∧
      ∀ a b : shape_pos,
        distance (shape_at variations (shift_pos t a)) (shift_pos t a).p
            (shape_at variations (shift_pos t b)) (shift_pos t b).p =
          distance (shape_at variations a) a.p (shape_at variations b) b.p := by
  refine ⟨?_, ?_, ?_⟩
  · rw [center_eq_translate] at hrc ⊢
    exact score_translate variations positions hv.1 hne _ hr hrc
  · rw [center_eq_translate] at hrc ⊢
    exact flood_fill_translate variations positions hv.1 hne _ hr hrc
  · intro t hrt
    refine ⟨score_translate variations positions hv.1 hne t hr hrt,
      flood_fill_translate variations positions hv.1 hne t hr hrt, ?_⟩
    intro a b
    simp only [shape_at_shift, shift_pos_p, distance_translate]

set_option maxRecDepth 8000 in
theorem score_center_invariant_witness :
    valid_layout thick_variations thick_positions ∧
    in_int_range thick_variations thick_positions ∧
    center thick_variations thick_positions = [⟨-2, -2, 0, 0⟩, ⟨-2, 0, 1, 0⟩] ∧
    score thick_variations (center thick_variations thick_positions) =
      score thick_variations thick_positions :=
  ⟨by decide, by decide, by decide,
    (score_center_invariant thick_variations thick_positions (by decide) (by decide)
      (by decide) (by decide)).1⟩

theorem center_of_zero (variations : variation_array) (q : List shape_pos)
    (hx : Int.tdiv ((get_bounds variations q).2.x + (get_bounds variations q).1.x) 2 = 0)
    (hy : Int.tdiv ((get_bounds variations q).2.y + (get_bounds variations q).1.y) 2 = 0) :
    center variations q = q := by
  unfold center
  simp only [hx, hy, sub_zero]
  exact List.map_id _

/-- Over the integers, with the box corners in `int` range: after `center` the bounding-box
centre is the origin under truncating division, `center` moved every placement by one and the
same vector and kept `shape_idx` and `var_idx`, and `center` is idempotent. -/
theorem center_facts (variations : variation_array) (positions : List shape_pos)
    (hv : valid_layout variations positions) (hne : variations ≠ [])
    (hr : in_int_range variations positions)
    (hrc : in_int_range variations (center variations positions)) :
    Int.tdiv ((get_bounds variations (center variations positions)).1.x +
      (get_bounds variations (center variations positions)).2.x) 2 = 0 ∧
    Int.tdiv ((get_bounds variations (center variations positions)).1.y +
      (get_bounds variations (center variations positions)).2.y) 2 = 0 ∧
    (∃ t : vec2i, center variations positions =
      positions.map (fun pos => ⟨pos.x + t.x, pos.y + t.y, pos.shape_idx, pos.var_idx⟩)) ∧
    center variations (center variations positions) = center variations positions := by
  have hb : get_bounds variations (center variations positions) =
      ((get_bounds variations positions).1 +
        ⟨-Int.tdiv ((get_bounds variations positions).2.x +
            (get_bounds variations positions).1.x) 2,
          -Int.tdiv ((get_bounds variations positions).2.y +
            (get_bounds variations positions).1.y) 2⟩,
       (get_bounds variations positions).2 +
        ⟨-Int.tdiv ((get_bounds variations positions).2.x +
            (get_bounds variations positions).1.x) 2,
          -Int.tdiv ((get_bounds variations positions).2.y +
            (get_bounds variations positions).1.y) 2⟩) := by
    rw [center_eq_translate] at hrc ⊢
    exact get_bounds_translate variations positions hv.1 hne _ hr hrc
  have hx : Int.tdiv ((get_bounds variations (center variations positions)).1.x +
      (get_bounds variations (center variations positions)).2.x) 2 = 0 := by
    rw [hb]
    simp only [vec2i_add_x]
    have e : (get_bounds variations positions).1.x +
        -Int.tdiv ((get_bounds variations positions).2.x + (get_bounds variations positions).1.x) 2
        + ((get_bounds variations positions).2.x +
        -Int.tdiv ((get_bounds variations positions).2.x + (get_bounds variations positions).1.x) 2)
        = ((get_bounds variations positions).2.x + (get_bounds variations positions).1.x) -
          2 * Int.tdiv ((get_bounds variations positions).2.x +
            (get_bounds variations positions).1.x) 2 := by ring
    rw [e]
    exact tdiv_two_residue _
  have hy : Int.tdiv ((get_bounds variations (center variations positions)).1.y +
      (get_bounds variations (center variations positions)).2.y) 2 = 0 := by
    rw [hb]
    simp only [vec2i_add_y]
    have e : (get_bounds variations positions).1.y +
        -Int.tdiv ((get_bounds variations positions).2.y + (get_bounds variations positions).1.y) 2
        + ((get_bounds variations positions).2.y +
        -Int.tdiv ((get_bounds variations positions).2.y + (get_bounds variations positions).1.y) 2)
        = ((get_bounds variations positions).2.y + (get_bounds variations positions).1.y) -
          2 * Int.tdiv ((get_bounds variations positions).2.y +
            (get_bounds variations positions).1.y) 2 := by ring
    rw [e]
    exact tdiv_two_residue _
  refine ⟨hx, hy, ⟨_, center_eq_translate variations positions⟩, ?_⟩
  rw [add_comm] at hx hy
  exact center_of_zero variations _ hx hy

/-! ### Mutation keeps layouts valid -/

/-- Exchanging two entries of a list gives a permutation of it. -/
theorem set_swap_perm {α : Type} [DecidableEq α] (l : List α) (i j : Nat) (d : α)
    (hi : i < l.length) (hj : j < l.length) :
    ((l.set i (l.getD j d)).set j (l.getD i d)).Perm l := by
  rw [List.perm_iff_count]
  intro b
  have ei : l.getD i d = l[i] := by
    rw [List.getD_eq_getElem?_getD, List.getElem?_eq_getElem hi]; rfl
  have ej : l.getD j d = l[j] := by
    rw [List.getD_eq_getElem?_getD, List.getElem?_eq_getElem hj]; rfl
  rw [ei, ej]
  have hj2 : j < (l.set i l[j]).length := by simpa using hj
  rw [List.count_set _ _ _ _ hj2, List.count_set _ _ _ _ hi]
  have e2 : (l.set i l[j])[j] = l[j] := by
    rw [List.getElem_set]; split
    · rfl
    · rfl
  rw [e2]
  have hci : l[i] = b → 0 < l.count b := fun h =>
    List.count_pos_iff.mpr (h ▸ List.getElem_mem hi)
  by_cases h1 : l[i] = b <;> by_cases h2 : l[j] = b <;> simp [h1, h2] <;>
    (try have := hci h1) <;> omega



theorem pos_at_eq_getElem (t : List shape_pos) (k : Nat) (hk : k < t.length) :
    pos_at t k = t[k] := by
  unfold pos_at
  rw [List.getD_eq_getElem?_getD, List.getElem?_eq_getElem hk]; rfl

theorem pos_at_mem (t : List shape_pos) (k : Nat) (hk : k < t.length) : pos_at t k ∈ t := by
  rw [pos_at_eq_getElem t k hk]; exact List.getElem_mem hk

theorem slots_ok_of_ids_perm (variations : variation_array) (p q : List shape_pos)
    (hperm : (slot_ids q).Perm (slot_ids p)) (hp : slots_ok variations p) :
    slots_ok variations q := by
  obtain ⟨hlen, hsp, hvar⟩ := hp
  refine ⟨?_, ?_, ?_⟩
  · have := hperm.length_eq
    simp only [slot_ids, List.length_map] at this
    omega
  · have h1 := hperm.map Prod.fst
    simp only [slot_ids, List.map_map] at h1
    exact h1.trans hsp
  · intro pos hpos
    have hm : (pos.shape_idx, pos.var_idx) ∈ slot_ids q :=
      List.mem_map.mpr ⟨pos, hpos, rfl⟩
    have hm2 := hperm.mem_iff.mp hm
    obtain ⟨pos2, hpos2, e⟩ := List.mem_map.mp hm2
    simp only [Prod.mk.injEq] at e
    have := hvar pos2 hpos2
    rw [e.1, e.2] at this
    exact this

theorem slot_ids_set_same (t : List shape_pos) (k : Nat) (x : shape_pos)
    (hs : x.shape_idx = (pos_at t k).shape_idx) (hvr : x.var_idx = (pos_at t k).var_idx) :
    slot_ids (t.set k x) = slot_ids t := by
  unfold slot_ids
  rw [List.map_set]
  apply List.ext_getElem
  · simp
  · intro m h1 h2
    rw [List.getElem_set]
    split
    · rename_i hkm
      subst hkm
      simp only [List.length_map] at h2
      rw [hs, hvr, pos_at_eq_getElem t k h2]
      simp
    · rfl

theorem shift_slot_ids (offs : vec2i) (t : List shape_pos) (k : Nat) :
    slot_ids (shift_slot offs t k) = slot_ids t :=
  slot_ids_set_same t k _ rfl rfl

theorem shift_fold_ids (offs : vec2i) (ks : List Nat) (t : List shape_pos) :
    slot_ids (ks.foldl (shift_slot offs) t) = slot_ids t := by
  induction ks generalizing t with
  | nil => rfl
  | cons k ks ih =>
    simp only [List.foldl_cons]
    rw [ih, shift_slot_ids]

theorem swap_ids (t : List shape_pos) (i j : Nat) (hi : i < t.length) (hj : j < t.length) :
    slot_ids (swap_var_idx (swap_shape_idx t i j) i j) =
      ((slot_ids t).set i ((slot_ids t).getD j (0, 0))).set j ((slot_ids t).getD i (0, 0)) := by
  have hlen1 : (swap_shape_idx t i j).length = t.length := by simp [swap_shape_idx]
  have e1i : pos_at (swap_shape_idx t i j) i =
      { pos_at t i with shape_idx := (pos_at t j).shape_idx } := by
    rw [pos_at_eq_getElem _ _ (by omega)]
    simp only [swap_shape_idx, List.getElem_set]
    split
    · rename_i h; subst h; rfl
    · simp
  have e1j : pos_at (swap_shape_idx t i j) j =
      { pos_at t j with shape_idx := (pos_at t i).shape_idx } := by
    rw [pos_at_eq_getElem _ _ (by omega)]
    simp only [swap_shape_idx, List.getElem_set]
    simp
  have gi : (slot_ids t).getD i (0, 0) = ((pos_at t i).shape_idx, (pos_at t i).var_idx) := by
    rw [pos_at_eq_getElem t i hi, List.getD_eq_getElem?_getD,
      List.getElem?_eq_getElem (by simpa [slot_ids] using hi)]
    simp [slot_ids]
  have gj : (slot_ids t).getD j (0, 0) = ((pos_at t j).shape_idx, (pos_at t j).var_idx) := by
    rw [pos_at_eq_getElem t j hj, List.getD_eq_getElem?_getD,
      List.getElem?_eq_getElem (by simpa [slot_ids] using hj)]
    simp [slot_ids]
  rw [gi, gj]
  unfold swap_var_idx
  rw [e1i, e1j]
  unfold swap_shape_idx
  simp only [slot_ids, List.map_set]
  apply List.ext_getElem
  · simp
  · intro m h1 h2
    simp only [List.getElem_set]
    split
    · rfl
    · split
      · rfl
      · rfl



theorem set_var_ok (variations : variation_array) (t : List shape_pos) (k r : Nat)
    (hok : slots_ok variations t) : slots_ok variations (set_var variations t k r) := by
  by_cases hk : k < t.length
  · obtain ⟨hlen, hsp, hvar⟩ := hok
    have hsize := hvar _ (pos_at_mem t k hk)
    unfold set_var
    refine ⟨by simp [hlen], ?_, ?_⟩
    · have e : (t.set k { pos_at t k with
          var_idx := (r % (variations.getD (pos_at t k).shape_idx []).length) % 65536 }).map
          shape_pos.shape_idx = t.map shape_pos.shape_idx := by
        rw [List.map_set]
        apply List.ext_getElem
        · simp
        · intro m h1 h2
          rw [List.getElem_set]
          split
          · rename_i hkm
            subst hkm
            rw [pos_at_eq_getElem t k hk]
            simp
          · rfl
      rw [e]; exact hsp
    · intro pos hpos
      rcases List.mem_or_eq_of_mem_set hpos with h | h
      · exact hvar pos h
      · subst h
        simp only
        have h1 : r % (variations.getD (pos_at t k).shape_idx []).length <
            (variations.getD (pos_at t k).shape_idx []).length := Nat.mod_lt _ (by omega)
        have h2 := Nat.mod_le (r % (variations.getD (pos_at t k).shape_idx []).length) 65536
        omega
  · unfold set_var
    rw [List.set_eq_of_length_le (by omega)]
    exact hok

theorem apply_flip_ok (variations : variation_array) (t : List shape_pos) (d : flip_draws)
    (hok : slots_ok variations t) : slots_ok variations (apply_flip variations t d) := by
  unfold apply_flip
  simp only
  split
  · exact set_var_ok _ _ _ _ (set_var_ok _ _ _ _ hok)
  · split
    · exact slots_ok_of_ids_perm variations t _ (by rw [shift_fold_ids]) hok
    · by_cases hn : variations.length = 0
      · have ht : t = [] := List.length_eq_zero.mp (by rw [hok.1, hn])
        subst ht
        simpa [swap_var_idx, swap_shape_idx] using hok
      · have h1 : d.pidx1 % variations.length < t.length := by
          rw [hok.1]; exact Nat.mod_lt _ (by omega)
        have h2 : d.pidx2 % variations.length < t.length := by
          rw [hok.1]; exact Nat.mod_lt _ (by omega)
        apply slots_ok_of_ids_perm variations t _ _ hok
        rw [swap_ids t _ _ h1 h2]
        exact set_swap_perm (slot_ids t) _ _ (0, 0) (by simpa [slot_ids] using h1)
          (by simpa [slot_ids] using h2)

/-- C9: layout validity is an invariant of mutation: a layout of length `n` whose `shape_idx`
values are a permutation of `0..n-1` and whose `var_idx` values are in range keeps all three
properties under any sequence of re-variations, range shifts and identity swaps, whatever
the drawn values. -/
theorem mutate_preserves_slots (variations : variation_array) (target : List shape_pos)
    (hok : slots_ok variations target) (draws : List flip_draws) :
    (mutate variations target draws).length = variations.length ∧
    ((mutate variations target draws).map shape_pos.shape_idx).Perm
      (List.range variations.length) ∧
    (∀ pos ∈ mutate variations target draws,
      pos.var_idx < (variations.getD pos.shape_idx []).length) := by
  have key : slots_ok variations (mutate variations target draws) := by
    unfold mutate
    induction draws generalizing target with
    | nil => exact hok
    | cons d ds ih =>
      simp only [List.foldl_cons]
      exact ih _ (apply_flip_ok variations target d hok)
  exact key

set_option maxRecDepth 8000 in
theorem mutate_preserves_slots_witness :
    slots_ok ring_variations ring_positions ∧
    mutate ring_variations ring_positions
        [⟨0, 0, 1, 5, 7⟩, ⟨1, 0, 1, 6, 0⟩, ⟨2, 0, 1, 0, 0⟩, ⟨1, 1, 0, 3, 0⟩] =
      [⟨-1, 1, 1, 0⟩, ⟨0, 2, 0, 0⟩] ∧
    ((mutate ring_variations ring_positions
        [⟨0, 0, 1, 5, 7⟩, ⟨1, 0, 1, 6, 0⟩, ⟨2, 0, 1, 0, 0⟩, ⟨1, 1, 0, 3, 0⟩]).map
      shape_pos.shape_idx).Perm (List.range ring_variations.length) :=
  ⟨by decide, by decide,
    (mutate_preserves_slots ring_variations ring_positions (by decide)
      [⟨0, 0, 1, 5, 7⟩, ⟨1, 0, 1, 6, 0⟩, ⟨2, 0, 1, 0, 0⟩, ⟨1, 1, 0, 3, 0⟩]).2.1⟩


/-! ### Elite transfer -/

theorem take_succ_set {α : Type} (l : List α) (i : Nat) (a : α) (h : i < l.length) :
    (l.set i a).take (i + 1) = l.take i ++ [a] := by
  induction l generalizing i with
  | nil => simp at h
  | cons b l ih =>
    cases i with
    | zero => simp
    | succ i =>
      simp only [List.set_cons_succ, List.take_succ_cons, List.cons_append, List.cons.injEq,
        true_and]
      exact ih i (by simpa using h)

theorem dupe_scan_iff (buf : List (List shape_pos)) (ii : Nat) (pos : List shape_pos)
    (hii : ii ≤ buf.length) :
    (List.range ii).any (fun j => decide (buf.getD j [] = pos)) = true ↔ pos ∈ buf.take ii := by
  rw [List.any_eq_true, List.mem_take_iff_getElem]
  constructor
  · rintro ⟨j, hj, h⟩
    have hj2 : j < ii := List.mem_range.mp hj
    have hj3 : j < buf.length := by omega
    refine ⟨j, by simp; omega, ?_⟩
    rw [List.getD_eq_getElem?_getD, List.getElem?_eq_getElem hj3] at h
    simpa using h
  · rintro ⟨j, hj, h⟩
    have hj2 : j < ii ∧ j < buf.length := by simpa using hj
    refine ⟨j, List.mem_range.mpr hj2.1, ?_⟩
    rw [List.getD_eq_getElem?_getD, List.getElem?_eq_getElem hj2.2]
    simpa using h

/-- The elite loop from a state with `ii < NUM_ELITE` copies, with room left in the buffer:
the filled front of the buffer is the old front followed by the first not yet copied
distinct layouts, up to `NUM_ELITE` in all; the rest of the buffer is untouched. -/
theorem elite_loop_spec (E : Nat) (src buf : List (List shape_pos)) (ii : Nat)
    (hE : ii < E) (hroom : ii + src.length ≤ buf.length) :
    (elite_loop E src buf ii).1.take (elite_loop E src buf ii).2 =
      buf.take ii ++ ((first_distinct src).filter
        (fun y => decide (y ∉ buf.take ii))).take (E - ii) ∧
    (elite_loop E src buf ii).2 ≤ buf.length ∧
    (elite_loop E src buf ii).1.length = buf.length ∧
    (elite_loop E src buf ii).1.drop (elite_loop E src buf ii).2 =
      buf.drop (elite_loop E src buf ii).2 := by
  induction src generalizing buf ii with
  | nil =>
    simp only [List.length_nil, add_zero] at hroom
    have e : elite_loop E [] buf ii = (buf, ii) := rfl
    rw [e]
    refine ⟨by simp [first_distinct], hroom, rfl, rfl⟩
  | cons pos rest ih =>
    simp only [List.length_cons] at hroom
    have hd := dupe_scan_iff buf ii pos (by omega)
    by_cases hdupe : pos ∈ buf.take ii
    · have hd2 := hd.mpr hdupe
      have hne : ¬ ii = E := by omega
      have e : elite_loop E (pos :: rest) buf ii = elite_loop E rest buf ii := by
        simp only [elite_loop, hd2, if_true, if_neg hne]
      rw [e]
      obtain ⟨h1, h2, h3, h4⟩ := ih buf ii hE (by omega)
      refine ⟨?_, h2, h3, h4⟩
      rw [h1]
      congr 2
      simp only [first_distinct]
      rw [List.filter_cons]
      simp only [hdupe, not_true_eq_false, decide_False, Bool.false_eq_true, if_false]
      rw [List.filter_filter]
      apply List.filter_congr
      intro y _
      by_cases hy : y ∈ buf.take ii
      · simp [hy]
      · have : y ≠ pos := fun e => hy (e ▸ hdupe)
        simp [hy, this]
    · have hd2 : (List.range ii).any (fun j => decide (buf.getD j [] = pos)) = false := by
        cases hx : (List.range ii).any (fun j => decide (buf.getD j [] = pos)) with
        | false => rfl
        | true => exact absurd (hd.mp hx) hdupe
      have e : elite_loop E (pos :: rest) buf ii =
          if ii + 1 = E then (buf.set ii pos, ii + 1)
          else elite_loop E rest (buf.set ii pos) (ii + 1) := by
        simp only [elite_loop, hd2, Bool.false_eq_true, if_false]
      rw [e]
      have htake : (buf.set ii pos).take (ii + 1) = buf.take ii ++ [pos] :=
        take_succ_set buf ii pos (by omega)
      have hfd : (first_distinct (pos :: rest)).filter (fun y => decide (y ∉ buf.take ii)) =
          pos :: (first_distinct rest).filter
            (fun y => decide (y ∉ buf.take ii ++ [pos])) := by
        simp only [first_distinct]
        rw [List.filter_cons]
        simp only [hdupe, not_false_eq_true, decide_True, if_true, List.cons.injEq, true_and]
        rw [List.filter_filter]
        apply List.filter_congr
        intro y _
        by_cases hy : y ∈ buf.take ii <;> by_cases hy2 : y = pos <;> simp [hy, hy2]
      rw [hfd]
      have hE2 : E - ii = (E - (ii + 1)) + 1 := by omega
      rw [hE2, List.take_succ_cons]
      by_cases heq : ii + 1 = E
      · rw [if_pos heq]
        have h0 : E - (ii + 1) = 0 := by omega
        rw [h0, List.take_zero]
        refine ⟨htake, by simp only; omega, by simp, ?_⟩
        exact List.drop_set_of_lt pos buf (Nat.lt_succ_self ii)
      · rw [if_neg heq]
        obtain ⟨h1, h2, h3, h4⟩ := ih (buf.set ii pos) (ii + 1) (by omega)
          (by simp only [List.length_set]; omega)
        rw [htake] at h1
        simp only [List.length_set] at h2 h3
        refine ⟨?_, h2, h3, ?_⟩
        · rw [h1]; simp
        · rw [h4]
          have hlt : ii < (elite_loop E rest (buf.set ii pos) (ii + 1)).2 := by
            have hl := congrArg List.length h1
            simp only [List.length_take, List.length_append, List.length_singleton] at hl
            omega
          exact List.drop_set_of_lt pos buf hlt



theorem first_distinct_mem (l : List (List shape_pos)) (x : List shape_pos) :
    x ∈ first_distinct l ↔ x ∈ l := by
  induction l with
  | nil => simp [first_distinct]
  | cons a l ih =>
    simp only [first_distinct, List.mem_cons, List.mem_filter, ih, decide_eq_true_eq]
    by_cases h : x = a <;> simp [h]

theorem first_distinct_nodup (l : List (List shape_pos)) : (first_distinct l).Nodup := by
  induction l with
  | nil => simp [first_distinct]
  | cons a l ih =>
    simp only [first_distinct, List.nodup_cons]
    exact ⟨by simp [List.mem_filter], ih.filter _⟩

theorem first_distinct_sublist (l : List (List shape_pos)) : (first_distinct l).Sublist l := by
  induction l with
  | nil => simp [first_distinct]
  | cons a l ih =>
    simp only [first_distinct]
    exact List.Sublist.cons₂ a ((List.filter_sublist _).trans ih)

/-- C10: for every elite count `E >= 1` and every source list in sorted order (the buffer
having room for it), the elite-transfer loop fills the front of the next generation with
exactly the first `E` distinct layouts of the source in order of first occurrence (all
distinct layouts if there are fewer): at most `E` of them, pairwise distinct, the top-ranked
layout first; the rest of the buffer is untouched. -/
theorem elite_transfer_spec (E : Nat) (hE : 1 ≤ E) (sorted cur_gen : List (List shape_pos))
    (hroom : sorted.length ≤ cur_gen.length) :
    (elite_transfer E sorted cur_gen).1.take (elite_transfer E sorted cur_gen).2 =
      (first_distinct sorted).take E ∧
    (elite_transfer E sorted cur_gen).2 = ((first_distinct sorted).take E).length ∧
    (elite_transfer E sorted cur_gen).2 ≤ E ∧
    ((elite_transfer E sorted cur_gen).1.take (elite_transfer E sorted cur_gen).2).Nodup ∧
    (first_distinct sorted).Nodup ∧
    (∀ x, x ∈ first_distinct sorted ↔ x ∈ sorted) ∧
    (first_distinct sorted).Sublist sorted ∧
    ((elite_transfer E sorted cur_gen).1.take (elite_transfer E sorted cur_gen).2).head? =
      sorted.head? ∧
    (elite_transfer E sorted cur_gen).1.drop (elite_transfer E sorted cur_gen).2 =
      cur_gen.drop (elite_transfer E sorted cur_gen).2 := by
  obtain ⟨h1, h2, h3, h4⟩ := elite_loop_spec E sorted cur_gen 0 (by omega) (by omega)
  have h1b : (elite_transfer E sorted cur_gen).1.take (elite_transfer E sorted cur_gen).2 =
      (first_distinct sorted).take E := by
    unfold elite_transfer
    rw [h1]
    simp
  have hlen : (elite_transfer E sorted cur_gen).2 = ((first_distinct sorted).take E).length := by
    have hl := congrArg List.length h1b
    rw [List.length_take] at hl
    unfold elite_transfer at hl ⊢
    rw [← hl]
    omega
  refine ⟨h1b, hlen, ?_, ?_, first_distinct_nodup sorted, first_distinct_mem sorted,
    first_distinct_sublist sorted, ?_, h4⟩
  · rw [hlen, List.length_take]; omega
  · rw [h1b]
    exact (first_distinct_nodup sorted).sublist (List.take_sublist _ _)
  · rw [h1b]
    cases sorted with
    | nil => simp [first_distinct]
    | cons a l =>
      obtain ⟨k, rfl⟩ : ∃ k, E = k + 1 := ⟨E - 1, by omega⟩
      simp [first_distinct]

theorem elite_transfer_spec_witness :
    (elite_transfer 2 [[⟨0, 0, 0, 0⟩], [⟨0, 0, 0, 0⟩], [⟨1, 0, 0, 0⟩], [⟨2, 0, 0, 0⟩]]
        [[], [], [], []]).1.take
      (elite_transfer 2 [[⟨0, 0, 0, 0⟩], [⟨0, 0, 0, 0⟩], [⟨1, 0, 0, 0⟩], [⟨2, 0, 0, 0⟩]]
        [[], [], [], []]).2 =
      (first_distinct [[⟨0, 0, 0, 0⟩], [⟨0, 0, 0, 0⟩], [⟨1, 0, 0, 0⟩], [⟨2, 0, 0, 0⟩]]).take 2 ∧
    (first_distinct [[⟨0, 0, 0, 0⟩], [⟨0, 0, 0, 0⟩], [⟨1, 0, 0, 0⟩], [⟨2, 0, 0, 0⟩]]).take 2 =
      [[⟨0, 0, 0, 0⟩], [⟨1, 0, 0, 0⟩]] :=
  ⟨(elite_transfer_spec 2 (by decide)
      [[⟨0, 0, 0, 0⟩], [⟨0, 0, 0, 0⟩], [⟨1, 0, 0, 0⟩], [⟨2, 0, 0, 0⟩]] [[], [], [], []]
      (by decide)).1, by decide⟩


/-! ### Variations -/

theorem shape_eq_symm (a b : shape) : shape_eq a b = shape_eq b a := by
  unfold shape_eq
  by_cases h1 : a.width = b.width <;> by_cases h2 : a.mask = b.mask <;>
    simp [h1, h2, eq_comm]

theorem add_shape_inv (sh : shape) (res : List shape) (s : shape) (n : Nat)
    (h : res.head? = some sh ∧ res.length ≤ n ∧
      res.Pairwise (fun a b => shape_eq a b = false)) :
    (add_shape res s).head? = some sh ∧ (add_shape res s).length ≤ n + 1 ∧
      (add_shape res s).Pairwise (fun a b => shape_eq a b = false) := by
  obtain ⟨h1, h2, h3⟩ := h
  unfold add_shape
  split
  · exact ⟨h1, by omega, h3⟩
  · rename_i hany
    refine ⟨?_, by simp; omega, ?_⟩
    · cases res with
      | nil => simp at h1
      | cons a l => simpa using h1
    · rw [List.pairwise_append]
      refine ⟨h3, List.pairwise_singleton _ _, ?_⟩
      intro a ha b hb
      rw [List.mem_singleton] at hb
      subst hb
      cases hab : shape_eq a b with
      | false => rfl
      | true => exact absurd (List.any_eq_true.mpr ⟨a, ha, hab⟩) hany

/-- C11: for every shape, `get_variations` returns between 1 and 8 entries, the entry at
index 0 is the shape itself, and no two entries at different indices are equal under
`shape::operator==` (same width and same mask). -/
theorem get_variations_spec (sh : shape) :
    1 ≤ (get_variations sh).length ∧ (get_variations sh).length ≤ 8 ∧
    (get_variations sh)[0]? = some sh ∧
    ∀ i j : Nat, i < (get_variations sh).length → j < (get_variations sh).length → i ≠ j →
      shape_eq ((get_variations sh).getD i shape_default)
        ((get_variations sh).getD j shape_default) = false := by
  have h0 : (add_shape [] sh).head? = some sh ∧ (add_shape [] sh).length ≤ 1 ∧
      (add_shape [] sh).Pairwise (fun a b => shape_eq a b = false) := by
    simp [add_shape]
  have h8 : (get_variations sh).head? = some sh ∧ (get_variations sh).length ≤ 8 ∧
      (get_variations sh).Pairwise (fun a b => shape_eq a b = false) := by
    unfold get_variations
    exact add_shape_inv sh _ _ 7 (add_shape_inv sh _ _ 6 (add_shape_inv sh _ _ 5
      (add_shape_inv sh _ _ 4 (add_shape_inv sh _ _ 3 (add_shape_inv sh _ _ 2
        (add_shape_inv sh _ _ 1 h0))))))
  obtain ⟨hh, hl, hp⟩ := h8
  have hne : get_variations sh ≠ [] := by
    intro e; rw [e] at hh; simp at hh
  refine ⟨?_, hl, ?_, ?_⟩
  · cases hg : get_variations sh with
    | nil => exact absurd hg hne
    | cons a l => simp
  · rw [← List.head?_eq_getElem?]; exact hh
  · intro i j hi hj hij
    have gi : (get_variations sh).getD i shape_default = (get_variations sh)[i] := by
      rw [List.getD_eq_getElem?_getD, List.getElem?_eq_getElem hi]; rfl
    have gj : (get_variations sh).getD j shape_default = (get_variations sh)[j] := by
      rw [List.getD_eq_getElem?_getD, List.getElem?_eq_getElem hj]; rfl
    rw [gi, gj]
    rcases Nat.lt_or_gt_of_ne hij with h | h
    · exact List.pairwise_iff_getElem.mp hp i j hi hj h
    · rw [shape_eq_symm]
      exact List.pairwise_iff_getElem.mp hp j i hj hi h


/-! ### Parsing one block -/

theorem parse_line_spec (row : Int) (k : Nat) (line : List Char) (acc : List vec2i × Int) :
    parse_line row (k : Int) line acc =
      (acc.1 ++ ((line.enumFrom k).filter (fun ic => decide (ic.2 ≠ SPACE))).map
          (fun ic => (⟨(ic.1 : Int), row⟩ : vec2i)),
        acc.2 + (((line.enumFrom k).filter (fun ic => decide (ic.2 ≠ SPACE))).map
          (fun ic => (⟨(ic.1 : Int), row⟩ : vec2i))).length) := by
  induction line generalizing k acc with
  | nil => simp [parse_line]
  | cons ch rest ih =>
    simp only [parse_line, List.enumFrom_cons]
    have e : ((k : Int) + 1) = ((k + 1 : Nat) : Int) := by push_cast; rfl
    rw [e, ih]
    by_cases hch : ch = SPACE
    · simp [hch, List.filter_cons]
    · simp [hch, List.filter_cons]
      omega

theorem parse_rows_spec (r : Nat) (is : List (List Char)) (acc : List vec2i × Int) :
    parse_rows (r : Int) is acc =
      ((acc.1 ++ ((first_block is).enumFrom r).flatMap (fun rl =>
          (rl.2.enum.filter (fun ic => decide (ic.2 ≠ SPACE))).map
            (fun ic => (⟨(ic.1 : Int), (rl.1 : Int)⟩ : vec2i))),
        acc.2 + (((first_block is).enumFrom r).flatMap (fun rl =>
          (rl.2.enum.filter (fun ic => decide (ic.2 ≠ SPACE))).map
            (fun ic => (⟨(ic.1 : Int), (rl.1 : Int)⟩ : vec2i)))).length),
       after_block is) := by
  induction is generalizing r acc with
  | nil => simp [parse_rows, first_block, after_block]
  | cons line rest ih =>
    by_cases hl : line = []
    · subst hl
      simp [parse_rows, first_block, after_block]
    · have e : ((r : Int) + 1) = ((r + 1 : Nat) : Int) := by push_cast; rfl
      have h0 := parse_line_spec (r : Int) 0 line acc
      simp only [Nat.cast_zero] at h0
      simp only [parse_rows, if_neg hl]
      rw [e, ih, h0]
      have hf : first_block (line :: rest) = line :: first_block rest := by
        simp [first_block, List.takeWhile_cons, hl]
      have ha : after_block (line :: rest) = after_block rest := by
        simp [after_block, List.dropWhile_cons, hl]
      rw [hf, ha, List.enumFrom_cons, List.flatMap_cons]
      simp only [List.enum, List.append_assoc, List.length_append, Prod.mk.injEq, and_true,
        true_and]
      omega


theorem enumFrom_pairwise_lt {α : Type} (l : List α) (n : Nat) :
    (l.enumFrom n).Pairwise (fun a b => a.1 < b.1) := by
  induction l generalizing n with
  | nil => simp
  | cons a l ih =>
    rw [List.enumFrom_cons, List.pairwise_cons]
    refine ⟨?_, ih (n + 1)⟩
    intro b hb
    have := List.le_fst_of_mem_enumFrom hb
    simp only
    omega

/-- Membership in `block_cells`: the cell `(i, r)` is there exactly when character `i` of
line `r` of the block exists and is not a space. -/
theorem mem_block_cells (block : List (List Char)) (c : vec2i) :
    c ∈ block_cells block ↔
      ∃ (r i : Nat) (ln : List Char) (ch : Char), block[r]? = some ln ∧
        ln[i]? = some ch ∧ ch ≠ SPACE ∧ c = ⟨(i : Int), (r : Int)⟩ := by
  unfold block_cells
  simp only [List.mem_flatMap, List.mem_map, List.mem_filter, decide_eq_true_eq]
  constructor
  · rintro ⟨⟨r, line⟩, hrl, ⟨i, ch⟩, ⟨hic, hch⟩, rfl⟩
    exact ⟨r, i, line, ch, List.mk_mem_enum_iff_getElem?.mp hrl,
      List.mk_mem_enum_iff_getElem?.mp hic, hch, rfl⟩
  · rintro ⟨r, i, line, ch, hrl, hic, hch, rfl⟩
    exact ⟨(r, line), List.mk_mem_enum_iff_getElem?.mpr hrl, (i, ch),
      ⟨List.mk_mem_enum_iff_getElem?.mpr hic, hch⟩, rfl⟩

/-- The cells of `block_cells` come in row-major order, each once. -/
theorem block_cells_row_major (block : List (List Char)) :
    (block_cells block).Pairwise (fun c d => c.y < d.y ∨ (c.y = d.y ∧ c.x < d.x)) := by
  unfold block_cells
  rw [List.pairwise_flatMap]
  constructor
  · rintro ⟨r, line⟩ _
    rw [List.pairwise_map]
    apply List.Pairwise.filter
    apply (enumFrom_pairwise_lt line 0).imp
    intro a b hab
    right
    exact ⟨rfl, by simp only; omega⟩
  · apply (enumFrom_pairwise_lt block 0).imp
    intro a b hab x hx y hy
    simp only [List.mem_map] at hx hy
    obtain ⟨_, _, rfl⟩ := hx
    obtain ⟨_, _, rfl⟩ := hy
    left
    simp only
    omega

theorem block_cells_nonneg (block : List (List Char)) : nonneg_cells (block_cells block) := by
  intro c hc
  obtain ⟨r, i, _, _, _, _, _, rfl⟩ := (mem_block_cells block c).mp hc
  simp only
  omega

theorem parse_squares (is : List (List Char)) :
    (parse_rows 0 is ([], 0)).1.1 = block_cells (first_block is) ∧
    (parse_rows 0 is ([], 0)).1.2 = (block_cells (first_block is)).length ∧
    (parse_rows 0 is ([], 0)).2 = after_block is := by
  have h := parse_rows_spec 0 is ([], 0)
  simp only [Nat.cast_zero] at h
  rw [h]
  simp [block_cells, List.enum]

/-- C17: on a fresh shape, `parse` records for the first text block of the stream (its
lines up to the first empty line or the end of input) exactly one cell (column index, row
index) for each non-space character, in row-major order, rows counted from the first line
of the block (lines of spaces count as rows); it returns true if and only if at least one
cell was recorded; the stream is left after the empty line that ends the block. -/
theorem parse_spec (is : List (List Char)) :
    (parse is).2.1.squares = block_cells (first_block is) ∧
    (parse is).2.1 = setup (block_cells (first_block is)) ∧
    ((parse is).1 = true ↔ block_cells (first_block is) ≠ []) ∧
    (parse is).2.2 = after_block is ∧
    (∀ c : vec2i, c ∈ (parse is).2.1.squares ↔
      ∃ (r i : Nat) (ln : List Char) (ch : Char), (first_block is)[r]? = some ln ∧
        ln[i]? = some ch ∧ ch ≠ SPACE ∧ c = ⟨(i : Int), (r : Int)⟩) ∧
    (parse is).2.1.squares.Pairwise (fun c d => c.y < d.y ∨ (c.y = d.y ∧ c.x < d.x)) := by
  obtain ⟨h1, h2, h3⟩ := parse_squares is
  have hsq : (parse is).2.1.squares = block_cells (first_block is) := by
    unfold parse
    simp only [setup_squares]
    exact h1
  refine ⟨hsq, ?_, ?_, ?_, ?_, ?_⟩
  · unfold parse
    simp only
    rw [h1]
  · unfold parse
    simp only [decide_eq_true_eq]
    rw [h2]
    constructor
    · intro h e
      rw [e] at h
      simp at h
    · intro h e
      apply h
      exact List.length_eq_zero.mp (by exact_mod_cast e)
  · unfold parse
    exact h3
  · intro c
    rw [hsq]
    exact mem_block_cells _ c
  · rw [hsq]
    exact block_cells_row_major _


/-! ### Built shapes -/

theorem setup_width_eq (cells : List vec2i) (W : Int) (h0 : 0 ≤ W)
    (hle : ∀ c ∈ cells, c.x + 1 ≤ W) (hat : ∃ c ∈ cells, c.x + 1 = W) :
    (setup cells).width = W := by
  obtain ⟨c, hc, hcw⟩ := hat
  have h1 := setup_width_ge cells c hc
  have h2 : (setup cells).width = 0 ∨ ∃ d ∈ cells, (setup cells).width = d.x + 1 :=
    foldl_max_attained (fun c => c.x + 1) cells 0
  rcases h2 with h2 | ⟨d, hd, h2⟩
  · omega
  · have := hle d hd
    omega

theorem setup_height_eq (cells : List vec2i) (H : Int) (h0 : 0 ≤ H)
    (hle : ∀ c ∈ cells, c.y + 1 ≤ H) (hat : ∃ c ∈ cells, c.y + 1 = H) :
    (setup cells).height = H := by
  obtain ⟨c, hc, hcw⟩ := hat
  have h1 := setup_height_ge cells c hc
  have h2 : (setup cells).height = 0 ∨ ∃ d ∈ cells, (setup cells).height = d.y + 1 :=
    foldl_max_attained (fun c => c.y + 1) cells 0
  rcases h2 with h2 | ⟨d, hd, h2⟩
  · omega
  · have := hle d hd
    omega

/-- A shape that `setup` builds from non-negative cells is a `built_shape`. -/
theorem built_setup (cells : List vec2i) (hc : nonneg_cells cells) :
    built_shape (setup cells) := by
  refine ⟨rfl, hc, ?_, ?_⟩
  · intro c hcm
    exact ⟨setup_width_ge cells c hcm, setup_height_ge cells c hcm⟩
  · intro hne
    obtain ⟨c, hcm⟩ := List.exists_mem_of_ne_nil cells hne
    have hx := setup_width_ge cells c hcm
    have hy := setup_height_ge cells c hcm
    have h0 := hc c hcm
    have h2 : (setup cells).width = 0 ∨ ∃ d ∈ cells, (setup cells).width = d.x + 1 :=
      foldl_max_attained (fun c => c.x + 1) cells 0
    have h3 : (setup cells).height = 0 ∨ ∃ d ∈ cells, (setup cells).height = d.y + 1 :=
      foldl_max_attained (fun c => c.y + 1) cells 0
    constructor
    · rcases h2 with h2 | ⟨d, hd, h2⟩
      · omega
      · exact ⟨d, hd, h2.symm⟩
    · rcases h3 with h3 | ⟨d, hd, h3⟩
      · omega
      · exact ⟨d, hd, h3.symm⟩

theorem rotate_cell_nonneg (sh : shape) (hb : built_shape sh) (rot : rotation) :
    nonneg_cells (sh.squares.map (rotate_cell sh.width sh.height rot)) := by
  intro c hc
  obtain ⟨sq, hsq, rfl⟩ := List.mem_map.mp hc
  have h0 := hb.2.1 sq hsq
  have h1 := hb.2.2.1 sq hsq
  cases rot <;> simp only [rotate_cell] <;> omega

theorem built_rotated (sh : shape) (hb : built_shape sh) (rot : rotation) :
    built_shape (rotated sh rot) :=
  built_setup _ (rotate_cell_nonneg sh hb rot)

theorem built_mirrored (sh : shape) (hb : built_shape sh) : built_shape (mirrored sh) := by
  apply built_setup
  intro c hc
  obtain ⟨sq, hsq, rfl⟩ := List.mem_map.mp hc
  have h0 := hb.2.1 sq hsq
  have h1 := hb.2.2.1 sq hsq
  simp only
  omega

theorem built_parse (is : List (List Char)) : built_shape (parse is).2.1 := by
  have h : (parse is).2.1 = setup (block_cells (first_block is)) := by
    unfold parse
    simp only
    rw [(parse_squares is).1]
  rw [h]
  exact built_setup _ (block_cells_nonneg _)

theorem mem_add_shape (res : List shape) (s v : shape) (hv : v ∈ add_shape res s) :
    v ∈ res ∨ v = s := by
  unfold add_shape at hv
  split at hv
  · exact Or.inl hv
  · simpa using hv

/-- Every entry of `get_variations` is one of the eight candidates. -/
theorem mem_get_variations (sh v : shape) (hv : v ∈ get_variations sh) :
    v = sh ∨ v = rotated sh rotation.CW_90 ∨ v = rotated sh rotation.CW_180 ∨
    v = rotated sh rotation.CW_270 ∨ v = mirrored sh ∨
    v = rotated (mirrored sh) rotation.CW_90 ∨ v = rotated (mirrored sh) rotation.CW_180 ∨
    v = rotated (mirrored sh) rotation.CW_270 := by
  unfold get_variations at hv
  simp only at hv
  rcases mem_add_shape _ _ _ hv with hv | hv
  · rcases mem_add_shape _ _ _ hv with hv | hv
    · rcases mem_add_shape _ _ _ hv with hv | hv
      · rcases mem_add_shape _ _ _ hv with hv | hv
        · rcases mem_add_shape _ _ _ hv with hv | hv
          · rcases mem_add_shape _ _ _ hv with hv | hv
            · rcases mem_add_shape _ _ _ hv with hv | hv
              · rcases mem_add_shape _ _ _ hv with hv | hv
                · exact absurd hv (List.not_mem_nil v)
                · exact Or.inl hv
              · exact Or.inr (Or.inl hv)
            · exact Or.inr (Or.inr (Or.inl hv))
          · exact Or.inr (Or.inr (Or.inr (Or.inl hv)))
        · exact Or.inr (Or.inr (Or.inr (Or.inr (Or.inl hv))))
      · exact Or.inr (Or.inr (Or.inr (Or.inr (Or.inr (Or.inl hv)))))
    · exact Or.inr (Or.inr (Or.inr (Or.inr (Or.inr (Or.inr (Or.inl hv))))))
  · exact Or.inr (Or.inr (Or.inr (Or.inr (Or.inr (Or.inr (Or.inr hv))))))

/-- C12 (amended): every shape the code constructs, by `parse`, by `rotated`, by `mirrored`,
hence every entry of `get_variations` of a parsed shape, has non-negative cells and width
and height equal to the largest x and y coordinate plus 1; nothing makes the bounding box
tight at the origin. -/
theorem built_shapes :
    (∀ is : List (List Char), built_shape (parse is).2.1) ∧
    (∀ (sh : shape) (rot : rotation), built_shape sh → built_shape (rotated sh rot)) ∧
    (∀ sh : shape, built_shape sh → built_shape (mirrored sh)) ∧
    (∀ is : List (List Char), ∀ v ∈ get_variations (parse is).2.1, built_shape v) := by
  refine ⟨built_parse, fun sh rot hb => built_rotated sh hb rot, built_mirrored, ?_⟩
  intro is v hv
  have hp := built_parse is
  have hm := built_mirrored _ hp
  rcases mem_get_variations _ v hv with h | h | h | h | h | h | h | h <;> rw [h]
  · exact hp
  · exact built_rotated _ hp _
  · exact built_rotated _ hp _
  · exact built_rotated _ hp _
  · exact hm
  · exact built_rotated _ hm _
  · exact built_rotated _ hm _
  · exact built_rotated _ hm _

set_option maxRecDepth 8000 in
/-- C12 (counterexample): the block `SHAPE1` of the unit tests parses to the cells
(1,1), (1,2), (2,2), (3,2), (1,3), as the test asserts: no cell has x = 0, none has y = 0,
so the parsed shape is not normalized; neither is its quarter turn. -/
theorem parse_not_normalized :
    (parse SHAPE1).1 = true ∧
    (parse SHAPE1).2.1.squares = [⟨1, 1⟩, ⟨1, 2⟩, ⟨2, 2⟩, ⟨3, 2⟩, ⟨1, 3⟩] ∧
    ¬ (∃ c ∈ (parse SHAPE1).2.1.squares, c.x = 0) ∧
    ¬ (∃ c ∈ (parse SHAPE1).2.1.squares, c.y = 0) ∧
    ¬ normalized (parse SHAPE1).2.1 ∧
    ¬ normalized (rotated (parse SHAPE1).2.1 rotation.CW_90) := by
  have h1 : ¬ (∃ c ∈ (parse SHAPE1).2.1.squares, c.x = 0) := by decide
  have h2 : ¬ (∃ c ∈ (rotated (parse SHAPE1).2.1 rotation.CW_90).squares, c.y = 0) := by
    decide
  exact ⟨by decide, by decide, h1, by decide, fun h => h1 h.2.1, fun h => h2 h.2.2⟩


/-! ### Rotation -/

theorem rotated_squares (sh : shape) (rot : rotation) :
    (rotated sh rot).squares = sh.squares.map (rotate_cell sh.width sh.height rot) := rfl

/-- The extents of a rotated normalized shape: kept by no turn and the half turn, swapped by
the quarter turns. -/
theorem rotated_extents (sh : shape) (hn : normalized sh) (hne : sh.squares ≠ []) :
    ((rotated sh rotation.None).width = sh.width ∧
      (rotated sh rotation.None).height = sh.height) ∧
    ((rotated sh rotation.CW_180).width = sh.width ∧
      (rotated sh rotation.CW_180).height = sh.height) ∧
    ((rotated sh rotation.CW_90).width = sh.height ∧
      (rotated sh rotation.CW_90).height = sh.width) ∧
    ((rotated sh rotation.CW_270).width = sh.height ∧
      (rotated sh rotation.CW_270).height = sh.width) := by
  obtain ⟨⟨-, hnn, hle, hat⟩, ⟨cx0, hcx0, hx0⟩, ⟨cy0, hcy0, hy0⟩⟩ := hn
  obtain ⟨⟨cxm, hcxm, hxm⟩, ⟨cym, hcym, hym⟩⟩ := hat hne
  have hw0 : 0 ≤ sh.width := by have := hnn cxm hcxm; omega
  have hh0 : 0 ≤ sh.height := by have := hnn cym hcym; omega
  have key : ∀ (rot : rotation) (W H : Int), 0 ≤ W → 0 ≤ H →
      (∀ c ∈ sh.squares, (rotate_cell sh.width sh.height rot c).x + 1 ≤ W ∧
        (rotate_cell sh.width sh.height rot c).y + 1 ≤ H) →
      (∃ c ∈ sh.squares, (rotate_cell sh.width sh.height rot c).x + 1 = W) →
      (∃ c ∈ sh.squares, (rotate_cell sh.width sh.height rot c).y + 1 = H) →
      (rotated sh rot).width = W ∧ (rotated sh rot).height = H := by
    intro rot W H hW hH hall hex hey
    constructor
    · apply setup_width_eq _ W hW
      · intro c hc
        obtain ⟨sq, hsq, rfl⟩ := List.mem_map.mp hc
        exact (hall sq hsq).1
      · obtain ⟨sq, hsq, e⟩ := hex
        exact ⟨_, List.mem_map_of_mem _ hsq, e⟩
    · apply setup_height_eq _ H hH
      · intro c hc
        obtain ⟨sq, hsq, rfl⟩ := List.mem_map.mp hc
        exact (hall sq hsq).2
      · obtain ⟨sq, hsq, e⟩ := hey
        exact ⟨_, List.mem_map_of_mem _ hsq, e⟩
  refine ⟨key _ _ _ hw0 hh0 ?_ ?_ ?_, key _ _ _ hw0 hh0 ?_ ?_ ?_,
    key _ _ _ hh0 hw0 ?_ ?_ ?_, key _ _ _ hh0 hw0 ?_ ?_ ?_⟩
  · intro c hc
    have := hle c hc
    simp only [rotate_cell]; omega
  · exact ⟨cxm, hcxm, by simp only [rotate_cell]; omega⟩
  · exact ⟨cym, hcym, by simp only [rotate_cell]; omega⟩
  · intro c hc
    have := hnn c hc
    simp only [rotate_cell]; omega
  · exact ⟨cx0, hcx0, by simp only [rotate_cell]; omega⟩
  · exact ⟨cy0, hcy0, by simp only [rotate_cell]; omega⟩
  · intro c hc
    have := hnn c hc
    have := hle c hc
    simp only [rotate_cell]; omega
  · exact ⟨cy0, hcy0, by simp only [rotate_cell]; omega⟩
  · exact ⟨cxm, hcxm, by simp only [rotate_cell]; omega⟩
  · intro c hc
    have := hnn c hc
    have := hle c hc
    simp only [rotate_cell]; omega
  · exact ⟨cym, hcym, by simp only [rotate_cell]; omega⟩
  · exact ⟨cx0, hcx0, by simp only [rotate_cell]; omega⟩

/-- C16: for every normalized non-empty shape of width `w` and height `h`, `rotated` maps
the i-th cell (x, y) to the i-th cell of the result: None gives (x, y), CW_90 gives
(h-1-y, x), CW_180 gives (w-1-x, h-1-y), CW_270 gives (y, w-1-x); None and CW_180 keep width
and height, CW_90 and CW_270 swap them. -/
theorem rotated_spec (sh : shape) (hn : normalized sh) (hne : sh.squares ≠ []) :
    (rotated sh rotation.None).squares = sh.squares.map (fun c => ⟨c.x, c.y⟩) ∧
    (rotated sh rotation.CW_90).squares =
      sh.squares.map (fun c => ⟨sh.height - 1 - c.y, c.x⟩) ∧
    (rotated sh rotation.CW_180).squares =
      sh.squares.map (fun c => ⟨sh.width - 1 - c.x, sh.height - 1 - c.y⟩) ∧
    (rotated sh rotation.CW_270).squares =
      sh.squares.map (fun c => ⟨c.y, sh.width - 1 - c.x⟩) ∧
    ((rotated sh rotation.None).width = sh.width ∧
      (rotated sh rotation.None).height = sh.height) ∧
    ((rotated sh rotation.CW_180).width = sh.width ∧
      (rotated sh rotation.CW_180).height = sh.height) ∧
    ((rotated sh rotation.CW_90).width = sh.height ∧
      (rotated sh rotation.CW_90).height = sh.width) ∧
    ((rotated sh rotation.CW_270).width = sh.height ∧
      (rotated sh rotation.CW_270).height = sh.width) := by
  refine ⟨rfl, ?_, ?_, ?_, rotated_extents sh hn hne⟩
  · rw [rotated_squares]
    apply List.map_congr_left
    intro c _
    simp only [rotate_cell, vec2i.mk.injEq, and_true]
    ring
  · rw [rotated_squares]
    apply List.map_congr_left
    intro c _
    simp only [rotate_cell, vec2i.mk.injEq]
    constructor <;> ring
  · rw [rotated_squares]
    apply List.map_congr_left
    intro c _
    simp only [rotate_cell, vec2i.mk.injEq, true_and]
    ring

set_option maxRecDepth 8000 in
theorem rotated_spec_witness :
    normalized (parse SHAPE3).2.1 ∧
    (rotated (parse SHAPE3).2.1 rotation.CW_90).squares =
      [⟨1, 0⟩, ⟨1, 1⟩, ⟨1, 2⟩, ⟨1, 3⟩, ⟨0, 3⟩] ∧
    (rotated (parse SHAPE3).2.1 rotation.CW_90).width = (parse SHAPE3).2.1.height ∧
    (rotated (parse SHAPE3).2.1 rotation.CW_90).height = (parse SHAPE3).2.1.width :=
  have hn : normalized (parse SHAPE3).2.1 :=
    ⟨built_parse SHAPE3, by decide, by decide⟩
  ⟨hn, by decide, (rotated_spec (parse SHAPE3).2.1 hn (by decide)).2.2.2.2.2.2.1⟩


/-! ### Parsing a file -/

theorem first_block_cons (l : List Char) (rest : List (List Char)) (hl : l ≠ []) :
    first_block (l :: rest) = l :: first_block rest := by
  simp [first_block, List.takeWhile_cons, hl]

theorem after_block_cons (l : List Char) (rest : List (List Char)) (hl : l ≠ []) :
    after_block (l :: rest) = after_block rest := by
  simp [after_block, List.dropWhile_cons, hl]

theorem after_block_blank (rest : List (List Char)) : after_block ([] :: rest) = rest := by
  simp [after_block, List.dropWhile_cons]

theorem first_block_blank (rest : List (List Char)) : first_block ([] :: rest) = [] := by
  simp [first_block, List.takeWhile_cons]

theorem after_block_length_le (is : List (List Char)) :
    (after_block is).length ≤ is.length := by
  induction is with
  | nil => simp [after_block]
  | cons l rest ih =>
    by_cases hl : l = []
    · subst hl; rw [after_block_blank]; simp
    · rw [after_block_cons l rest hl]; simp only [List.length_cons]; omega

theorem after_block_length_lt (is : List (List Char)) (hne : is ≠ []) :
    (after_block is).length < is.length := by
  cases is with
  | nil => exact absurd rfl hne
  | cons l rest =>
    by_cases hl : l = []
    · subst hl; rw [after_block_blank]; simp
    · rw [after_block_cons l rest hl]
      have := after_block_length_le rest
      simp only [List.length_cons]; omega

theorem after_block_no_blank (is : List (List Char)) (h : [] ∉ is) : after_block is = [] := by
  induction is with
  | nil => simp [after_block]
  | cons l rest ih =>
    have hl : l ≠ [] := fun e => h (by rw [e]; exact List.mem_cons_self _ _)
    rw [after_block_cons l rest hl]
    exact ih (fun hm => h (List.mem_cons_of_mem _ hm))

theorem text_blocks_from_eq (is acc : List (List Char)) :
    text_blocks_from is acc =
      (acc ++ first_block is) ::
        (if [] ∈ is then text_blocks (after_block is) else []) := by
  induction is generalizing acc with
  | nil => simp [text_blocks_from, first_block]
  | cons l rest ih =>
    by_cases hl : l = []
    · subst hl
      simp [text_blocks_from, first_block_blank, after_block_blank, text_blocks]
    · simp only [text_blocks_from, if_neg hl]
      rw [ih, first_block_cons l rest hl, after_block_cons l rest hl]
      have hm : ([] ∈ l :: rest) ↔ ([] ∈ rest) := by
        simp only [List.mem_cons]
        constructor
        · rintro (h | h)
          · exact absurd h.symm hl
          · exact h
        · exact Or.inr
      simp only [hm, List.append_assoc, List.singleton_append]

theorem block_cells_nil : block_cells [] = [] := rfl

theorem parsed_shapes_nil : parsed_shapes [] = [] := by
  simp [parsed_shapes, text_blocks, text_blocks_from, block_cells_nil]

/-- The list `parsed_shapes` unfolds one block at a time. -/
theorem parsed_shapes_unfold (is : List (List Char)) :
    parsed_shapes is =
      if block_cells (first_block is) ≠ [] then
        setup (block_cells (first_block is)) :: parsed_shapes (after_block is)
      else [] := by
  have h := text_blocks_from_eq is []
  simp only [List.nil_append] at h
  unfold parsed_shapes
  rw [show text_blocks is = text_blocks_from is [] from rfl, h, List.takeWhile_cons]
  by_cases hz : block_cells (first_block is) = []
  · simp [hz]
  · simp only [hz, not_false_eq_true, decide_True, if_true, ne_eq, List.map_cons,
      List.cons.injEq, true_and]
    by_cases hb : [] ∈ is
    · simp [hb]
    · simp only [hb, if_false, List.takeWhile_nil, List.map_nil]
      rw [after_block_no_blank is hb]
      simp [text_blocks, text_blocks_from, block_cells_nil]

theorem parse_result (is : List (List Char)) :
    ((parse is).1 = false ↔ block_cells (first_block is) = []) ∧
    (parse is).2.1 = setup (block_cells (first_block is)) ∧
    (parse is).2.2 = after_block is := by
  obtain ⟨h1, h2, h3⟩ := parse_squares is
  unfold parse
  simp only
  rw [h1, h2, h3]
  refine ⟨?_, rfl, rfl⟩
  simp

theorem parse_all_loop_eq (fuel : Nat) (is : List (List Char)) (res : List shape)
    (hf : is.length < fuel) :
    parse_all_loop fuel is res = some (res ++ parsed_shapes is) := by
  induction fuel generalizing is res with
  | zero => omega
  | succ fuel ih =>
    obtain ⟨h1, h2, h3⟩ := parse_result is
    rw [parsed_shapes_unfold]
    simp only [parse_all_loop]
    by_cases hz : block_cells (first_block is) = []
    · rw [if_pos (h1.mpr hz)]
      simp [hz]
    · have hp : ¬ (parse is).1 = false := fun h => hz (h1.mp h)
      rw [if_neg hp, h2, h3]
      have hne : is ≠ [] := by
        intro e
        apply hz
        rw [e]
        rfl
      have hlt := after_block_length_lt is hne
      rw [ih _ _ (by omega)]
      simp [hz]

/-- C13 (amended): `shape::parse(std::istream&)` always returns, without any report, the
shapes of the blocks that come before the first block without a cell: a zero-cell block ends
the list; `main` hands the list it got, whatever its length, to the seeding loop. -/
theorem parse_all_spec (is : List (List Char)) :
    parse_all is = some (parsed_shapes is) ∧
    main_first_seed is = some ((parsed_shapes is).map get_variations,
      seed_layout (parsed_shapes is).length) := by
  have h : parse_all is = some (parsed_shapes is) := by
    unfold parse_all
    rw [parse_all_loop_eq _ _ _ (by omega)]
    simp
  refine ⟨h, ?_⟩
  unfold main_first_seed
  rw [h]
  rfl

set_option maxRecDepth 8000 in
/-- C13 (counterexample): on empty input `parse` returns no shape and `main` calls
`arrange_circle` with an empty shape list and an empty layout; a block of two spaces between
two shapes ends the parsed list after the first shape, with the same result as for the
input that holds the first shape alone. -/
theorem parse_all_silent :
    parse_all [] = some [] ∧
    main_first_seed [] = some ([], []) ∧
    parse_all ["O".toList, [], "  ".toList, [], "OO".toList] = some [setup [⟨0, 0⟩]] ∧
    parse_all ["O".toList, [], "  ".toList, [], "OO".toList] = parse_all ["O".toList] := by
  refine ⟨by decide, by decide, by decide, by decide⟩


/-! ### Bounding box -/

theorem bounds_fold_attained (variations : variation_array) (sl : List shape_pos)
    (acc : vec2i × vec2i) :
    ((sl.foldl (bounds_step variations) acc).1.x = acc.1.x ∨
      ∃ pos ∈ sl, (sl.foldl (bounds_step variations) acc).1.x = pos.x) ∧
    ((sl.foldl (bounds_step variations) acc).1.y = acc.1.y ∨
      ∃ pos ∈ sl, (sl.foldl (bounds_step variations) acc).1.y = pos.y) ∧
    ((sl.foldl (bounds_step variations) acc).2.x = acc.2.x ∨
      ∃ pos ∈ sl, (sl.foldl (bounds_step variations) acc).2.x =
        pos.x + (shape_at variations pos).width) ∧
    ((sl.foldl (bounds_step variations) acc).2.y = acc.2.y ∨
      ∃ pos ∈ sl, (sl.foldl (bounds_step variations) acc).2.y =
        pos.y + (shape_at variations pos).height) := by
  induction sl generalizing acc with
  | nil => simp
  | cons s sl ih =>
    simp only [List.foldl_cons]
    obtain ⟨h1, h2, h3, h4⟩ := ih (bounds_step variations acc s)
    have e1 : (bounds_step variations acc s).1.x = min acc.1.x s.x := rfl
    have e2 : (bounds_step variations acc s).1.y = min acc.1.y s.y := rfl
    have e3 : (bounds_step variations acc s).2.x =
        max acc.2.x (s.x + (shape_at variations s).width) := rfl
    have e4 : (bounds_step variations acc s).2.y =
        max acc.2.y (s.y + (shape_at variations s).height) := rfl
    refine ⟨?_, ?_, ?_, ?_⟩
    · rcases h1 with h | ⟨p, hp, h⟩
      · rw [e1] at h
        rcases min_cases acc.1.x s.x with ⟨hm, _⟩ | ⟨hm, _⟩
        · left; rw [h, hm]
        · right; exact ⟨s, List.mem_cons_self _ _, by rw [h, hm]⟩
      · right; exact ⟨p, List.mem_cons_of_mem _ hp, h⟩
    · rcases h2 with h | ⟨p, hp, h⟩
      · rw [e2] at h
        rcases min_cases acc.1.y s.y with ⟨hm, _⟩ | ⟨hm, _⟩
        · left; rw [h, hm]
        · right; exact ⟨s, List.mem_cons_self _ _, by rw [h, hm]⟩
      · right; exact ⟨p, List.mem_cons_of_mem _ hp, h⟩
    · rcases h3 with h | ⟨p, hp, h⟩
      · rw [e3] at h
        rcases max_cases acc.2.x (s.x + (shape_at variations s).width) with ⟨hm, _⟩ | ⟨hm, _⟩
        · left; rw [h, hm]
        · right; exact ⟨s, List.mem_cons_self _ _, by rw [h, hm]⟩
      · right; exact ⟨p, List.mem_cons_of_mem _ hp, h⟩
    · rcases h4 with h | ⟨p, hp, h⟩
      · rw [e4] at h
        rcases max_cases acc.2.y (s.y + (shape_at variations s).height) with ⟨hm, _⟩ | ⟨hm, _⟩
        · left; rw [h, hm]
        · right; exact ⟨s, List.mem_cons_self _ _, by rw [h, hm]⟩
      · right; exact ⟨p, List.mem_cons_of_mem _ hp, h⟩

/-- C14: for every valid non-empty layout with coordinates within `int`, `get_bounds`
returns `(lt, rb)` with `lt.x <= x < rb.x` and `lt.y <= y < rb.y` for every translated cell
`(x, y)` of every placed shape; `lt` is the componentwise minimum of the placement offsets
and `rb` the componentwise maximum of offset plus (width, height). -/
theorem get_bounds_cover (variations : variation_array) (positions : List shape_pos)
    (hv : valid_layout variations positions) (hne : variations ≠ [])
    (hr : in_int_range variations positions) :
    (∀ pos ∈ positions, ∀ sq ∈ (shape_at variations pos).squares,
      (get_bounds variations positions).1.x ≤ pos.x + sq.x ∧
      pos.x + sq.x < (get_bounds variations positions).2.x ∧
      (get_bounds variations positions).1.y ≤ pos.y + sq.y ∧
      pos.y + sq.y < (get_bounds variations positions).2.y) ∧
    (∀ pos ∈ positions,
      (get_bounds variations positions).1.x ≤ pos.x ∧
      (get_bounds variations positions).1.y ≤ pos.y ∧
      pos.x + (shape_at variations pos).width ≤ (get_bounds variations positions).2.x ∧
      pos.y + (shape_at variations pos).height ≤ (get_bounds variations positions).2.y) ∧
    (∃ pos ∈ positions, (get_bounds variations positions).1.x = pos.x) ∧
    (∃ pos ∈ positions, (get_bounds variations positions).1.y = pos.y) ∧
    (∃ pos ∈ positions, (get_bounds variations positions).2.x =
      pos.x + (shape_at variations pos).width) ∧
    (∃ pos ∈ positions, (get_bounds variations positions).2.y =
      pos.y + (shape_at variations pos).height) := by
  have hall := get_bounds_spec variations positions hv.1
  have hp : positions ≠ [] := by
    intro h
    have := hv.1
    rw [h] at this
    exact hne (List.length_eq_zero.mp this.symm)
  obtain ⟨p0, hp0⟩ := List.exists_mem_of_ne_nil _ hp
  have hb0 := hall p0 hp0
  have hr0 := hr p0 hp0
  have hatt := bounds_fold_attained variations positions
    (⟨INT_MAX, INT_MAX⟩, ⟨INT_MIN, INT_MIN⟩)
  have hgb : get_bounds variations positions =
      positions.foldl (bounds_step variations) (⟨INT_MAX, INT_MAX⟩, ⟨INT_MIN, INT_MIN⟩) := by
    unfold get_bounds
    rw [slots_eq variations positions hv.1]
  rw [← hgb] at hatt
  simp only at hatt
  obtain ⟨a1, a2, a3, a4⟩ := hatt
  refine ⟨?_, hall, ?_, ?_, ?_, ?_⟩
  · intro pos hpos sq hsq
    have hb := hall pos hpos
    have hc := wf_cell_bounds _ (shape_at_wf variations positions hv pos hpos) sq hsq
    omega
  · rcases a1 with h | h
    · exact ⟨p0, hp0, by omega⟩
    · exact h
  · rcases a2 with h | h
    · exact ⟨p0, hp0, by omega⟩
    · exact h
  · rcases a3 with h | h
    · exact ⟨p0, hp0, by omega⟩
    · exact h
  · rcases a4 with h | h
    · exact ⟨p0, hp0, by omega⟩
    · exact h

set_option maxRecDepth 8000 in
theorem get_bounds_cover_witness :
    valid_layout ring_variations ring_positions ∧
    in_int_range ring_variations ring_positions ∧
    get_bounds ring_variations ring_positions = (⟨0, 0⟩, ⟨3, 3⟩) ∧
    (∃ pos ∈ ring_positions, (get_bounds ring_variations ring_positions).2.x =
      pos.x + (shape_at ring_variations pos).width) :=
  ⟨by decide, by decide, by decide,
    (get_bounds_cover ring_variations ring_positions (by decide) (by decide)
      (by decide)).2.2.2.2.1⟩


/-! ### Parent selection -/

theorem filter_range_interval (N a b : Nat) :
    ((List.range N).filter (fun r => decide (a ≤ r ∧ r < b))).length =
      min b N - min a N := by
  induction N with
  | zero => simp
  | succ N ih =>
    rw [List.range_succ, List.filter_append, List.length_append, ih]
    by_cases h : a ≤ N ∧ N < b
    · simp only [List.filter_cons, h, and_self, decide_True, if_true, List.filter_nil,
        List.length_singleton]
      omega
    · simp only [List.filter_cons, h, decide_False, Bool.false_eq_true, if_false,
        List.filter_nil, List.length_nil]
      omega

theorem to_float_small (r : Nat) (h : r < 2 ^ 24) : to_float r = r := by
  unfold to_float
  rw [if_pos h]

/-- Below `2^24` the rounded square root never reaches the next whole number: `sqrtf_trunc`
is the integer part of the exact root. -/
theorem sqrtf_trunc_small (x : Nat) (h : x < 2 ^ 24) : sqrtf_trunc x = Nat.sqrt x := by
  unfold sqrtf_trunc
  simp only
  split
  · rename_i h0; exact h0.symm
  · rename_i h0
    rw [if_neg]
    have hn1 : Nat.sqrt x * Nat.sqrt x ≤ x := Nat.sqrt_le x
    have hn2 : x < (Nat.sqrt x + 1) * (Nat.sqrt x + 1) := Nat.lt_succ_sqrt x
    have hn3 : Nat.sqrt x < 2 ^ 12 := by
      by_contra hc
      have : 2 ^ 12 ≤ Nat.sqrt x := Nat.le_of_not_lt hc
      have : 2 ^ 12 * 2 ^ 12 ≤ Nat.sqrt x * Nat.sqrt x := Nat.mul_le_mul this this
      have e : (2 : Nat) ^ 12 * 2 ^ 12 = 2 ^ 24 := by norm_num
      omega
    have hk1 : 2 ^ Nat.log 2 (Nat.sqrt x) ≤ Nat.sqrt x := Nat.pow_log_le_self 2 h0
    have hk2 : Nat.sqrt x < 2 ^ (Nat.log 2 (Nat.sqrt x) + 1) :=
      Nat.lt_pow_succ_log_self (by decide) _
    have hk3 : Nat.log 2 (Nat.sqrt x) < 12 := by
      by_contra hc
      have : (2 : Nat) ^ 12 ≤ 2 ^ Nat.log 2 (Nat.sqrt x) :=
        Nat.pow_le_pow_right (by decide) (Nat.le_of_not_lt hc)
      omega
    generalize Nat.log 2 (Nat.sqrt x) = k at hk1 hk2 hk3
    generalize Nat.sqrt x = n at h0 hn1 hn2 hn3 hk1 hk2
    have hM : 2 * (n + 1) ≤ 2 ^ (24 - k) := by
      have e1 : 2 * (n + 1) ≤ 2 ^ (k + 2) := by
        have : (2 : Nat) ^ (k + 2) = 2 * 2 ^ (k + 1) := by ring
        omega
      have e2 : (2 : Nat) ^ (k + 2) ≤ 2 ^ (24 - k) :=
        Nat.pow_le_pow_right (by decide) (by omega)
      omega
    generalize 2 ^ (24 - k) = M at hM
    intro hle
    have hA : 1 ≤ (n + 1) * M := by
      have : 1 ≤ M := by omega
      exact Nat.mul_pos (by omega) this
    obtain ⟨B, hB⟩ : ∃ B, (n + 1) * M = B + 1 := ⟨(n + 1) * M - 1, by omega⟩
    rw [hB, Nat.add_sub_cancel] at hle
    have hx : x + 1 ≤ (n + 1) * (n + 1) := hn2
    have h1 : (x + 1) * M ^ 2 ≤ (n + 1) * (n + 1) * M ^ 2 := Nat.mul_le_mul_right _ hx
    have h2 : (n + 1) * (n + 1) * M ^ 2 = (B + 1) ^ 2 := by rw [← hB]; ring
    have h3 : 2 * (B + 1) ≤ M * M := by
      rw [← hB]
      calc 2 * ((n + 1) * M) = (2 * (n + 1)) * M := by ring
        _ ≤ M * M := Nat.mul_le_mul_right _ hM
    nlinarith

theorem sqrt_le_sqrtf_trunc (x : Nat) : Nat.sqrt x ≤ sqrtf_trunc x := by
  unfold sqrtf_trunc
  simp only
  split
  · omega
  · split <;> omega

/-- A value of at least `2^24` is at least 4 after the conversion to `float`. -/
theorem to_float_large (r : Nat) (h : 2 ^ 24 ≤ r) : 4 ≤ to_float r := by
  unfold to_float
  rw [if_neg (by omega)]
  simp only
  have hr0 : r ≠ 0 := by
    have : 0 < 2 ^ 24 := by norm_num
    omega
  have hk1 : 2 ^ Nat.log 2 r ≤ r := Nat.pow_log_le_self 2 hr0
  have hk2 : 24 ≤ Nat.log 2 r := by
    by_contra hc
    have h1 : Nat.log 2 r + 1 ≤ 24 := by omega
    have h2 : r < 2 ^ (Nat.log 2 r + 1) := Nat.lt_pow_succ_log_self (by decide) _
    have h3 : (2 : Nat) ^ (Nat.log 2 r + 1) ≤ 2 ^ 24 := Nat.pow_le_pow_right (by decide) h1
    omega
  generalize Nat.log 2 r = e at hk1 hk2
  have hs : (2 : Nat) ^ (e - 23 + 1) ≤ 2 ^ e := Nat.pow_le_pow_right (by decide) (by omega)
  have hs2 : (2 : Nat) ^ (e - 23 + 1) = 2 * 2 ^ (e - 23) := by ring
  have hs3 : (2 : Nat) ≤ 2 ^ (e - 23) := by
    calc (2 : Nat) = 2 ^ 1 := by norm_num
      _ ≤ 2 ^ (e - 23) := Nat.pow_le_pow_right (by decide) (by omega)
  have hq : 2 ≤ r / 2 ^ (e - 23) := by
    rw [Nat.le_div_iff_mul_le (by positivity)]
    omega
  have hq2 : 2 ≤ (if r % 2 ^ (e - 23) > 2 ^ (e - 23 - 1) ∨
      (r % 2 ^ (e - 23) = 2 ^ (e - 23 - 1) ∧ r / 2 ^ (e - 23) % 2 = 1) then
      r / 2 ^ (e - 23) + 1 else r / 2 ^ (e - 23)) := by
    split <;> omega
  calc 4 = 2 * 2 := by norm_num
    _ ≤ _ := Nat.mul_le_mul hq2 hs3

/-- The sampled index is 0 for `r = 0` only, and 1 for `r = 1, 2, 3` only. -/
theorem parent_index_low (P r : Nat) (hr : r < P * P) :
    (parent_index P r = 0 ↔ 0 ≤ r ∧ r < 1) ∧ (parent_index P r = 1 ↔ 1 ≤ r ∧ r < 4) := by
  unfold parent_index
  rw [Nat.mod_eq_of_lt hr]
  by_cases hs : r < 2 ^ 24
  · rw [to_float_small r hs, sqrtf_trunc_small r hs]
    have h0 : 0 = Nat.sqrt r ↔ 0 * 0 ≤ r ∧ r < (0 + 1) * (0 + 1) := Nat.eq_sqrt
    have h1 : 1 = Nat.sqrt r ↔ 1 * 1 ≤ r ∧ r < (1 + 1) * (1 + 1) := Nat.eq_sqrt
    constructor
    · rw [eq_comm, h0]
    · rw [eq_comm, h1]
  · have h4 := to_float_large r (by omega)
    have h2 : 2 ≤ Nat.sqrt (to_float r) := Nat.le_sqrt.mpr (by omega)
    have h3 := sqrt_le_sqrtf_trunc (to_float r)
    have : (2 : Nat) ^ 24 = 16777216 := by norm_num
    constructor <;> constructor <;> intro h <;> omega

theorem pick_count_low (P : Nat) (hP : 2 ≤ P) : pick_count P 0 = 1 ∧ pick_count P 1 = 3 := by
  have h4 : 4 ≤ P * P := Nat.mul_le_mul hP hP
  unfold pick_count
  have e0 : (List.range (P * P)).filter (fun r => decide (parent_index P r = 0)) =
      (List.range (P * P)).filter (fun r => decide (0 ≤ r ∧ r < 1)) := by
    apply List.filter_congr
    intro r hr
    simp only [(parent_index_low P r (List.mem_range.mp hr)).1]
  have e1 : (List.range (P * P)).filter (fun r => decide (parent_index P r = 1)) =
      (List.range (P * P)).filter (fun r => decide (1 ≤ r ∧ r < 4)) := by
    apply List.filter_congr
    intro r hr
    simp only [(parent_index_low P r (List.mem_range.mp hr)).2]
  rw [e0, e1, filter_range_interval, filter_range_interval]
  omega

/-- For `P <= 4096` every drawn value is below `2^24`, where both `float` steps are exact:
rank `j < P` is selected by the `2j + 1` values from `j*j` up to `(j+1)*(j+1) - 1`. -/
theorem pick_count_eq (P j : Nat) (hP : P ≤ 4096) (hj : j < P) :
    pick_count P j = 2 * j + 1 := by
  unfold pick_count
  have hPP : P * P ≤ 2 ^ 24 := by
    have : P * P ≤ 4096 * 4096 := Nat.mul_le_mul hP hP
    have e : (4096 : Nat) * 4096 = 2 ^ 24 := by norm_num
    omega
  have hcongr : (List.range (P * P)).filter (fun r => decide (parent_index P r = j)) =
      (List.range (P * P)).filter (fun r => decide (j * j ≤ r ∧ r < (j + 1) * (j + 1))) := by
    apply List.filter_congr
    intro r hr
    have hr2 : r < P * P := List.mem_range.mp hr
    unfold parent_index
    rw [Nat.mod_eq_of_lt hr2, to_float_small r (by omega), sqrtf_trunc_small r (by omega)]
    have : (Nat.sqrt r = j) ↔ (j * j ≤ r ∧ r < (j + 1) * (j + 1)) := by
      rw [eq_comm]; exact Nat.eq_sqrt
    simp only [this]
  rw [hcongr, filter_range_interval]
  have h1 : (j + 1) * (j + 1) ≤ P * P := Nat.mul_le_mul hj hj
  have h2 : j * j ≤ (j + 1) * (j + 1) := Nat.mul_le_mul (by omega) (by omega)
  rw [Nat.min_eq_left h1, Nat.min_eq_left (le_trans h2 h1)]
  have : (j + 1) * (j + 1) = j * j + 2 * j + 1 := by ring
  omega

/-- The first drawn value on which the `float` steps leave the integer part of the exact
root: 16785407 is rounded to 16785408, whose rounded root is 4097. -/
theorem parent_index_rounding :
    parent_index 4097 16785407 = 4097 ∧ Nat.sqrt 16785407 = 4096 := by
  have hl : Nat.log 2 16785407 = 24 :=
    Nat.log_eq_of_pow_le_of_lt_pow (by norm_num) (by norm_num)
  have hf : to_float 16785407 = 16785408 := by
    unfold to_float
    rw [if_neg (by norm_num)]
    simp only [hl]
    norm_num
  have hs : Nat.sqrt 16785408 = 4096 := by
    symm; rw [Nat.eq_sqrt]; constructor <;> norm_num
  have hs2 : Nat.sqrt 16785407 = 4096 := by
    symm; rw [Nat.eq_sqrt]; constructor <;> norm_num
  have hl2 : Nat.log 2 4096 = 12 :=
    Nat.log_eq_of_pow_le_of_lt_pow (by norm_num) (by norm_num)
  refine ⟨?_, hs2⟩
  unfold parent_index
  have hm : 16785407 % (4097 * 4097) = 16785407 := by norm_num
  rw [hm, hf]
  unfold sqrtf_trunc
  simp only [hs, hl2]
  norm_num

/-- The drawn value 99999999 selects the index 10000 at `pick_size = 10000`: the conversion
to `float` rounds it to 100000000, whose root is 10000. -/
theorem parent_index_last : parent_index 10000 99999999 = 10000 := by
  have hl : Nat.log 2 99999999 = 26 :=
    Nat.log_eq_of_pow_le_of_lt_pow (by norm_num) (by norm_num)
  have hf : to_float 99999999 = 100000000 := by
    unfold to_float
    rw [if_neg (by norm_num)]
    simp only [hl]
    norm_num
  have hs : Nat.sqrt 100000000 = 10000 := by
    symm; rw [Nat.eq_sqrt]; constructor <;> norm_num
  have hl2 : Nat.log 2 10000 = 13 :=
    Nat.log_eq_of_pow_le_of_lt_pow (by norm_num) (by norm_num)
  unfold parent_index
  have hm : 99999999 % (10000 * 10000) = 99999999 := by norm_num
  rw [hm, hf]
  unfold sqrtf_trunc
  simp only [hs, hl2]
  norm_num

/-- C18 (amended): for every population size `P <= 4096`, where every drawn value is below
`2^24` and the `float` steps are exact, and all ranks `j < k < P`, exactly `2j + 1` values
`0 <= r < P*P` select rank `j`, so strictly fewer values select rank `j` than rank `k`: the
draws concentrate near the last rank, not near rank 0. At the `P = 10000` of `main` one value
selects rank 0 and three select rank 1, and the value 99999999 selects 10000, which is not a
rank. -/
theorem pick_count_increasing (P j k : Nat) (hP : P ≤ 4096) (hjk : j < k) (hk : k < P) :
    (pick_count P j = 2 * j + 1 ∧ pick_count P k = 2 * k + 1 ∧
      pick_count P j < pick_count P k) ∧
    (pick_count 10000 0 = 1 ∧ pick_count 10000 1 = 3 ∧
      parent_index 10000 99999999 = 10000) := by
  have h1 := pick_count_eq P j hP (by omega)
  have h2 := pick_count_eq P k hP hk
  have h3 := pick_count_low 10000 (by norm_num)
  exact ⟨⟨h1, h2, by omega⟩, h3.1, h3.2, parent_index_last⟩

theorem pick_count_increasing_witness :
    (pick_count 3 0 = 2 * 0 + 1 ∧ pick_count 3 2 = 2 * 2 + 1 ∧
      pick_count 3 0 < pick_count 3 2) ∧
    (pick_count 10000 0 = 1 ∧ pick_count 10000 1 = 3 ∧
      parent_index 10000 99999999 = 10000) :=
  pick_count_increasing 3 0 2 (by decide) (by decide) (by decide)

/-- C18 (counterexample): at the `P = 10000` of `main`, as for `P = 2`, one value of `r`
(namely 0) selects rank 0 and three values (1, 2, 3) select rank 1. -/
theorem pick_count_counterexample :
    pick_count 10000 0 = 1 ∧ pick_count 10000 1 = 3 ∧
    ¬ (pick_count 10000 1 ≤ pick_count 10000 0) ∧
    pick_count 2 0 = 1 ∧ pick_count 2 1 = 3 ∧ ¬ (pick_count 2 1 ≤ pick_count 2 0) := by
  have h := pick_count_low 10000 (by norm_num)
  have h2 := pick_count_low 2 (by norm_num)
  refine ⟨h.1, h.2, ?_, h2.1, h2.2, ?_⟩
  · rw [h.1, h.2]; decide
  · rw [h2.1, h2.2]; decide

/-! ### Range shift -/

theorem pos_at_set (t : List shape_pos) (s k : Nat) (a : shape_pos) :
    pos_at (t.set s a) k = if s = k ∧ s < t.length then a else pos_at t k := by
  unfold pos_at
  rw [List.getD_eq_getElem?_getD, List.getD_eq_getElem?_getD, List.getElem?_set]
  by_cases hsk : s = k
  · subst hsk
    by_cases hl : s < t.length
    · simp [hl]
    · simp [hl, List.getElem?_eq_none (Nat.le_of_not_lt hl)]
  · simp [hsk]

theorem shift_slot_length (offs : vec2i) (t : List shape_pos) (k : Nat) :
    (shift_slot offs t k).length = t.length := by
  simp [shift_slot]

theorem pos_at_shift_slot (offs : vec2i) (t : List shape_pos) (s k : Nat) :
    pos_at (shift_slot offs t s) k =
      if s = k ∧ s < t.length then shift_pos offs (pos_at t k) else pos_at t k := by
  unfold shift_slot
  rw [pos_at_set]
  by_cases h : s = k ∧ s < t.length
  · rw [if_pos h, if_pos h, ← h.1]
    rfl
  · rw [if_neg h, if_neg h]

/-- The loop `for (int k = pidx1; k <= pidx2; k++)` moves the slots `s, ..., s + len - 1`
and no other. -/
theorem shift_range_spec (offs : vec2i) (len s : Nat) (t : List shape_pos) :
    ((List.range' s len).foldl (shift_slot offs) t).length = t.length ∧
    ∀ k, pos_at ((List.range' s len).foldl (shift_slot offs) t) k =
      if s ≤ k ∧ k < s + len ∧ k < t.length then shift_pos offs (pos_at t k)
      else pos_at t k := by
  induction len generalizing s t with
  | zero =>
    refine ⟨rfl, fun k => ?_⟩
    have : ¬ (s ≤ k ∧ k < s + 0 ∧ k < t.length) := by omega
    rw [if_neg this]
    rfl
  | succ len ih =>
    rw [List.range'_succ, List.foldl_cons]
    obtain ⟨h1, h2⟩ := ih (s + 1) (shift_slot offs t s)
    rw [shift_slot_length] at h1
    refine ⟨h1, fun k => ?_⟩
    rw [h2 k, shift_slot_length, pos_at_shift_slot]
    by_cases hks : s = k
    · subst hks
      have hf : ¬ (s + 1 ≤ s ∧ s < s + 1 + len ∧ s < t.length) := by omega
      rw [if_neg hf]
      by_cases hl : s < t.length
      · have h3 : s = s ∧ s < t.length := ⟨rfl, hl⟩
        have h4 : s ≤ s ∧ s < s + (len + 1) ∧ s < t.length := by omega
        rw [if_pos h3, if_pos h4]
      · have h3 : ¬ (s = s ∧ s < t.length) := by omega
        have h4 : ¬ (s ≤ s ∧ s < s + (len + 1) ∧ s < t.length) := by omega
        rw [if_neg h3, if_neg h4]
    · have h3 : ¬ (s = k ∧ s < t.length) := by omega
      rw [if_neg h3]
      by_cases hc : s + 1 ≤ k ∧ k < s + 1 + len ∧ k < t.length
      · have h4 : s ≤ k ∧ k < s + (len + 1) ∧ k < t.length := by omega
        rw [if_pos hc, if_pos h4]
      · have h4 : ¬ (s ≤ k ∧ k < s + (len + 1) ∧ k < t.length) := by omega
        rw [if_neg hc, if_neg h4]

/-- C19 (amended): for every layout, all drawn slot indices `p1`, `p2` and every offset `o`
of `COFFS`, the range-shift mutation adds `o` to the (x, y) of every placement at a slot `k`
with `p1 <= k <= p2` (no slot when `p1 > p2`), leaves the (x, y) of every other placement
unchanged, and leaves `shape_idx` and `var_idx` of every placement unchanged. -/
theorem range_shift_spec (variations : variation_array) (target : List shape_pos)
    (d : flip_draws) (hm : d.mutation % 3 = 1) :
    COFFS.getD (d.r1 % 8) ⟨0, 0⟩ ∈ COFFS ∧
    (apply_flip variations target d).length = target.length ∧
    (∀ k, k < target.length →
      pos_at (apply_flip variations target d) k =
        if d.pidx1 % variations.length ≤ k ∧ k ≤ d.pidx2 % variations.length then
          ⟨(pos_at target k).x + (COFFS.getD (d.r1 % 8) ⟨0, 0⟩).x,
            (pos_at target k).y + (COFFS.getD (d.r1 % 8) ⟨0, 0⟩).y,
            (pos_at target k).shape_idx, (pos_at target k).var_idx⟩
        else pos_at target k) ∧
    (d.pidx2 % variations.length < d.pidx1 % variations.length →
      apply_flip variations target d = target) := by
  have hoffs : COFFS.getD (d.r1 % 8) ⟨0, 0⟩ ∈ COFFS := by
    have h8 : d.r1 % 8 < 8 := Nat.mod_lt _ (by decide)
    have hl : COFFS.length = 8 := rfl
    rw [List.getD_eq_getElem?_getD, List.getElem?_eq_getElem (by omega)]
    exact List.getElem_mem _
  have hflip : apply_flip variations target d =
      (List.range' (d.pidx1 % variations.length)
        (d.pidx2 % variations.length + 1 - d.pidx1 % variations.length)).foldl
        (shift_slot (COFFS.getD (d.r1 % 8) ⟨0, 0⟩)) target := by
    unfold apply_flip
    simp only [hm]
    rfl
  obtain ⟨h1, h2⟩ := shift_range_spec (COFFS.getD (d.r1 % 8) ⟨0, 0⟩)
    (d.pidx2 % variations.length + 1 - d.pidx1 % variations.length)
    (d.pidx1 % variations.length) target
  refine ⟨hoffs, by rw [hflip]; exact h1, ?_, ?_⟩
  · intro k hk
    rw [hflip, h2 k]
    by_cases hc : d.pidx1 % variations.length ≤ k ∧ k ≤ d.pidx2 % variations.length
    · have h4 : d.pidx1 % variations.length ≤ k ∧
          k < d.pidx1 % variations.length +
            (d.pidx2 % variations.length + 1 - d.pidx1 % variations.length) ∧
          k < target.length := by omega
      rw [if_pos hc, if_pos h4]
      rfl
    · have h4 : ¬ (d.pidx1 % variations.length ≤ k ∧
          k < d.pidx1 % variations.length +
            (d.pidx2 % variations.length + 1 - d.pidx1 % variations.length) ∧
          k < target.length) := by omega
      rw [if_neg hc, if_neg h4]
  · intro hlt
    rw [hflip]
    have h0 : d.pidx2 % variations.length + 1 - d.pidx1 % variations.length = 0 := by omega
    rw [h0]
    rfl

set_option maxRecDepth 8000 in
theorem range_shift_spec_witness :
    apply_flip ring_variations ring_positions ⟨1, 0, 1, 6, 0⟩ =
      [⟨-1, 1, 0, 0⟩, ⟨0, 2, 1, 0⟩] ∧
    (apply_flip ring_variations ring_positions ⟨1, 0, 1, 6, 0⟩).length =
      ring_positions.length :=
  ⟨by decide, (range_shift_spec ring_variations ring_positions ⟨1, 0, 1, 6, 0⟩ (by decide)).2.1⟩

set_option maxRecDepth 8000 in
/-- C19 (counterexample): with the draws `pidx1 = 1`, `pidx2 = 0` and the offset (1, 0),
slots 0 and 1 both lie between the two drawn indices, yet the mutation moves no placement:
the loop `for (k = pidx1; k <= pidx2; k++)` has no pass. -/
theorem range_shift_counterexample :
    (⟨1, 1, 0, 0, 0⟩ : flip_draws).mutation % 3 = 1 ∧
    (⟨1, 1, 0, 0, 0⟩ : flip_draws).pidx1 % ring_variations.length = 1 ∧
    (⟨1, 1, 0, 0, 0⟩ : flip_draws).pidx2 % ring_variations.length = 0 ∧
    COFFS.getD ((⟨1, 1, 0, 0, 0⟩ : flip_draws).r1 % 8) ⟨0, 0⟩ = ⟨1, 0⟩ ∧
    apply_flip ring_variations ring_positions ⟨1, 1, 0, 0, 0⟩ = ring_positions ∧
    (pos_at (apply_flip ring_variations ring_positions ⟨1, 1, 0, 0, 0⟩) 0).x ≠
      (pos_at ring_positions 0).x + 1 ∧
    (pos_at (apply_flip ring_variations ring_positions ⟨1, 1, 0, 0, 0⟩) 1).x ≠
      (pos_at ring_positions 1).x + 1 := by
  decide


/-! ### Core extraction -/

/-- The two ways `flood_fill` ends when its seed is unoccupied. -/
theorem flood_fill_cases (variations : variation_array) (positions : List shape_pos)
    (hv : valid_layout variations positions) (hne : variations ≠ [])
    (hfree : mask_get (grid_mask variations positions)
      ((grid_seed variations positions).x +
        (grid_seed variations positions).y * grid_w variations positions) = false) :
    ∃ r hits, flood_fill variations positions = some (r, hits) ∧
      ((r = -1 ∧ ∃ e, reach (grid_w variations positions) (grid_h variations positions)
          (grid_mask variations positions) (grid_seed variations positions) e ∧
          on_edge (grid_w variations positions) (grid_h variations positions) e) ∨
       (∃ comp : List vec2i, r = comp.length ∧
          hits = comp.map (fun c => (⟨c.x + (grid_lt variations positions).x,
            c.y + (grid_lt variations positions).y⟩ : vec2i)) ∧ comp.Nodup ∧
          (∀ c, c ∈ comp ↔ reach (grid_w variations positions) (grid_h variations positions)
            (grid_mask variations positions) (grid_seed variations positions) c) ∧
          ∀ c ∈ comp, ¬ on_edge (grid_w variations positions)
            (grid_h variations positions) c)) := by
  obtain ⟨⟨r, hits⟩, hff⟩ := flood_fill_total variations positions
  have hseed : free_cell (grid_w variations positions) (grid_h variations positions)
      (grid_mask variations positions) (grid_seed variations positions) :=
    ⟨grid_seed_in_grid variations positions hv hne, hfree⟩
  have hinit := fill_inv_init _ _ _ _ (grid_mask_length variations positions) hseed
  exact ⟨r, hits, hff, fill_loop_spec (grid_w variations positions)
    (grid_h variations positions) (grid_lt variations positions)
    (grid_mask variations positions) (grid_seed variations positions) _ _ _ [] 0 []
    hinit (by simp) (by simp) r hits hff⟩

theorem core_offset_spec (hits : List vec2i) (a : vec2i) :
    ((hits.foldl (fun (p : vec2i) c => (⟨min p.x c.x, min p.y c.y⟩ : vec2i)) a).x ≤ a.x ∧
      (hits.foldl (fun (p : vec2i) c => (⟨min p.x c.x, min p.y c.y⟩ : vec2i)) a).y ≤ a.y) ∧
    (∀ c ∈ hits,
      (hits.foldl (fun (p : vec2i) c => (⟨min p.x c.x, min p.y c.y⟩ : vec2i)) a).x ≤ c.x ∧
      (hits.foldl (fun (p : vec2i) c => (⟨min p.x c.x, min p.y c.y⟩ : vec2i)) a).y ≤ c.y) ∧
    ((hits.foldl (fun (p : vec2i) c => (⟨min p.x c.x, min p.y c.y⟩ : vec2i)) a).x = a.x ∨
      ∃ c ∈ hits,
        (hits.foldl (fun (p : vec2i) c => (⟨min p.x c.x, min p.y c.y⟩ : vec2i)) a).x = c.x) ∧
    ((hits.foldl (fun (p : vec2i) c => (⟨min p.x c.x, min p.y c.y⟩ : vec2i)) a).y = a.y ∨
      ∃ c ∈ hits,
        (hits.foldl (fun (p : vec2i) c => (⟨min p.x c.x, min p.y c.y⟩ : vec2i)) a).y = c.y) := by
  induction hits generalizing a with
  | nil => simp
  | cons d hits ih =>
    simp only [List.foldl_cons]
    obtain ⟨⟨h1, h2⟩, h3, h4, h5⟩ := ih ⟨min a.x d.x, min a.y d.y⟩
    simp only at h1 h2 h4 h5
    refine ⟨⟨le_trans h1 (min_le_left _ _), le_trans h2 (min_le_left _ _)⟩, ?_, ?_, ?_⟩
    · intro c hc
      rcases List.mem_cons.mp hc with e | e
      · subst e
        exact ⟨le_trans h1 (min_le_right _ _), le_trans h2 (min_le_right _ _)⟩
      · exact h3 c e
    · rcases h4 with h | ⟨c, hc, h⟩
      · rcases min_cases a.x d.x with ⟨hm, _⟩ | ⟨hm, _⟩
        · left; rw [h, hm]
        · right; exact ⟨d, List.mem_cons_self _ _, by rw [h, hm]⟩
      · right; exact ⟨c, List.mem_cons_of_mem _ hc, h⟩
    · rcases h5 with h | ⟨c, hc, h⟩
      · rcases min_cases a.y d.y with ⟨hm, _⟩ | ⟨hm, _⟩
        · left; rw [h, hm]
        · right; exact ⟨d, List.mem_cons_self _ _, by rw [h, hm]⟩
      · right; exact ⟨c, List.mem_cons_of_mem _ hc, h⟩

/-- A free cell of the rasterised grid is covered by no placed shape. -/
theorem free_cell_uncovered (variations : variation_array) (positions : List shape_pos)
    (hv : valid_layout variations positions) (c : vec2i)
    (hf : free_cell (grid_w variations positions) (grid_h variations positions)
      (grid_mask variations positions) c) :
    ¬ ∃ pos ∈ positions, ∃ sq ∈ (shape_at variations pos).squares,
      pos.p + sq = (⟨c.x + (grid_lt variations positions).x,
        c.y + (grid_lt variations positions).y⟩ : vec2i) := by
  rintro ⟨pos, hpos, sq, hsq, e⟩
  have ex : pos.x + sq.x = c.x + (grid_lt variations positions).x := congrArg vec2i.x e
  have ey : pos.y + sq.y = c.y + (grid_lt variations positions).y := congrArg vec2i.y e
  obtain ⟨hg, hm⟩ := hf
  have hrange := grid_idx_range _ _ _ _ hg.1 hg.2.1 hg.2.2.1 hg.2.2.2
  have hocc : mask_get (grid_mask variations positions)
      (c.x + c.y * grid_w variations positions) = true := by
    unfold grid_mask
    rw [rasterise_get, slots_eq variations positions hv.1]
    refine ⟨⟨pos, hpos, sq, hsq, ?_⟩, hrange.1, hrange.2⟩
    have e1 : pos.x + sq.x - (grid_lt variations positions).x = c.x := by omega
    have e2 : pos.y + sq.y - (grid_lt variations positions).y = c.y := by omega
    rw [e1, e2]
  rw [hm] at hocc
  exact absurd hocc (by simp)


theorem get_bounds_rb_le (variations : variation_array) (positions : List shape_pos)
    (hlen : positions.length = variations.length)
    (hr : in_int_range variations positions) :
    (get_bounds variations positions).2.x ≤ INT_MAX ∧
    (get_bounds variations positions).2.y ≤ INT_MAX := by
  have hatt := bounds_fold_attained variations positions
    (⟨INT_MAX, INT_MAX⟩, ⟨INT_MIN, INT_MIN⟩)
  have hgb : get_bounds variations positions =
      positions.foldl (bounds_step variations) (⟨INT_MAX, INT_MAX⟩, ⟨INT_MIN, INT_MIN⟩) := by
    unfold get_bounds
    rw [slots_eq variations positions hlen]
  rw [← hgb] at hatt
  simp only at hatt
  obtain ⟨-, -, a3, a4⟩ := hatt
  have hmm : INT_MIN ≤ INT_MAX := by decide
  constructor
  · rcases a3 with h | ⟨pos, hpos, h⟩
    · omega
    · have := hr pos hpos; omega
  · rcases a4 with h | ⟨pos, hpos, h⟩
    · omega
    · have := hr pos hpos; omega

/-- What `extract_core` delivers when the seed of `flood_fill` is unoccupied (valid
non-empty layout, coordinates within `int`): it returns false exactly on escape; otherwise
the core is normalized, has as many cells as `flood_fill` counted, the offset is the
componentwise minimum of the visited cells, and no core cell moved back by the offset is
covered by a placed shape. -/
theorem extract_core_free_seed (variations : variation_array) (positions : List shape_pos)
    (hv : valid_layout variations positions) (hne : variations ≠ [])
    (hr : in_int_range variations positions)
    (hfree : mask_get (grid_mask variations positions)
      ((grid_seed variations positions).x +
        (grid_seed variations positions).y * grid_w variations positions) = false) :
    ∃ r hits core off, flood_fill variations positions = some (r, hits) ∧
      extract_core variations positions = some (decide (r > 0), core, off) ∧
      (r = -1 ∨ 1 ≤ r) ∧
      (1 ≤ r → normalized core ∧ (core.squares.length : Int) = r ∧
        core.squares = hits.map (fun sq => sq - off) ∧
        (∀ c ∈ hits, off.x ≤ c.x ∧ off.y ≤ c.y) ∧
        (∃ c ∈ hits, off.x = c.x) ∧ (∃ c ∈ hits, off.y = c.y) ∧
        ∀ c ∈ core.squares, ¬ ∃ pos ∈ positions, ∃ sq ∈ (shape_at variations pos).squares,
          pos.p + sq = c + off) := by
  obtain ⟨r, hits, hff, hcase⟩ := flood_fill_cases variations positions hv hne hfree
  have hec : extract_core variations positions = some (decide (r > 0),
      setup (hits.map (fun sq => sq - hits.foldl
        (fun (p : vec2i) c => (⟨min p.x c.x, min p.y c.y⟩ : vec2i)) ⟨INT_MAX, INT_MAX⟩)),
      hits.foldl (fun (p : vec2i) c => (⟨min p.x c.x, min p.y c.y⟩ : vec2i))
        ⟨INT_MAX, INT_MAX⟩) := by
    unfold extract_core
    rw [hff]
  refine ⟨r, hits, _, _, hff, hec, ?_, ?_⟩
  · rcases hcase with ⟨h, -⟩ | ⟨comp, h1, -, -, hmem, -⟩
    · exact Or.inl h
    · right
      have hs : grid_seed variations positions ∈ comp :=
        (hmem _).mpr (reach.seed ⟨grid_seed_in_grid variations positions hv hne, hfree⟩)
      have : 0 < comp.length := List.length_pos_of_mem hs
      omega
  · intro hr1
    rcases hcase with ⟨h, -⟩ | ⟨comp, h1, h2, -, hmem, -⟩
    · omega
    · obtain ⟨⟨-, -⟩, hle, hax, hay⟩ := core_offset_spec hits ⟨INT_MAX, INT_MAX⟩
      have hrb := get_bounds_rb_le variations positions hv.1 hr
      have hcomp_free : ∀ c ∈ comp, free_cell (grid_w variations positions)
          (grid_h variations positions) (grid_mask variations positions) c :=
        fun c hc => reach_free _ _ _ _ c ((hmem c).mp hc)
      have hhit_le : ∀ q ∈ hits, q.x ≤ INT_MAX ∧ q.y ≤ INT_MAX := by
        intro q hq
        rw [h2] at hq
        obtain ⟨c, hc, rfl⟩ := List.mem_map.mp hq
        have hg := (hcomp_free c hc).1
        unfold in_grid grid_w grid_h at hg
        unfold grid_lt
        simp only
        omega
      have hne_hits : hits ≠ [] := by
        intro e
        rw [e] at h2
        have : comp = [] := by simpa using h2.symm
        rw [this] at h1
        simp at h1
        omega
      obtain ⟨q0, hq0⟩ := List.exists_mem_of_ne_nil _ hne_hits
      have hax2 : ∃ c ∈ hits, (hits.foldl
          (fun (p : vec2i) c => (⟨min p.x c.x, min p.y c.y⟩ : vec2i)) ⟨INT_MAX, INT_MAX⟩).x
          = c.x := by
        rcases hax with h | h
        · refine ⟨q0, hq0, ?_⟩
          have := (hle q0 hq0).1
          have := (hhit_le q0 hq0).1
          simp only at h
          omega
        · exact h
      have hay2 : ∃ c ∈ hits, (hits.foldl
          (fun (p : vec2i) c => (⟨min p.x c.x, min p.y c.y⟩ : vec2i)) ⟨INT_MAX, INT_MAX⟩).y
          = c.y := by
        rcases hay with h | h
        · refine ⟨q0, hq0, ?_⟩
          have := (hle q0 hq0).2
          have := (hhit_le q0 hq0).2
          simp only at h
          omega
        · exact h
      have hnn : nonneg_cells (hits.map (fun sq => sq - hits.foldl
          (fun (p : vec2i) c => (⟨min p.x c.x, min p.y c.y⟩ : vec2i)) ⟨INT_MAX, INT_MAX⟩)) := by
        intro c hc
        obtain ⟨q, hq, rfl⟩ := List.mem_map.mp hc
        have := hle q hq
        show 0 ≤ q.x - _ ∧ 0 ≤ q.y - _
        omega
      refine ⟨⟨built_setup _ hnn, ?_, ?_⟩, ?_, rfl, hle, hax2, hay2, ?_⟩
      · obtain ⟨c, hc, e⟩ := hax2
        refine ⟨_, List.mem_map_of_mem _ hc, ?_⟩
        show c.x - _ = 0
        omega
      · obtain ⟨c, hc, e⟩ := hay2
        refine ⟨_, List.mem_map_of_mem _ hc, ?_⟩
        show c.y - _ = 0
        omega
      · rw [setup_squares, List.length_map, h2, List.length_map, h1]
      · intro c hc
        rw [setup_squares] at hc
        obtain ⟨q, hq, rfl⟩ := List.mem_map.mp hc
        rw [h2] at hq
        obtain ⟨g, hg, rfl⟩ := List.mem_map.mp hq
        have hun := free_cell_uncovered variations positions hv g (hcomp_free g hg)
        intro hex
        apply hun
        obtain ⟨pos, hpos, sq, hsq, e⟩ := hex
        refine ⟨pos, hpos, sq, hsq, ?_⟩
        rw [e]
        show (vec2i.mk _ _ : vec2i) = _
        simp only [vec2i.mk.injEq]
        constructor
        · show g.x + (grid_lt variations positions).x - _ + _ = _
          omega
        · show g.y + (grid_lt variations positions).y - _ + _ = _
          omega


set_option maxRecDepth 8000 in
/-- C20 (the code at the failing input): for one solid 5 by 5 block placed at (0, 0),
`flood_fill` returns 1 after visiting the occupied grid centre, so `extract_core` returns
true with a one-cell core at offset (3, 3), and that world cell is a cell of the block. -/
theorem extract_core_solid_block :
    valid_layout block_variations block_positions ∧
    flood_fill block_variations block_positions = some (1, [⟨3, 3⟩]) ∧
    extract_core block_variations block_positions = some (true, setup [⟨0, 0⟩], ⟨3, 3⟩) ∧
    (⟨0, 0⟩ : vec2i) + ⟨3, 3⟩ = (pos_at block_positions 0).p + ⟨3, 3⟩ ∧
    (⟨3, 3⟩ : vec2i) ∈ (shape_at block_variations (pos_at block_positions 0)).squares := by
  refine ⟨by decide, by decide, by decide, by decide, by decide⟩


/-! ### Boundary cells -/

/-- Membership in the boundary list that `setup` builds: a 4-neighbour of a member cell that
`is_set` rejects. -/
theorem mem_setup_boundary (cells : List vec2i) (c : vec2i) :
    c ∈ (setup cells).boundary ↔
      (∃ m ∈ cells, ∃ o ∈ OFFS, c = ⟨m.x + o.x, m.y + o.y⟩) ∧
        is_set (setup cells) c.x c.y = false := by
  have e : (setup cells).boundary = cells.flatMap (fun sq =>
      (OFFS.map (fun offs => (⟨sq.x + offs.x, sq.y + offs.y⟩ : vec2i))).filter
        (fun c => !(is_set (setup cells) c.x c.y))) := rfl
  rw [e]
  simp only [List.mem_flatMap, List.mem_filter, List.mem_map, Bool.not_eq_true',
    Bool.not_eq_eq_eq_not, Bool.not_true]
  constructor
  · rintro ⟨m, hm, ⟨o, ho, rfl⟩, hs⟩
    exact ⟨⟨m, hm, o, ho, rfl⟩, hs⟩
  · rintro ⟨⟨m, hm, o, ho, rfl⟩, hs⟩
    exact ⟨m, hm, ⟨o, ho, rfl⟩, hs⟩

/-- Two cell lists with the same members give the same extents. -/
theorem setup_extents_congr (cells cells2 : List vec2i) (hc : nonneg_cells cells)
    (hs : ∀ c, c ∈ cells ↔ c ∈ cells2) :
    (setup cells).width = (setup cells2).width ∧
      (setup cells).height = (setup cells2).height := by
  have hc2 : nonneg_cells cells2 := fun c h => hc c ((hs c).mpr h)
  by_cases hne : cells = []
  · subst hne
    have : cells2 = [] := by
      cases cells2 with
      | nil => rfl
      | cons a l => exact absurd ((hs a).mpr (List.mem_cons_self _ _)) (by simp)
    subst this
    exact ⟨rfl, rfl⟩
  · have hne2 : cells2 ≠ [] := by
      obtain ⟨a, ha⟩ := List.exists_mem_of_ne_nil cells hne
      exact List.ne_nil_of_mem ((hs a).mp ha)
    obtain ⟨-, -, -, hat⟩ := built_setup cells2 hc2
    obtain ⟨⟨d, hd, hdw⟩, ⟨e, he, heh⟩⟩ := hat hne2
    constructor
    · exact setup_width_eq cells _ (setup_width_nonneg cells2)
        (fun c h => setup_width_ge cells2 c ((hs c).mp h)) ⟨d, (hs d).mpr hd, hdw⟩
    · exact setup_height_eq cells _ (setup_height_nonneg cells2)
        (fun c h => setup_height_ge cells2 c ((hs c).mp h)) ⟨e, (hs e).mpr he, heh⟩

/-- Two masks of the same length that answer every `mask_get` alike are equal. -/
theorem mask_ext (m1 m2 : List Bool) (hl : m1.length = m2.length)
    (hg : ∀ j : Int, mask_get m1 j = mask_get m2 j) : m1 = m2 := by
  apply List.ext_getElem hl
  intro i h1 h2
  have h := hg (i : Int)
  unfold mask_get at h
  simp only [Int.toNat_ofNat, List.getD_eq_getElem?_getD] at h
  rw [if_neg (by omega), if_neg (by omega)] at h
  rw [List.getElem?_eq_getElem h1, List.getElem?_eq_getElem h2] at h
  simpa using h

/-- C21: on a shape that `setup` builds from non-negative cells, a cell occurs in the boundary
list exactly when it is not a member cell and is at Manhattan distance 1 from some member cell
(no range restriction: such cells may have a coordinate -1, or `x = width`, or `y = height`);
`is_set` holds exactly on the member cells; and two cell lists with the same members give the
same extents, the same mask and the same boundary cells. -/
theorem setup_boundary_spec (cells : List vec2i) (hc : nonneg_cells cells) :
    (∀ x y : Int, (⟨x, y⟩ : vec2i) ∈ (setup cells).boundary ↔
      ((⟨x, y⟩ : vec2i) ∉ cells ∧ ∃ m ∈ cells, manhattan m ⟨x, y⟩ = 1)) ∧
    (∀ x y : Int, is_set (setup cells) x y = true ↔ (⟨x, y⟩ : vec2i) ∈ cells) ∧
    (∀ cells2 : List vec2i, (∀ c, c ∈ cells ↔ c ∈ cells2) →
      (setup cells).width = (setup cells2).width ∧
      (setup cells).height = (setup cells2).height ∧
      (setup cells).mask = (setup cells2).mask ∧
      ∀ c, c ∈ (setup cells).boundary ↔ c ∈ (setup cells2).boundary) := by
  have hb : ∀ (l : List vec2i), nonneg_cells l → ∀ x y : Int,
      (⟨x, y⟩ : vec2i) ∈ (setup l).boundary ↔
        ((⟨x, y⟩ : vec2i) ∉ l ∧ ∃ m ∈ l, manhattan m ⟨x, y⟩ = 1) := by
    intro l hl x y
    rw [mem_setup_boundary]
    have hs := is_set_setup l hl x y
    constructor
    · rintro ⟨⟨m, hm, o, ho, he⟩, hf⟩
      refine ⟨fun hmem => ?_, m, hm, (manhattan_one_iff _ _).mpr ⟨o, ho, ?_⟩⟩
      · rw [hs.mpr hmem] at hf; exact absurd hf (by simp)
      · simp only [vec2i.mk.injEq] at he
        exact ⟨he.1.symm, he.2.symm⟩
    · rintro ⟨hn, m, hm, hd⟩
      obtain ⟨o, ho, h1, h2⟩ := (manhattan_one_iff _ _).mp hd
      refine ⟨⟨m, hm, o, ho, ?_⟩, ?_⟩
      · simp only [vec2i.mk.injEq]
        exact ⟨h1.symm, h2.symm⟩
      · cases hv : is_set (setup l) x y
        · rfl
        · exact absurd (hs.mp hv) hn
  refine ⟨hb cells hc, is_set_setup cells hc, ?_⟩
  intro cells2 hs
  have hc2 : nonneg_cells cells2 := fun c h => hc c ((hs c).mpr h)
  obtain ⟨hw, hh⟩ := setup_extents_congr cells cells2 hc hs
  refine ⟨hw, hh, ?_, ?_⟩
  · apply mask_ext
    · rw [setup_mask_length, setup_mask_length, hw, hh]
    · intro j
      have h1 := setup_mask_get cells j
      have h2 := setup_mask_get cells2 j
      rw [hw, hh] at h1
      have h3 : mask_get (setup cells).mask j = true ↔ mask_get (setup cells2).mask j = true := by
        rw [h1, h2]
        constructor
        · rintro ⟨⟨c, hcm, he⟩, r⟩
          exact ⟨⟨c, (hs c).mp hcm, he⟩, r⟩
        · rintro ⟨⟨c, hcm, he⟩, r⟩
          exact ⟨⟨c, (hs c).mpr hcm, he⟩, r⟩
      cases ha : mask_get (setup cells).mask j <;> cases hb2 : mask_get (setup cells2).mask j <;>
        simp_all
  · rintro ⟨x, y⟩
    rw [hb cells hc x y, hb cells2 hc2 x y]
    constructor
    · rintro ⟨hn, m, hm, hd⟩
      exact ⟨fun h => hn ((hs _).mpr h), m, (hs m).mp hm, hd⟩
    · rintro ⟨hn, m, hm, hd⟩
      exact ⟨fun h => hn ((hs _).mp h), m, (hs m).mpr hm, hd⟩

theorem setup_boundary_spec_witness :
    nonneg_cells [⟨0, 0⟩, ⟨1, 0⟩] ∧
    ((⟨-1, 0⟩ : vec2i) ∈ (setup [⟨0, 0⟩, ⟨1, 0⟩]).boundary ↔
      ((⟨-1, 0⟩ : vec2i) ∉ [(⟨0, 0⟩ : vec2i), ⟨1, 0⟩] ∧
        ∃ m ∈ [(⟨0, 0⟩ : vec2i), ⟨1, 0⟩], manhattan m ⟨-1, 0⟩ = 1)) ∧
    (⟨-1, 0⟩ : vec2i) ∈ (setup [⟨0, 0⟩, ⟨1, 0⟩]).boundary ∧
    (⟨2, 0⟩ : vec2i) ∈ (setup [⟨0, 0⟩, ⟨1, 0⟩]).boundary ∧
    (⟨0, 1⟩ : vec2i) ∈ (setup [⟨0, 0⟩, ⟨1, 0⟩]).boundary :=
  ⟨by decide, (setup_boundary_spec [⟨0, 0⟩, ⟨1, 0⟩] (by decide)).1 (-1) 0,
    by decide, by decide, by decide⟩

/-! ### Variations in first-seen order -/

theorem shape_eq_refl (a : shape) : shape_eq a a = true := by
  simp [shape_eq]

theorem shape_eq_trans (a b c : shape) (h1 : shape_eq a b = true) (h2 : shape_eq b c = true) :
    shape_eq a c = true := by
  unfold shape_eq at *
  simp only [Bool.and_eq_true, decide_eq_true_eq] at *
  exact ⟨h1.1.trans h2.1, h1.2.trans h2.2⟩

/-- Offering a list of shapes to `add_shape` one after the other appends the first-seen
shapes that are equal to nothing already collected. -/
theorem foldl_add_shape (l : List shape) (acc : List shape) :
    l.foldl add_shape acc =
      acc ++ (first_seen l).filter (fun y => !(acc.any (fun r => shape_eq r y))) := by
  induction l generalizing acc with
  | nil => simp [first_seen]
  | cons x xs ih =>
    simp only [List.foldl_cons, first_seen]
    by_cases hany : acc.any (fun r => shape_eq r x) = true
    · have e : add_shape acc x = acc := by simp [add_shape, hany]
      rw [e, ih acc, List.filter_cons, hany]
      simp only [Bool.not_true, Bool.false_eq_true, if_false, List.filter_filter]
      congr 1
      apply List.filter_congr
      intro y _
      obtain ⟨r, hr, hrx⟩ := List.any_eq_true.mp hany
      cases hy : acc.any (fun r => shape_eq r y)
      · cases hxy : shape_eq x y
        · rfl
        · have : acc.any (fun r => shape_eq r y) = true :=
            List.any_eq_true.mpr ⟨r, hr, shape_eq_trans r x y hrx hxy⟩
          rw [hy] at this
          exact absurd this (by simp)
      · rfl
    · have hf : acc.any (fun r => shape_eq r x) = false := by
        cases h : acc.any (fun r => shape_eq r x)
        · rfl
        · exact absurd h hany
      have e : add_shape acc x = acc ++ [x] := by simp [add_shape, hf]
      rw [e, ih (acc ++ [x]), List.filter_cons, hf]
      simp only [Bool.not_false, if_true, List.filter_filter, List.append_assoc,
        List.singleton_append]
      congr 2
      apply List.filter_congr
      intro y _
      simp only [List.any_append, List.any_cons, List.any_nil, Bool.or_false, Bool.not_or]

theorem get_variations_eq (sh : shape) : get_variations sh = first_seen (candidates sh) := by
  have h := foldl_add_shape (candidates sh) []
  simp only [List.any_nil, Bool.not_false, List.filter_true, List.nil_append] at h
  rw [← h]
  rfl

theorem first_seen_sublist (l : List shape) : (first_seen l).Sublist l := by
  induction l with
  | nil => simp [first_seen]
  | cons a l ih =>
    simp only [first_seen]
    exact List.Sublist.cons₂ a ((List.filter_sublist _).trans ih)

/-- Every shape of the list is equal to exactly one of the first-seen shapes. -/
theorem first_seen_count (l : List shape) (c : shape) (hc : c ∈ l) :
    (first_seen l).countP (fun e => shape_eq e c) = 1 := by
  induction l with
  | nil => exact absurd hc (List.not_mem_nil c)
  | cons x xs ih =>
    simp only [first_seen]
    by_cases hxc : shape_eq x c = true
    · rw [List.countP_cons, if_pos hxc, List.countP_filter]
      have : List.countP (fun a => shape_eq a c && !shape_eq x a) (first_seen xs) = 0 := by
        rw [List.countP_eq_zero]
        intro a _
        cases hac : shape_eq a c
        · simp
        · have hca : shape_eq c a = true := by rw [shape_eq_symm]; exact hac
          rw [shape_eq_trans x c a hxc hca]
          simp
      rw [this]
    · have hcx : c ∈ xs := by
        rcases List.mem_cons.mp hc with e | e
        · subst e; exact absurd (shape_eq_refl c) hxc
        · exact e
      rw [List.countP_cons, if_neg hxc, List.countP_filter, ← ih hcx, Nat.add_zero]
      apply List.countP_congr
      intro a _
      simp only [Bool.and_eq_true, Bool.not_eq_true', and_iff_left_iff_imp]
      intro hac
      cases hxa : shape_eq x a
      · rfl
      · exact absurd (shape_eq_trans x a c hxa hac) hxc

theorem rotated_length (sh : shape) (rot : rotation) :
    (rotated sh rot).squares.length = sh.squares.length := by
  rw [rotated_squares, List.length_map]

theorem mirrored_length (sh : shape) : (mirrored sh).squares.length = sh.squares.length := by
  unfold mirrored
  rw [setup_squares, List.length_map]

/-- C22: for every shape (normalized or not), each of the 8 candidates, in the order shape,
rotations by 90, 180, 270, mirror, rotations of the mirror by 90, 180, 270, is equal
(`shape::operator==`) to exactly one entry of `get_variations`; every entry is one of the 8
candidates and has as many cells as the shape; and the entries are the candidates in
first-seen order, a sublist of the candidate sequence. -/
theorem get_variations_first_seen (sh : shape) :
    (∀ c ∈ candidates sh, (get_variations sh).countP (fun e => shape_eq e c) = 1) ∧
    (∀ v ∈ get_variations sh, v ∈ candidates sh ∧ v.squares.length = sh.squares.length) ∧
    get_variations sh = first_seen (candidates sh) ∧
    (get_variations sh).Sublist (candidates sh) := by
  have he := get_variations_eq sh
  have hsub : (get_variations sh).Sublist (candidates sh) := by
    rw [he]; exact first_seen_sublist _
  refine ⟨?_, ?_, he, hsub⟩
  · intro c hc
    rw [he]
    exact first_seen_count _ c hc
  · intro v hv
    have hm := hsub.subset hv
    refine ⟨hm, ?_⟩
    simp only [candidates, List.mem_cons, List.mem_singleton, List.not_mem_nil, or_false] at hm
    rcases hm with h | h | h | h | h | h | h | h <;> subst h <;>
      simp only [rotated_length, mirrored_length]

/-! ### Symmetry of overlap and distance -/

theorem manhattan_comm (u v : vec2i) : manhattan u v = manhattan v u := by
  unfold manhattan
  rw [abs_sub_comm u.x v.x, abs_sub_comm u.y v.y]

theorem cells_coincide_comm (cA cB : List vec2i) (p q : vec2i) :
    cells_coincide cA p cB q ↔ cells_coincide cB q cA p := by
  constructor
  · rintro ⟨a, ha, b, hb, h⟩
    exact ⟨b, hb, a, ha, h.symm⟩
  · rintro ⟨a, ha, b, hb, h⟩
    exact ⟨b, hb, a, ha, h.symm⟩

theorem cells_adjacent_comm (cA cB : List vec2i) (p q : vec2i) :
    cells_adjacent cA p cB q ↔ cells_adjacent cB q cA p := by
  constructor
  · rintro ⟨a, ha, b, hb, h⟩
    exact ⟨b, hb, a, ha, by rw [manhattan_comm]; exact h⟩
  · rintro ⟨a, ha, b, hb, h⟩
    exact ⟨b, hb, a, ha, by rw [manhattan_comm]; exact h⟩

/-- On shapes built by `setup` from non-negative cells, `overlap_status` does not depend on
the order of its two (shape, position) arguments. -/
theorem overlap_status_comm (cA cB : List vec2i) (hA : nonneg_cells cA)
    (hB : nonneg_cells cB) (p q : vec2i) :
    overlap_status (setup cA) p (setup cB) q = overlap_status (setup cB) q (setup cA) p := by
  obtain ⟨h1, h2, h3⟩ := overlap_status_classify cA cB hA hB p q
  obtain ⟨k1, k2, k3⟩ := overlap_status_classify cB cA hB hA q p
  by_cases hc : cells_coincide cA p cB q
  · rw [h1 hc, k1 ((cells_coincide_comm _ _ _ _).mp hc)]
  · have hc2 : ¬ cells_coincide cB q cA p := fun h => hc ((cells_coincide_comm _ _ _ _).mpr h)
    by_cases ha : cells_adjacent cA p cB q
    · rw [h2 hc ha, k2 hc2 ((cells_adjacent_comm _ _ _ _).mp ha)]
    · have ha2 : ¬ cells_adjacent cB q cA p :=
        fun h => ha ((cells_adjacent_comm _ _ _ _).mpr h)
      rw [h3 hc ha, k3 hc2 ha2]

/-- The double minimum loop of `distance` gives the same number with the two cell lists
(and positions) exchanged. -/
theorem min_dist_loop_comm (cA cB : List vec2i) (p q : vec2i) :
    cA.foldl (fun m sq1 => cB.foldl (fun m2 sq2 =>
        min m2 (|sq1.x + (p.x - q.x) - sq2.x| + |sq1.y + (p.y - q.y) - sq2.y|)) m) INT_MAX =
    cB.foldl (fun m sq1 => cA.foldl (fun m2 sq2 =>
        min m2 (|sq1.x + (q.x - p.x) - sq2.x| + |sq1.y + (q.y - p.y) - sq2.y|)) m) INT_MAX := by
  obtain ⟨h1, h2, h3⟩ := foldl_min2_spec
    (fun (a b : vec2i) => |a.x + (p.x - q.x) - b.x| + |a.y + (p.y - q.y) - b.y|) cA cB INT_MAX
  obtain ⟨k1, k2, k3⟩ := foldl_min2_spec
    (fun (a b : vec2i) => |a.x + (q.x - p.x) - b.x| + |a.y + (q.y - p.y) - b.y|) cB cA INT_MAX
  simp only [pair_dist_eq] at h1 h2 h3 k1 k2 k3 ⊢
  apply le_antisymm
  · rcases k3 with k | ⟨b, hb, a, ha, k⟩
    · rw [k]; exact h1
    · rw [k, manhattan_comm]; exact h2 a ha b hb
  · rcases h3 with h | ⟨a, ha, b, hb, h⟩
    · rw [h]; exact k1
    · rw [h, manhattan_comm]; exact k2 b hb a ha

/-! ### Rotations compose -/

/-- Rotating a shape whose cell list and extents are known. -/
theorem rotated_of_squares (a : shape) (cells : List vec2i) (W H : Int) (rot : rotation)
    (hs : a.squares = cells) (hw : a.width = W) (hh : a.height = H) :
    rotated a rot = setup (cells.map (rotate_cell W H rot)) := by
  unfold rotated
  rw [hs, hw, hh]

/-- The width of the mirror image of a normalized shape is the width of the shape. -/
theorem mirrored_width (sh : shape) (hn : normalized sh) : (mirrored sh).width = sh.width := by
  obtain ⟨⟨-, hnn, hle, -⟩, ⟨cx0, hcx0, hx0⟩, -⟩ := hn
  have hw0 : 0 ≤ sh.width := by
    have := hnn cx0 hcx0
    have := (hle cx0 hcx0).1
    omega
  unfold mirrored
  apply setup_width_eq _ _ hw0
  · intro c hc
    obtain ⟨sq, hsq, rfl⟩ := List.mem_map.mp hc
    have := hnn sq hsq
    simp only
    omega
  · exact ⟨_, List.mem_map_of_mem _ hcx0, by simp only; omega⟩

/-- C26: on a normalized non-empty shape, `rotated` by CW_90 twice is `rotated` by CW_180
(the same shape, so the same cell list in the same order, width and height), three times is
`rotated` by CW_270, four times is the shape itself, and `mirrored` twice is the shape
itself. -/
theorem rotated_cyclic (sh : shape) (hn : normalized sh) (hne : sh.squares ≠ []) :
    rotated (rotated sh rotation.CW_90) rotation.CW_90 = rotated sh rotation.CW_180 ∧
    rotated (rotated (rotated sh rotation.CW_90) rotation.CW_90) rotation.CW_90 =
      rotated sh rotation.CW_270 ∧
    rotated (rotated (rotated (rotated sh rotation.CW_90) rotation.CW_90) rotation.CW_90)
      rotation.CW_90 = sh ∧
    mirrored (mirrored sh) = sh := by
  obtain ⟨-, ⟨h180w, h180h⟩, ⟨h90w, h90h⟩, ⟨h270w, h270h⟩⟩ := rotated_extents sh hn hne
  have e2 : rotated (rotated sh rotation.CW_90) rotation.CW_90 = rotated sh rotation.CW_180 := by
    rw [rotated_of_squares _ _ _ _ rotation.CW_90 (rotated_squares sh rotation.CW_90) h90w h90h,
      List.map_map]
    unfold rotated
    congr 1
  have e3 : rotated (rotated sh rotation.CW_180) rotation.CW_90 = rotated sh rotation.CW_270 := by
    rw [rotated_of_squares _ _ _ _ rotation.CW_90 (rotated_squares sh rotation.CW_180)
      h180w h180h, List.map_map]
    unfold rotated
    congr 1
    apply List.map_congr_left
    intro c _
    simp only [Function.comp, rotate_cell, vec2i.mk.injEq, and_true]
    ring
  have e4 : rotated (rotated sh rotation.CW_270) rotation.CW_90 = sh := by
    rw [rotated_of_squares _ _ _ _ rotation.CW_90 (rotated_squares sh rotation.CW_270)
      h270w h270h, List.map_map]
    have hid : sh.squares.map (rotate_cell sh.height sh.width rotation.CW_90 ∘
        rotate_cell sh.width sh.height rotation.CW_270) = sh.squares := by
      conv_rhs => rw [← List.map_id sh.squares]
      apply List.map_congr_left
      rintro ⟨x, y⟩ _
      simp only [Function.comp, rotate_cell, id, vec2i.mk.injEq, and_true]
      ring
    rw [hid]
    exact hn.1.1.symm
  refine ⟨e2, ?_, ?_, ?_⟩
  · rw [e2, e3]
  · rw [e2, e3, e4]
  · have hm : mirrored (mirrored sh) =
        setup ((sh.squares.map (fun sq => (⟨sh.width - sq.x - 1, sq.y⟩ : vec2i))).map
          (fun sq => (⟨sh.width - sq.x - 1, sq.y⟩ : vec2i))) := by
      have hw := mirrored_width sh hn
      have hs : (mirrored sh).squares =
          sh.squares.map (fun sq => (⟨sh.width - sq.x - 1, sq.y⟩ : vec2i)) := rfl
      show setup ((mirrored sh).squares.map
        (fun sq => (⟨(mirrored sh).width - sq.x - 1, sq.y⟩ : vec2i))) = _
      rw [hs, hw]
    rw [hm, List.map_map]
    have hid : sh.squares.map ((fun sq => (⟨sh.width - sq.x - 1, sq.y⟩ : vec2i)) ∘
        (fun sq => (⟨sh.width - sq.x - 1, sq.y⟩ : vec2i))) = sh.squares := by
      conv_rhs => rw [← List.map_id sh.squares]
      apply List.map_congr_left
      rintro ⟨x, y⟩ _
      simp only [Function.comp, id, vec2i.mk.injEq, and_true]
      ring
    rw [hid]
    exact hn.1.1.symm

set_option maxRecDepth 8000 in
theorem rotated_cyclic_witness :
    normalized (parse SHAPE3).2.1 ∧ (parse SHAPE3).2.1.squares ≠ [] ∧
    (rotated (rotated (parse SHAPE3).2.1 rotation.CW_90) rotation.CW_90).squares =
      [⟨3, 1⟩, ⟨2, 1⟩, ⟨1, 1⟩, ⟨0, 1⟩, ⟨0, 0⟩] ∧
    rotated (rotated (parse SHAPE3).2.1 rotation.CW_90) rotation.CW_90 =
      rotated (parse SHAPE3).2.1 rotation.CW_180 :=
  have hn : normalized (parse SHAPE3).2.1 :=
    ⟨built_parse SHAPE3, by decide, by decide⟩
  ⟨hn, by decide, by decide, (rotated_cyclic (parse SHAPE3).2.1 hn (by decide)).1⟩

/-! ### Grid indices of the flood fill -/

theorem probe_indices_mem (w : Int) (mask : List Bool) (start : vec2i) (offs : List vec2i)
    (i : Int) (hi : i ∈ probe_indices w mask start offs) :
    ∃ o ∈ offs, i = (start + o).x + (start + o).y * w := by
  induction offs with
  | nil => exact absurd hi (List.not_mem_nil i)
  | cons o rest ih =>
    simp only [probe_indices, List.mem_cons] at hi
    rcases hi with h | h
    · exact ⟨o, List.mem_cons_self _ _, h⟩
    · split at h
      · exact absurd h (List.not_mem_nil i)
      · obtain ⟨o2, ho2, e⟩ := ih h
        exact ⟨o2, List.mem_cons_of_mem _ ho2, e⟩

theorem neighbour_indices_mem (w h : Int) (c : vec2i) (offs : List vec2i) (mask : List Bool)
    (i : Int) (hi : i ∈ neighbour_indices w h c offs mask) :
    ∃ d, in_grid w h d ∧ i = d.x + d.y * w := by
  induction offs generalizing mask with
  | nil => exact absurd hi (List.not_mem_nil i)
  | cons o rest ih =>
    simp only [neighbour_indices] at hi
    split at hi
    · exact absurd hi (List.not_mem_nil i)
    · rename_i hr
      simp only [not_or, not_lt, ge_iff_le, not_le] at hr
      rcases List.mem_cons.mp hi with e | e
      · exact ⟨c + o, ⟨hr.1, hr.2.2.1, hr.2.1, hr.2.2.2⟩, e⟩
      · split at e
        · exact ih _ e
        · exact ih _ e

theorem fill_indices_mem (w h : Int) (fuel : Nat) (cellq : List vec2i) (mask : List Bool)
    (i : Int) (hi : i ∈ fill_indices w h fuel cellq mask) :
    ∃ d, in_grid w h d ∧ i = d.x + d.y * w := by
  induction fuel generalizing cellq mask with
  | zero =>
    cases cellq with
    | nil => exact absurd hi (by simp [fill_indices])
    | cons c cellq => exact absurd hi (by simp [fill_indices])
  | succ fuel ih =>
    cases cellq with
    | nil => exact absurd hi (by simp [fill_indices])
    | cons c cellq =>
      simp only [fill_indices, List.mem_append] at hi
      rcases hi with e | e
      · exact neighbour_indices_mem w h c COFFS mask i e
      · split at e
        · exact absurd e (List.not_mem_nil i)
        · exact ih _ _ e

/-- C24: for every valid layout of at least one shape (every shape non-empty and built by
`setup` from non-negative cells), every index at which `flood_fill` reads or writes its grid
lies in `[0, w*h)`, and `w*h` is the length of the grid: the rasterised cells, the centre
`(w/2, h/2)`, the neighbours probed by the nudge (which runs only when the centre is
occupied), the seed, and the neighbours read during the fill. -/
theorem flood_fill_indices_in_range (variations : variation_array)
    (positions : List shape_pos) (hv : valid_layout variations positions)
    (hne : variations ≠ []) :
    ((grid_mask variations positions).length : Int) =
      grid_w variations positions * grid_h variations positions ∧
    ∀ i ∈ flood_fill_indices variations positions,
      0 ≤ i ∧ i < grid_w variations positions * grid_h variations positions := by
  have hext := grid_extent_pos variations positions hv hne
  have hcell : ∀ d, in_grid (grid_w variations positions) (grid_h variations positions) d →
      0 ≤ d.x + d.y * grid_w variations positions ∧
      d.x + d.y * grid_w variations positions <
        grid_w variations positions * grid_h variations positions :=
    fun d hd => grid_idx_range _ _ _ _ hd.1 hd.2.1 hd.2.2.1 hd.2.2.2
  have ew : Int.tdiv (grid_w variations positions) 2 = grid_w variations positions / 2 :=
    Int.tdiv_eq_ediv (by omega) (by omega)
  have eh : Int.tdiv (grid_h variations positions) 2 = grid_h variations positions / 2 :=
    Int.tdiv_eq_ediv (by omega) (by omega)
  have hcen : in_grid (grid_w variations positions) (grid_h variations positions)
      ⟨Int.tdiv (grid_w variations positions) 2, Int.tdiv (grid_h variations positions) 2⟩ := by
    unfold in_grid
    simp only [ew, eh]
    omega
  constructor
  · rw [grid_mask_length]
    have : 0 ≤ grid_w variations positions * grid_h variations positions :=
      Int.mul_nonneg (by omega) (by omega)
    omega
  · intro i hi
    unfold flood_fill_indices at hi
    simp only [List.mem_append, List.mem_cons] at hi
    rcases hi with (hr | hs) | hc0 | hf
    · unfold raster_indices at hr
      rw [slots_eq variations positions hv.1] at hr
      obtain ⟨pos, hpos, hm⟩ := List.mem_flatMap.mp hr
      obtain ⟨sq, hsq, rfl⟩ := List.mem_map.mp hm
      have hb := grid_cell_bounds variations positions hv pos hpos sq hsq
      exact grid_idx_range _ _ _ _ hb.1 (by omega) hb.2.2.1 (by omega)
    · unfold seed_indices at hs
      simp only [List.mem_cons] at hs
      rcases hs with e | e
      · rw [e]; exact hcell _ hcen
      · split at e
        · rename_i hocc
          have hb := occupied_bound variations positions hv _ hcen hocc
          obtain ⟨o, ho, rfl⟩ := probe_indices_mem _ _ _ _ _ e
          have hb2 := coffs_bound o ho
          apply hcell
          unfold in_grid
          simp only [ew, eh] at hb
          simp only [vec2i_add_x, vec2i_add_y, ew, eh]
          omega
        · exact absurd e (List.not_mem_nil i)
    · rw [hc0]
      exact hcell _ (grid_seed_in_grid variations positions hv hne)
    · obtain ⟨d, hd, rfl⟩ := fill_indices_mem _ _ _ _ _ _ hf
      exact hcell d hd

set_option maxRecDepth 8000 in
theorem flood_fill_indices_in_range_witness :
    valid_layout block_variations block_positions ∧ block_variations ≠ [] ∧
    seed_indices (grid_w block_variations block_positions)
      (grid_h block_variations block_positions)
      (grid_mask block_variations block_positions) = [21, 22, 27, 20, 15, 16, 28, 26, 14] ∧
    ∀ i ∈ flood_fill_indices block_variations block_positions,
      0 ≤ i ∧ i < grid_w block_variations block_positions *
        grid_h block_variations block_positions :=
  ⟨by decide, by decide, by decide,
    (flood_fill_indices_in_range block_variations block_positions (by decide) (by decide)).2⟩

/-! ### Circular seeding: the closing pass -/

/-- What `best_fit` leaves in `res`: the shape index is kept; either nothing is written, or
position and variation index are those of one of the candidates. -/
theorem best_fit_cases (env : fit_env) (fit_fn : shape_pos → vec2i → shape → env.cost)
    (boundary : List vec2i) (res : shape_pos) (pos : vec2i) (variations : List shape) :
    (best_fit env fit_fn boundary res pos variations).shape_idx = res.shape_idx ∧
    (best_fit env fit_fn boundary res pos variations = res ∨
      ∃ c ∈ fit_candidates boundary pos variations,
        best_fit env fit_fn boundary res pos variations =
          ⟨c.2.2.x, c.2.2.y, res.shape_idx, c.1⟩) := by
  unfold best_fit
  have key : ∀ (l : List (Nat × shape × vec2i)) (st : shape_pos × env.cost),
      st.1.shape_idx = res.shape_idx →
      (st.1 = res ∨ ∃ c ∈ fit_candidates boundary pos variations,
        st.1 = ⟨c.2.2.x, c.2.2.y, res.shape_idx, c.1⟩) →
      (∀ c ∈ l, c ∈ fit_candidates boundary pos variations) →
      ((l.foldl (fun (st : shape_pos × env.cost) c =>
          if env.lt (fit_fn st.1 c.2.2 c.2.1) st.2 then
            ({ st.1 with x := c.2.2.x, y := c.2.2.y, var_idx := c.1 },
              fit_fn st.1 c.2.2 c.2.1)
          else st) st).1.shape_idx = res.shape_idx ∧
        ((l.foldl (fun (st : shape_pos × env.cost) c =>
          if env.lt (fit_fn st.1 c.2.2 c.2.1) st.2 then
            ({ st.1 with x := c.2.2.x, y := c.2.2.y, var_idx := c.1 },
              fit_fn st.1 c.2.2 c.2.1)
          else st) st).1 = res ∨
        ∃ c ∈ fit_candidates boundary pos variations,
          (l.foldl (fun (st : shape_pos × env.cost) c =>
          if env.lt (fit_fn st.1 c.2.2 c.2.1) st.2 then
            ({ st.1 with x := c.2.2.x, y := c.2.2.y, var_idx := c.1 },
              fit_fn st.1 c.2.2 c.2.1)
          else st) st).1 = ⟨c.2.2.x, c.2.2.y, res.shape_idx, c.1⟩)) := by
    intro l
    induction l with
    | nil => intro st h1 h2 _; exact ⟨h1, h2⟩
    | cons c l ih =>
      intro st h1 h2 hl
      simp only [List.foldl_cons]
      apply ih
      · split
        · exact h1
        · exact h1
      · split
        · right
          refine ⟨c, hl c (List.mem_cons_self _ _), ?_⟩
          simp only [h1]
        · exact h2
      · intro d hd
        exact hl d (List.mem_cons_of_mem _ hd)
  exact key _ (res, env.DBL_MAX) rfl (Or.inl rfl) (fun c hc => hc)

theorem arrange_step_length (env : fit_env) (variations : variation_array)
    (positions : List shape_pos) (i : Nat) :
    (arrange_step env variations positions i).length = positions.length := by
  unfold arrange_step
  simp only
  split <;> simp only [List.length_set]

theorem arrange_fold_length (env : fit_env) (variations : variation_array) (l : List Nat)
    (positions : List shape_pos) :
    (l.foldl (arrange_step env variations) positions).length = positions.length := by
  induction l generalizing positions with
  | nil => rfl
  | cons i l ih => rw [List.foldl_cons, ih, arrange_step_length]

/-- The function `arrange_circle` is its closing pass run on the state that the passes
`0, ..., nshapes - 1` leave. -/
theorem arrange_circle_closing (env : fit_env) (variations : variation_array)
    (positions : List shape_pos) :
    arrange_circle env variations positions =
      arrange_step env variations
        ((List.range variations.length).foldl (arrange_step env variations) positions)
        variations.length := by
  unfold arrange_circle
  rw [List.range_succ, List.foldl_append]
  rfl

/-- A pass `i > 0` writes the slot `i % nshapes` and no other: the slot keeps its shape
index, and is either left as it was or set to one of the candidates built from the boundary
of the previous shape. -/
theorem arrange_step_frame (env : fit_env) (variations : variation_array)
    (positions : List shape_pos) (i : Nat) (hi : i ≠ 0)
    (hk : i % variations.length < positions.length) :
    (∀ j, j ≠ i % variations.length →
      pos_at (arrange_step env variations positions i) j = pos_at positions j) ∧
    (pos_at (arrange_step env variations positions i) (i % variations.length)).shape_idx =
      (pos_at positions (i % variations.length)).shape_idx ∧
    (pos_at (arrange_step env variations positions i) (i % variations.length) =
        pos_at positions (i % variations.length) ∨
      ∃ c ∈ fit_candidates (shape_at variations (pos_at positions (i - 1))).boundary
          (pos_at positions (i - 1)).p
          (variations.getD (pos_at positions (i % variations.length)).shape_idx []),
        pos_at (arrange_step env variations positions i) (i % variations.length) =
          ⟨c.2.2.x, c.2.2.y, (pos_at positions (i % variations.length)).shape_idx, c.1⟩) := by
  unfold arrange_step
  simp only [if_neg hi]
  refine ⟨?_, ?_, ?_⟩
  · intro j hj
    rw [pos_at_set, if_neg]
    intro h
    exact hj h.1.symm
  · rw [pos_at_set, if_pos ⟨rfl, hk⟩]
    exact (best_fit_cases _ _ _ _ _ _).1
  · rw [pos_at_set, if_pos ⟨rfl, hk⟩]
    exact (best_fit_cases _ _ _ _ _ _).2

/-- What `best_fit` computes when the cost does not read `res`: `res` is left as it was if
no candidate costs less than the start value; otherwise it is set to a candidate `c` that no
later candidate beats, and, when the costs are ordered, `c` costs less than the start value
and less than every earlier candidate (first-found minimum). -/
theorem best_fit_first_min (env : fit_env) (cost : vec2i → shape → env.cost)
    (boundary : List vec2i) (res : shape_pos) (pos : vec2i) (variations : List shape) :
    ((∀ c ∈ fit_candidates boundary pos variations,
        env.lt (cost c.2.2 c.2.1) env.DBL_MAX = false) →
      best_fit env (fun _ p sh => cost p sh) boundary res pos variations = res) ∧
    ((∃ c ∈ fit_candidates boundary pos variations,
        env.lt (cost c.2.2 c.2.1) env.DBL_MAX = true) →
      ∃ l1 c l2, fit_candidates boundary pos variations = l1 ++ c :: l2 ∧
        best_fit env (fun _ p sh => cost p sh) boundary res pos variations = placed res c ∧
        (∀ d ∈ l2, env.lt (cost d.2.2 d.2.1) (cost c.2.2 c.2.1) = false) ∧
        (ordered_costs env → env.lt (cost c.2.2 c.2.1) env.DBL_MAX = true ∧
          ∀ d ∈ l1, env.lt (cost c.2.2 c.2.1) (cost d.2.2 d.2.1) = true)) := by
  have key : ∀ (rest L : List (Nat × shape × vec2i)) (st : shape_pos × env.cost),
      ((st.1 = res ∧ st.2 = env.DBL_MAX ∧
          ∀ d ∈ L, env.lt (cost d.2.2 d.2.1) env.DBL_MAX = false) ∨
        ∃ l1 c l2, L = l1 ++ c :: l2 ∧ st.1 = placed res c ∧ st.2 = cost c.2.2 c.2.1 ∧
          (∃ f ∈ L, env.lt (cost f.2.2 f.2.1) env.DBL_MAX = true) ∧
          (∀ d ∈ l2, env.lt (cost d.2.2 d.2.1) (cost c.2.2 c.2.1) = false) ∧
          (ordered_costs env → env.lt (cost c.2.2 c.2.1) env.DBL_MAX = true ∧
            ∀ d ∈ l1, env.lt (cost c.2.2 c.2.1) (cost d.2.2 d.2.1) = true)) →
      (((rest.foldl (fun (st : shape_pos × env.cost) c =>
            if env.lt (cost c.2.2 c.2.1) st.2 then
              ({ st.1 with x := c.2.2.x, y := c.2.2.y, var_idx := c.1 }, cost c.2.2 c.2.1)
            else st) st).1 = res ∧
          ∀ d ∈ L ++ rest, env.lt (cost d.2.2 d.2.1) env.DBL_MAX = false) ∨
        ∃ l1 c l2, L ++ rest = l1 ++ c :: l2 ∧
          (rest.foldl (fun (st : shape_pos × env.cost) c =>
            if env.lt (cost c.2.2 c.2.1) st.2 then
              ({ st.1 with x := c.2.2.x, y := c.2.2.y, var_idx := c.1 }, cost c.2.2 c.2.1)
            else st) st).1 = placed res c ∧
          (∃ f ∈ L ++ rest, env.lt (cost f.2.2 f.2.1) env.DBL_MAX = true) ∧
          (∀ d ∈ l2, env.lt (cost d.2.2 d.2.1) (cost c.2.2 c.2.1) = false) ∧
          (ordered_costs env → env.lt (cost c.2.2 c.2.1) env.DBL_MAX = true ∧
            ∀ d ∈ l1, env.lt (cost c.2.2 c.2.1) (cost d.2.2 d.2.1) = true)) := by
    intro rest
    induction rest with
    | nil =>
      intro L st h
      simp only [List.foldl_nil, List.append_nil]
      rcases h with ⟨h1, -, h3⟩ | ⟨l1, c, l2, h1, h2, -, hf, h4, h5⟩
      · exact Or.inl ⟨h1, h3⟩
      · exact Or.inr ⟨l1, c, l2, h1, h2, hf, h4, h5⟩
    | cons e rest ih =>
      intro L st h
      simp only [List.foldl_cons]
      have hL : L ++ e :: rest = (L ++ [e]) ++ rest := by simp
      rw [hL]
      apply ih
      rcases h with ⟨h1, h2, h3⟩ | ⟨l1, c, l2, h1, h2, h3, ⟨f, hf, hflt⟩, h4, h5⟩
      · by_cases hlt : env.lt (cost e.2.2 e.2.1) st.2 = true
        · rw [if_pos hlt]
          right
          refine ⟨L, e, [], by simp, ?_, rfl, ⟨e, by simp, by rw [← h2]; exact hlt⟩, by simp, ?_⟩
          · simp only [placed, h1]
          · intro ⟨_, _, hw⟩
            rw [h2] at hlt
            refine ⟨hlt, ?_⟩
            intro d hd
            rcases hw _ _ (cost d.2.2 d.2.1) hlt with h | h
            · exact h
            · rw [h3 d hd] at h; exact absurd h (by simp)
        · rw [if_neg hlt]
          left
          refine ⟨h1, h2, ?_⟩
          intro d hd
          rcases List.mem_append.mp hd with hd | hd
          · exact h3 d hd
          · rw [List.mem_singleton] at hd
            subst hd
            rw [h2] at hlt
            cases hv : env.lt (cost d.2.2 d.2.1) env.DBL_MAX
            · rfl
            · exact absurd hv hlt
      · by_cases hlt : env.lt (cost e.2.2 e.2.1) st.2 = true
        · rw [if_pos hlt]
          right
          refine ⟨L, e, [], by simp, ?_, rfl,
            ⟨f, List.mem_append_left _ hf, hflt⟩, by simp, ?_⟩
          · simp only [placed, h2]
          · intro hord
            obtain ⟨g1, g2⟩ := h5 hord
            obtain ⟨_, htr, hw⟩ := hord
            rw [h3] at hlt
            refine ⟨htr _ _ _ hlt g1, ?_⟩
            intro d hd
            rw [h1] at hd
            rcases List.mem_append.mp hd with hd | hd
            · exact htr _ _ _ hlt (g2 d hd)
            · rcases List.mem_cons.mp hd with hd | hd
              · subst hd; exact hlt
              · rcases hw _ _ (cost d.2.2 d.2.1) hlt with h | h
                · exact h
                · rw [h4 d hd] at h; exact absurd h (by simp)
        · rw [if_neg hlt]
          right
          refine ⟨l1, c, l2 ++ [e], by rw [h1]; simp, h2, h3,
            ⟨f, List.mem_append_left _ hf, hflt⟩, ?_, h5⟩
          intro d hd
          rcases List.mem_append.mp hd with hd | hd
          · exact h4 d hd
          · rw [List.mem_singleton] at hd
            subst hd
            rw [h3] at hlt
            cases hv : env.lt (cost d.2.2 d.2.1) (cost c.2.2 c.2.1)
            · rfl
            · exact absurd hv hlt
  have hfin := key (fit_candidates boundary pos variations) [] (res, env.DBL_MAX)
    (Or.inl ⟨rfl, rfl, by simp⟩)
  simp only [List.nil_append] at hfin
  have hbf : best_fit env (fun _ p sh => cost p sh) boundary res pos variations =
      ((fit_candidates boundary pos variations).foldl
        (fun (st : shape_pos × env.cost) c =>
          if env.lt (cost c.2.2 c.2.1) st.2 then
            ({ st.1 with x := c.2.2.x, y := c.2.2.y, var_idx := c.1 }, cost c.2.2 c.2.1)
          else st) (res, env.DBL_MAX)).1 := rfl
  rw [hbf]
  constructor
  · intro hnone
    rcases hfin with ⟨h1, -⟩ | ⟨l1, c, l2, h1, h2, ⟨f, hf, hflt⟩, h3, h4⟩
    · exact h1
    · rw [hnone f hf] at hflt; exact absurd hflt (by simp)
  · rintro ⟨c0, hc0, hlt0⟩
    rcases hfin with ⟨-, h2⟩ | ⟨l1, c, l2, h1, h2, -, h3, h4⟩
    · rw [h2 c0 hc0] at hlt0; exact absurd hlt0 (by simp)
    · exact ⟨l1, c, l2, h1, h2, h3, h4⟩

/-- In the closing pass of a layout of at least two shapes the lambda reads slot n-1 as the
previous and slot 1 as the next placement, and does not read the slot it writes. -/
theorem fit_cost_closing (env : fit_env) (variations : variation_array)
    (pre : List shape_pos) (hn : 2 ≤ variations.length) (res : shape_pos) (p : vec2i)
    (sh : shape) :
    fit_cost env variations pre variations.length 0
      (shape_at variations (pos_at pre (variations.length - 1)))
      (pos_at pre (variations.length - 1)).p res p sh =
    closing_cost env variations (pos_at pre (variations.length - 1)) (pos_at pre 1) p sh := by
  have h1 : pos_at (pre.set 0 res) (variations.length - 1) =
      pos_at pre (variations.length - 1) := by
    rw [pos_at_set, if_neg]
    intro h
    omega
  have hm : (variations.length + 1) % variations.length = 1 := by
    rw [Nat.add_mod_left, Nat.mod_eq_of_lt (by omega)]
  have h2 : pos_at (pre.set 0 res) ((variations.length + 1) % variations.length) =
      pos_at pre 1 := by
    rw [hm, pos_at_set, if_neg]
    intro h
    omega
  unfold fit_cost closing_cost
  simp only [h1, h2, true_and]

/-- C23 (amended): for every layout of n >= 2 shapes and every behaviour of the
`double`-valued parts, the closing pass (i == n) of `arrange_circle` writes slot 0 and no
other slot (k = n % n = 0): every slot other than 0, slot n-1 among them, is when
`arrange_circle` returns what the passes 0, ..., n-1 left. Slot 0 is the result of
`best_fit` on what those passes left in slot 0, over the candidates built from the boundary
of the shape in slot n-1, with the cost that reads slot n-1 as the previous and slot 1 as the
next placement. It keeps its shape index; it is left as it was when no candidate costs less
than the largest `double`; otherwise it takes position and variation index of a candidate
that no later candidate beats and that, when the costs are ordered, costs less than the
largest `double` and less than every earlier candidate. -/
theorem closing_pass_writes_slot_zero (env : fit_env) (variations : variation_array)
    (positions : List shape_pos) (hn : 2 ≤ variations.length)
    (hlen : positions.length = variations.length) :
    variations.length % variations.length = 0 ∧
    (∀ j, j ≠ 0 → pos_at (arrange_circle env variations positions) j =
      pos_at (before_closing env variations positions) j) ∧
    pos_at (arrange_circle env variations positions) 0 =
      best_fit env
        (fun _ p sh => closing_cost env variations
          (pos_at (before_closing env variations positions) (variations.length - 1))
          (pos_at (before_closing env variations positions) 1) p sh)
        (shape_at variations
          (pos_at (before_closing env variations positions) (variations.length - 1))).boundary
        (pos_at (before_closing env variations positions) 0)
        (pos_at (before_closing env variations positions) (variations.length - 1)).p
        (variations.getD (pos_at (before_closing env variations positions) 0).shape_idx []) ∧
    (pos_at (arrange_circle env variations positions) 0).shape_idx =
      (pos_at (before_closing env variations positions) 0).shape_idx ∧
    ((∀ c ∈ closing_candidates variations (before_closing env variations positions),
        env.lt (closing_cost env variations
          (pos_at (before_closing env variations positions) (variations.length - 1))
          (pos_at (before_closing env variations positions) 1) c.2.2 c.2.1)
          env.DBL_MAX = false) →
      pos_at (arrange_circle env variations positions) 0 =
        pos_at (before_closing env variations positions) 0) ∧
    ((∃ c ∈ closing_candidates variations (before_closing env variations positions),
        env.lt (closing_cost env variations
          (pos_at (before_closing env variations positions) (variations.length - 1))
          (pos_at (before_closing env variations positions) 1) c.2.2 c.2.1)
          env.DBL_MAX = true) →
      ∃ l1 c l2,
        closing_candidates variations (before_closing env variations positions) =
          l1 ++ c :: l2 ∧
        pos_at (arrange_circle env variations positions) 0 =
          placed (pos_at (before_closing env variations positions) 0) c ∧
        (∀ d ∈ l2, env.lt
          (closing_cost env variations
            (pos_at (before_closing env variations positions) (variations.length - 1))
            (pos_at (before_closing env variations positions) 1) d.2.2 d.2.1)
          (closing_cost env variations
            (pos_at (before_closing env variations positions) (variations.length - 1))
            (pos_at (before_closing env variations positions) 1) c.2.2 c.2.1) = false) ∧
        (ordered_costs env →
          env.lt (closing_cost env variations
            (pos_at (before_closing env variations positions) (variations.length - 1))
            (pos_at (before_closing env variations positions) 1) c.2.2 c.2.1)
            env.DBL_MAX = true ∧
          ∀ d ∈ l1, env.lt
            (closing_cost env variations
              (pos_at (before_closing env variations positions) (variations.length - 1))
              (pos_at (before_closing env variations positions) 1) c.2.2 c.2.1)
            (closing_cost env variations
              (pos_at (before_closing env variations positions) (variations.length - 1))
              (pos_at (before_closing env variations positions) 1) d.2.2 d.2.1) = true)) := by
  have hmod : variations.length % variations.length = 0 := Nat.mod_self _
  have hpre : (before_closing env variations positions).length = positions.length :=
    arrange_fold_length _ _ _ _
  have hfr := arrange_step_frame env variations (before_closing env variations positions)
    variations.length (by omega) (by rw [hmod, hpre]; omega)
  rw [hmod] at hfr
  have hac : arrange_circle env variations positions =
      arrange_step env variations (before_closing env variations positions)
        variations.length := arrange_circle_closing env variations positions
  have hfun : fit_cost env variations (before_closing env variations positions)
      variations.length 0
      (shape_at variations
        (pos_at (before_closing env variations positions) (variations.length - 1)))
      (pos_at (before_closing env variations positions) (variations.length - 1)).p =
      (fun _ p sh => closing_cost env variations
        (pos_at (before_closing env variations positions) (variations.length - 1))
        (pos_at (before_closing env variations positions) 1) p sh) := by
    funext res p sh
    exact fit_cost_closing env variations _ hn res p sh
  have h0 : pos_at (arrange_circle env variations positions) 0 =
      best_fit env
        (fun _ p sh => closing_cost env variations
          (pos_at (before_closing env variations positions) (variations.length - 1))
          (pos_at (before_closing env variations positions) 1) p sh)
        (shape_at variations
          (pos_at (before_closing env variations positions) (variations.length - 1))).boundary
        (pos_at (before_closing env variations positions) 0)
        (pos_at (before_closing env variations positions) (variations.length - 1)).p
        (variations.getD (pos_at (before_closing env variations positions) 0).shape_idx
          []) := by
    rw [hac]
    unfold arrange_step
    simp only [if_neg (show variations.length ≠ 0 by omega), hmod]
    rw [pos_at_set, if_pos ⟨rfl, by rw [hpre]; omega⟩, hfun]
  obtain ⟨hnone, hsome⟩ := best_fit_first_min env
    (closing_cost env variations
      (pos_at (before_closing env variations positions) (variations.length - 1))
      (pos_at (before_closing env variations positions) 1))
    (shape_at variations
      (pos_at (before_closing env variations positions) (variations.length - 1))).boundary
    (pos_at (before_closing env variations positions) 0)
    (pos_at (before_closing env variations positions) (variations.length - 1)).p
    (variations.getD (pos_at (before_closing env variations positions) 0).shape_idx [])
  refine ⟨hmod, ?_, h0, ?_, ?_, ?_⟩
  · rw [hac]; exact hfr.1
  · rw [hac]; exact hfr.2.1
  · intro h
    rw [h0]
    exact hnone h
  · intro h
    obtain ⟨l1, c, l2, e1, e2, e3, e4⟩ := hsome h
    exact ⟨l1, c, l2, e1, by rw [h0]; exact e2, e3, e4⟩

theorem closing_pass_writes_slot_zero_witness :
    2 ≤ three_cells.length ∧ three_cells_closing.length = three_cells.length ∧
    ∀ j, j ≠ 0 → pos_at (arrange_circle whole_env three_cells three_cells_closing) j =
      pos_at (before_closing whole_env three_cells three_cells_closing) j :=
  ⟨by decide, by decide,
    (closing_pass_writes_slot_zero whole_env three_cells three_cells_closing
      (by decide) (by decide)).2.1⟩

theorem three_cells_fit_cost (env : fit_env) (res : shape_pos) (p : vec2i) (n : Int)
    (hn : n ≠ 0)
    (hd : distance (setup [⟨0, 0⟩]) p (setup [⟨0, 0⟩]) ⟨-1, -1⟩ = n) :
    fit_cost env three_cells three_cells_closing 3 0 (setup [⟨0, 0⟩]) ⟨-1, 0⟩ res p
      (setup [⟨0, 0⟩]) = env.big |n| := by
  have hd2 : distance (setup [⟨0, 0⟩]) p
      (shape_at three_cells (pos_at (three_cells_closing.set 0 res)
        ((3 + 1) % three_cells.length)))
      (pos_at (three_cells_closing.set 0 res) ((3 + 1) % three_cells.length)).p = n := hd
  unfold fit_cost
  simp only [hd2]
  rw [if_pos ⟨rfl, hn⟩]

set_option maxRecDepth 8000 in
/-- C23 (counterexample): three shapes of one cell each, in the state the program is in
before the closing pass, slot 0 holding the seed placement `(0, -1)`. Whatever the
`double`-valued parts do (all four candidates draw the penalty `MAX_DIST + 1`, which is
exact), the closing pass `i = 3` writes slot `3 % 3 = 0`, moving it to `(0, 0)`, and leaves
slot 2 as it was. -/
theorem closing_pass_counterexample :
    valid_layout three_cells three_cells_closing ∧ 2 ≤ three_cells.length ∧
    exact_penalties whole_env ∧
    ∀ env : fit_env, exact_penalties env →
      arrange_step env three_cells three_cells_closing 3 =
        [⟨0, 0, 0, 0⟩, ⟨-1, -1, 1, 0⟩, ⟨-1, 0, 2, 0⟩] := by
  refine ⟨by decide, by decide, ?_, ?_⟩
  · intro a b _ ha _ _
    refine ⟨?_, ?_⟩
    · show decide (100000 + a < 100000 + b) = decide (a < b)
      rw [decide_eq_decide]
      omega
    show decide (100000 + a < (4294967296 : Int)) = true
    rw [decide_eq_true_eq]
    unfold INT_MAX at ha
    omega
  · intro env hex
    have hlt : env.lt (env.big 1) (env.big 1) = false := by
      rw [(hex 1 1 (by decide) (by decide) (by decide) (by decide)).1]; rfl
    have htop : env.lt (env.big 1) env.DBL_MAX = true :=
      (hex 1 1 (by decide) (by decide) (by decide) (by decide)).2
    have hc : fit_candidates (shape_at three_cells (pos_at three_cells_closing (3 - 1))).boundary
        (pos_at three_cells_closing (3 - 1)).p
        (three_cells.getD (pos_at three_cells_closing (3 % three_cells.length)).shape_idx []) =
        [(0, setup [⟨0, 0⟩], ⟨0, 0⟩), (0, setup [⟨0, 0⟩], ⟨-1, 1⟩),
          (0, setup [⟨0, 0⟩], ⟨-2, 0⟩), (0, setup [⟨0, 0⟩], ⟨-1, -1⟩)] := by decide
    have hps : shape_at three_cells (pos_at three_cells_closing (3 - 1)) = setup [⟨0, 0⟩] := rfl
    have hpp : (pos_at three_cells_closing (3 - 1)).p = ⟨-1, 0⟩ := rfl
    have hk : 3 % three_cells.length = 0 := rfl
    have f1 := fun res => three_cells_fit_cost env res ⟨0, 0⟩ 1 (by decide) (by decide)
    have f2 := fun res => three_cells_fit_cost env res ⟨-1, 1⟩ 1 (by decide) (by decide)
    have f3 := fun res => three_cells_fit_cost env res ⟨-2, 0⟩ 1 (by decide) (by decide)
    have f4 := fun res => three_cells_fit_cost env res ⟨-1, -1⟩ (-1) (by decide) (by decide)
    have a1 : |(1 : Int)| = 1 := by decide
    have a2 : |(-1 : Int)| = 1 := by decide
    rw [a1] at f1 f2 f3
    rw [a2] at f4
    unfold arrange_step best_fit
    simp only [if_neg (show (3 : Nat) ≠ 0 by decide)]
    rw [hc]
    simp only [hps, hpp, hk, List.foldl_cons, List.foldl_nil, f1, f2, f3, f4, htop, hlt,
      if_true, Bool.false_eq_true, if_false]
    rfl

/-! ### No overflow: `int` arithmetic agrees with the integers -/

theorem wrap_int_fits (x : Int) (h : fits_int x) : wrap_int x = x := by
  unfold fits_int INT_MIN INT_MAX at h
  unfold wrap_int
  omega

theorem any_congr_mem {α : Type} (l : List α) (f g : α → Bool) (h : ∀ a ∈ l, f a = g a) :
    l.any f = l.any g := by
  induction l with
  | nil => rfl
  | cons a l ih =>
    simp only [List.any_cons]
    rw [h a (List.mem_cons_self _ _), ih (fun b hb => h b (List.mem_cons_of_mem _ hb))]

theorem foldl_congr_mem {α β : Type} (l : List α) (f g : β → α → β) (b : β)
    (h : ∀ b, ∀ a ∈ l, f b a = g b a) : l.foldl f b = l.foldl g b := by
  induction l generalizing b with
  | nil => rfl
  | cons a l ih =>
    simp only [List.foldl_cons]
    rw [h b a (List.mem_cons_self _ _), ih _ (fun b c hc => h b c (List.mem_cons_of_mem _ hc))]

/-- With a mask of `int` size, `is_set` computes no index that overflows. -/
theorem is_set_int_eq (sh : shape) (x y : Int) (hw : 0 ≤ sh.width)
    (hm : sh.width * sh.height ≤ INT_MAX) : is_set_int sh x y = is_set sh x y := by
  unfold is_set_int is_set
  split
  · rfl
  · rename_i hg
    simp only [not_or, not_lt, ge_iff_le, not_le] at hg
    obtain ⟨hx0, hy0, hxw, hyh⟩ := hg
    have hi := grid_idx_range sh.width sh.height x y hx0 hxw hy0 hyh
    have hyw : 0 ≤ y * sh.width := Int.mul_nonneg hy0 hw
    have e1 : wrap_int (y * sh.width) = y * sh.width := by
      apply wrap_int_fits
      unfold fits_int INT_MIN
      unfold INT_MAX at hm ⊢
      omega
    have e2 : wrap_int (x + y * sh.width) = x + y * sh.width := by
      apply wrap_int_fits
      unfold fits_int INT_MIN
      unfold INT_MAX at hm ⊢
      omega
    rw [e1, e2]

theorem setup_cells_in_box (cells : List vec2i) (hc : nonneg_cells cells) :
    cells_in_box (setup cells) := by
  intro sq hsq
  have h1 := setup_width_ge cells sq hsq
  have h2 := setup_height_ge cells sq hsq
  have h0 := hc sq hsq
  omega

/-- Where nothing overflows, `overlap_status` in `int` arithmetic is `overlap_status`. -/
theorem overlap_status_int_eq (sh1 sh2 : shape) (p q : vec2i) (hb1 : cells_in_box sh1)
    (hw1 : 0 ≤ sh1.width) (hh1 : 0 ≤ sh1.height) (hw2 : 0 ≤ sh2.width) (hh2 : 0 ≤ sh2.height)
    (hr : overlap_in_range sh1 p sh2 q) :
    overlap_status_int sh1 p sh2 q = overlap_status sh1 p sh2 q := by
  obtain ⟨f1, f2, f3, f4, f5, f6, f7, f8, hws, hhs, -, hm2⟩ := hr
  unfold overlap_status_int overlap_status
  rw [wrap_int_fits _ f5, wrap_int_fits _ f6, wrap_int_fits _ f7, wrap_int_fits _ f8]
  split
  · rfl
  · rename_i hg
    simp only [not_or, not_lt, gt_iff_lt] at hg
    obtain ⟨g1, g2, g3, g4⟩ := hg
    unfold fits_int INT_MIN INT_MAX at *
    have edx : wrap_int (p.x - q.x) = p.x - q.x := by
      apply wrap_int_fits; unfold fits_int INT_MIN INT_MAX; omega
    have edy : wrap_int (p.y - q.y) = p.y - q.y := by
      apply wrap_int_fits; unfold fits_int INT_MIN INT_MAX; omega
    simp only [edx, edy]
    have hsx : ∀ sq ∈ sh1.squares, wrap_int (sq.x + (p.x - q.x)) = sq.x + (p.x - q.x) := by
      intro sq hsq
      have := hb1 sq hsq
      apply wrap_int_fits; unfold fits_int INT_MIN INT_MAX; omega
    have hsy : ∀ sq ∈ sh1.squares, wrap_int (sq.y + (p.y - q.y)) = sq.y + (p.y - q.y) := by
      intro sq hsq
      have := hb1 sq hsq
      apply wrap_int_fits; unfold fits_int INT_MIN INT_MAX; omega
    have hox : ∀ sq ∈ sh1.squares, ∀ o ∈ OFFS,
        wrap_int (sq.x + (p.x - q.x) + o.x) = sq.x + (p.x - q.x) + o.x := by
      intro sq hsq o ho
      have := hb1 sq hsq
      have hob : -1 ≤ o.x ∧ o.x ≤ 1 := by
        simp only [OFFS, List.mem_cons, List.mem_singleton, List.not_mem_nil, or_false] at ho
        rcases ho with rfl | rfl | rfl | rfl <;> simp
      apply wrap_int_fits; unfold fits_int INT_MIN INT_MAX; omega
    have hoy : ∀ sq ∈ sh1.squares, ∀ o ∈ OFFS,
        wrap_int (sq.y + (p.y - q.y) + o.y) = sq.y + (p.y - q.y) + o.y := by
      intro sq hsq o ho
      have := hb1 sq hsq
      have hob : -1 ≤ o.y ∧ o.y ≤ 1 := by
        simp only [OFFS, List.mem_cons, List.mem_singleton, List.not_mem_nil, or_false] at ho
        rcases ho with rfl | rfl | rfl | rfl <;> simp
      apply wrap_int_fits; unfold fits_int INT_MIN INT_MAX; omega
    have hm2' : sh2.width * sh2.height ≤ INT_MAX := by unfold INT_MAX; exact hm2
    have a1 : sh1.squares.any (fun sq =>
          is_set_int sh2 (wrap_int (sq.x + (p.x - q.x))) (wrap_int (sq.y + (p.y - q.y)))) =
        sh1.squares.any (fun sq => is_set sh2 (sq.x + (p.x - q.x)) (sq.y + (p.y - q.y))) := by
      apply any_congr_mem
      intro sq hsq
      rw [hsx sq hsq, hsy sq hsq, is_set_int_eq sh2 _ _ hw2 hm2']
    have a2 : sh1.squares.any (fun sq => OFFS.any (fun offs =>
          is_set_int sh2 (wrap_int (wrap_int (sq.x + (p.x - q.x)) + offs.x))
            (wrap_int (wrap_int (sq.y + (p.y - q.y)) + offs.y)))) =
        sh1.squares.any (fun sq => OFFS.any (fun offs =>
          is_set sh2 (sq.x + (p.x - q.x) + offs.x) (sq.y + (p.y - q.y) + offs.y))) := by
      apply any_congr_mem
      intro sq hsq
      apply any_congr_mem
      intro o ho
      rw [hsx sq hsq, hsy sq hsq, hox sq hsq o ho, hoy sq hsq o ho,
        is_set_int_eq sh2 _ _ hw2 hm2']
    rw [a1, a2]

/-- Where nothing overflows, `distance` in `int` arithmetic is `distance`. -/
theorem distance_int_eq (sh1 sh2 : shape) (p q : vec2i) (hb1 : cells_in_box sh1)
    (hb2 : cells_in_box sh2)
    (hw1 : 0 ≤ sh1.width) (hh1 : 0 ≤ sh1.height) (hw2 : 0 ≤ sh2.width) (hh2 : 0 ≤ sh2.height)
    (hr : overlap_in_range sh1 p sh2 q) (hg : gap_in_range sh1 p sh2 q) :
    distance_int sh1 p sh2 q = distance sh1 p sh2 q := by
  unfold distance_int distance
  rw [overlap_status_int_eq sh1 sh2 p q hb1 hw1 hh1 hw2 hh2 hr]
  cases overlap_status sh1 p sh2 q
  · rfl
  · rfl
  · simp only
    unfold gap_in_range INT_MAX at hg
    have hax := abs_nonneg (p.x - q.x)
    have hay := abs_nonneg (p.y - q.y)
    have hax2 := abs_le.mp (le_refl |p.x - q.x|)
    have hay2 := abs_le.mp (le_refl |p.y - q.y|)
    have edx : wrap_int (p.x - q.x) = p.x - q.x := by
      apply wrap_int_fits; unfold fits_int INT_MIN INT_MAX; omega
    have edy : wrap_int (p.y - q.y) = p.y - q.y := by
      apply wrap_int_fits; unfold fits_int INT_MIN INT_MAX; omega
    rw [edx, edy]
    have hfold : sh1.squares.foldl (fun m sq1 =>
          sh2.squares.foldl (fun m2 sq2 =>
            min m2 (wrap_int (wrap_int |wrap_int (wrap_int (sq1.x + (p.x - q.x)) - sq2.x)| +
              wrap_int |wrap_int (wrap_int (sq1.y + (p.y - q.y)) - sq2.y)|))) m) INT_MAX =
        sh1.squares.foldl (fun m sq1 =>
          sh2.squares.foldl (fun m2 sq2 =>
            min m2 (|sq1.x + (p.x - q.x) - sq2.x| + |sq1.y + (p.y - q.y) - sq2.y|)) m)
          INT_MAX := by
      apply foldl_congr_mem
      intro m sq1 h1
      apply foldl_congr_mem
      intro m2 sq2 h2
      have b1 := hb1 sq1 h1
      have b2 := hb2 sq2 h2
      have e1 : wrap_int (sq1.x + (p.x - q.x)) = sq1.x + (p.x - q.x) := by
        apply wrap_int_fits; unfold fits_int INT_MIN INT_MAX; omega
      have e2 : wrap_int (sq1.y + (p.y - q.y)) = sq1.y + (p.y - q.y) := by
        apply wrap_int_fits; unfold fits_int INT_MIN INT_MAX; omega
      have e3 : wrap_int (sq1.x + (p.x - q.x) - sq2.x) = sq1.x + (p.x - q.x) - sq2.x := by
        apply wrap_int_fits; unfold fits_int INT_MIN INT_MAX; omega
      have e4 : wrap_int (sq1.y + (p.y - q.y) - sq2.y) = sq1.y + (p.y - q.y) - sq2.y := by
        apply wrap_int_fits; unfold fits_int INT_MIN INT_MAX; omega
      rw [e1, e2, e3, e4]
      have c1 := abs_nonneg (sq1.x + (p.x - q.x) - sq2.x)
      have c2 := abs_nonneg (sq1.y + (p.y - q.y) - sq2.y)
      have c3 : |sq1.x + (p.x - q.x) - sq2.x| ≤ |p.x - q.x| + sh1.width + sh2.width := by
        rw [abs_le]; constructor <;> omega
      have c4 : |sq1.y + (p.y - q.y) - sq2.y| ≤ |p.y - q.y| + sh1.height + sh2.height := by
        rw [abs_le]; constructor <;> omega
      have e5 : wrap_int |sq1.x + (p.x - q.x) - sq2.x| = |sq1.x + (p.x - q.x) - sq2.x| := by
        apply wrap_int_fits; unfold fits_int INT_MIN INT_MAX; omega
      have e6 : wrap_int |sq1.y + (p.y - q.y) - sq2.y| = |sq1.y + (p.y - q.y) - sq2.y| := by
        apply wrap_int_fits; unfold fits_int INT_MIN INT_MAX; omega
      rw [e5, e6]
      have e7 : wrap_int (|sq1.x + (p.x - q.x) - sq2.x| + |sq1.y + (p.y - q.y) - sq2.y|) =
          |sq1.x + (p.x - q.x) - sq2.x| + |sq1.y + (p.y - q.y) - sq2.y| := by
        apply wrap_int_fits; unfold fits_int INT_MIN INT_MAX; omega
      rw [e7]
    rw [hfold]
    obtain ⟨k1, -, k3⟩ := foldl_min2_spec
      (fun (a b : vec2i) => |a.x + (p.x - q.x) - b.x| + |a.y + (p.y - q.y) - b.y|)
      sh1.squares sh2.squares INT_MAX
    apply wrap_int_fits
    unfold fits_int INT_MIN
    unfold INT_MAX at k1 k3 ⊢
    rcases k3 with k | ⟨a, -, b, -, k⟩
    · rw [k]; omega
    · rw [k]
      have c1 := abs_nonneg (a.x + (p.x - q.x) - b.x)
      have c2 := abs_nonneg (a.y + (p.y - q.y) - b.y)
      rw [k] at k1
      omega

theorem overlap_in_range_comm (sh1 sh2 : shape) (p q : vec2i)
    (h : overlap_in_range sh1 p sh2 q) : overlap_in_range sh2 q sh1 p := by
  obtain ⟨f1, f2, f3, f4, f5, f6, f7, f8, hws, hhs, hm1, hm2⟩ := h
  refine ⟨f3, f4, f1, f2, f7, f8, f5, f6, ?_, ?_, hm2, hm1⟩
  · rw [add_comm]; exact hws
  · rw [add_comm]; exact hhs

theorem gap_in_range_comm (sh1 sh2 : shape) (p q : vec2i)
    (h : gap_in_range sh1 p sh2 q) : gap_in_range sh2 q sh1 p := by
  unfold gap_in_range at *
  rw [abs_sub_comm q.x p.x, abs_sub_comm q.y p.y]
  omega

theorem gap_in_range_translate (sh1 sh2 : shape) (p q t : vec2i)
    (h : gap_in_range sh1 p sh2 q) : gap_in_range sh1 (p + t) sh2 (q + t) := by
  unfold gap_in_range at *
  simp only [vec2i_add_x, vec2i_add_y]
  have ex : p.x + t.x - (q.x + t.x) = p.x - q.x := by ring
  have ey : p.y + t.y - (q.y + t.y) = p.y - q.y := by ring
  rw [ex, ey]
  exact h

/-- On shapes built by `setup` from non-negative cells, `distance` does not depend on the
order of its two (shape, position) arguments. -/
theorem distance_comm (cA cB : List vec2i) (hA : nonneg_cells cA) (hB : nonneg_cells cB)
    (p q : vec2i) :
    distance (setup cA) p (setup cB) q = distance (setup cB) q (setup cA) p := by
  unfold distance
  rw [overlap_status_comm cA cB hA hB p q]
  cases overlap_status (setup cB) q (setup cA) p
  · rfl
  · rfl
  · simp only [setup_squares]
    rw [min_dist_loop_comm]

/-- The function `overlap_status` in `int` arithmetic on two shapes built by `setup`, where
nothing overflows. -/
theorem overlap_status_int_setup (cA cB : List vec2i) (hA : nonneg_cells cA)
    (p q : vec2i)
    (hr : overlap_in_range (setup cA) p (setup cB) q) :
    overlap_status_int (setup cA) p (setup cB) q = overlap_status (setup cA) p (setup cB) q :=
  overlap_status_int_eq _ _ p q (setup_cells_in_box cA hA) (setup_width_nonneg cA)
    (setup_height_nonneg cA) (setup_width_nonneg cB) (setup_height_nonneg cB) hr

/-- The function `distance` in `int` arithmetic on two shapes built by `setup`, where
nothing overflows. -/
theorem distance_int_setup (cA cB : List vec2i) (hA : nonneg_cells cA)
    (hB : nonneg_cells cB) (p q : vec2i)
    (hr : overlap_in_range (setup cA) p (setup cB) q)
    (hg : gap_in_range (setup cA) p (setup cB) q) :
    distance_int (setup cA) p (setup cB) q = distance (setup cA) p (setup cB) q :=
  distance_int_eq _ _ p q (setup_cells_in_box cA hA) (setup_cells_in_box cB hB)
    (setup_width_nonneg cA) (setup_height_nonneg cA) (setup_width_nonneg cB)
    (setup_height_nonneg cB) hr hg

/-- C1: for shapes built by `setup` from non-negative cells and any two positions at which
no `int` computation of `overlap_status` overflows, `overlap_status` (in `int` arithmetic,
where it agrees with the computation over the integers) is `Overlap` exactly when two
translated cells coincide, `Border` exactly when none coincide and two are orthogonally
adjacent, and `Disjoint` exactly when neither happens; so the bounding-box early-out never
hides an overlap or a border. -/
theorem overlap_status_spec (cA cB : List vec2i) (hA : nonneg_cells cA)
    (hB : nonneg_cells cB) (p q : vec2i)
    (hr : overlap_in_range (setup cA) p (setup cB) q) :
    overlap_status_int (setup cA) p (setup cB) q = overlap_status (setup cA) p (setup cB) q ∧
    (overlap_status_int (setup cA) p (setup cB) q = overlap.Overlap ↔
      cells_coincide cA p cB q) ∧
    (overlap_status_int (setup cA) p (setup cB) q = overlap.Border ↔
      ¬ cells_coincide cA p cB q ∧ cells_adjacent cA p cB q) ∧
    (overlap_status_int (setup cA) p (setup cB) q = overlap.Disjoint ↔
      ¬ cells_coincide cA p cB q ∧ ¬ cells_adjacent cA p cB q) := by
  have he := overlap_status_int_setup cA cB hA p q hr
  refine ⟨he, ?_⟩
  rw [he]
  obtain ⟨hOv, hBo, hDi⟩ := overlap_status_classify cA cB hA hB p q
  by_cases hO : cells_coincide cA p cB q
  · rw [hOv hO]
    simp [hO]
  · by_cases hBd : cells_adjacent cA p cB q
    · rw [hBo hO hBd]
      simp [hO, hBd]
    · rw [hDi hO hBd]
      simp [hO, hBd]

set_option maxRecDepth 8000 in
theorem overlap_status_spec_witness :
    overlap_in_range (setup [⟨1, 1⟩, ⟨1, 2⟩, ⟨2, 2⟩, ⟨3, 2⟩, ⟨1, 3⟩]) ⟨0, 0⟩
      (setup [⟨3, 0⟩, ⟨1, 1⟩, ⟨2, 1⟩, ⟨3, 1⟩, ⟨1, 2⟩]) ⟨0, 3⟩ ∧
    overlap_status_int (setup [⟨1, 1⟩, ⟨1, 2⟩, ⟨2, 2⟩, ⟨3, 2⟩, ⟨1, 3⟩]) ⟨0, 0⟩
      (setup [⟨3, 0⟩, ⟨1, 1⟩, ⟨2, 1⟩, ⟨3, 1⟩, ⟨1, 2⟩]) ⟨0, 3⟩ = overlap.Border ∧
    (overlap_status_int (setup [⟨1, 1⟩, ⟨1, 2⟩, ⟨2, 2⟩, ⟨3, 2⟩, ⟨1, 3⟩]) ⟨0, 0⟩
        (setup [⟨3, 0⟩, ⟨1, 1⟩, ⟨2, 1⟩, ⟨3, 1⟩, ⟨1, 2⟩]) ⟨0, 3⟩ = overlap.Border ↔
      ¬ cells_coincide [⟨1, 1⟩, ⟨1, 2⟩, ⟨2, 2⟩, ⟨3, 2⟩, ⟨1, 3⟩] ⟨0, 0⟩
        [⟨3, 0⟩, ⟨1, 1⟩, ⟨2, 1⟩, ⟨3, 1⟩, ⟨1, 2⟩] ⟨0, 3⟩ ∧
      cells_adjacent [⟨1, 1⟩, ⟨1, 2⟩, ⟨2, 2⟩, ⟨3, 2⟩, ⟨1, 3⟩] ⟨0, 0⟩
        [⟨3, 0⟩, ⟨1, 1⟩, ⟨2, 1⟩, ⟨3, 1⟩, ⟨1, 2⟩] ⟨0, 3⟩) :=
  ⟨by decide, by decide,
    (overlap_status_spec _ _ (by decide) (by decide) ⟨0, 0⟩ ⟨0, 3⟩ (by decide)).2.2.1⟩

/-- C25: for shapes built by `setup` from non-negative cells and all positions p, q, t such
that no `int` computation of `overlap_status` overflows at (p, q) and at (p + t, q + t),
`overlap_status` gives the same answer with the two (shape, position) arguments exchanged and
with both positions moved by t; so does `distance` when, in addition, its minimum loop does
not overflow. -/
theorem overlap_distance_symmetric (cA cB : List vec2i) (hA : nonneg_cells cA)
    (hB : nonneg_cells cB) (p q t : vec2i)
    (hr : overlap_in_range (setup cA) p (setup cB) q)
    (hrt : overlap_in_range (setup cA) (p + t) (setup cB) (q + t)) :
    overlap_status_int (setup cA) p (setup cB) q =
      overlap_status_int (setup cB) q (setup cA) p ∧
    overlap_status_int (setup cB) q (setup cA) p =
      overlap_status_int (setup cA) (p + t) (setup cB) (q + t) ∧
    (gap_in_range (setup cA) p (setup cB) q →
      distance_int (setup cA) p (setup cB) q = distance_int (setup cB) q (setup cA) p ∧
      distance_int (setup cB) q (setup cA) p =
        distance_int (setup cA) (p + t) (setup cB) (q + t)) := by
  have hr2 := overlap_in_range_comm _ _ _ _ hr
  have e1 := overlap_status_int_setup cA cB hA p q hr
  have e2 := overlap_status_int_setup cB cA hB q p hr2
  have e3 := overlap_status_int_setup cA cB hA (p + t) (q + t) hrt
  have hs := overlap_status_comm cA cB hA hB p q
  refine ⟨?_, ?_, ?_⟩
  · rw [e1, e2, hs]
  · rw [e2, e3, overlap_status_translate, hs]
  · intro hg
    have d1 := distance_int_setup cA cB hA hB p q hr hg
    have d2 := distance_int_setup cB cA hB hA q p hr2 (gap_in_range_comm _ _ _ _ hg)
    have d3 := distance_int_setup cA cB hA hB (p + t) (q + t) hrt
      (gap_in_range_translate _ _ _ _ t hg)
    have hd := distance_comm cA cB hA hB p q
    constructor
    · rw [d1, d2, hd]
    · rw [d2, d3, distance_translate, hd]

set_option maxRecDepth 8000 in
theorem overlap_distance_symmetric_witness :
    overlap_in_range (setup [⟨0, 0⟩, ⟨1, 0⟩, ⟨1, 1⟩]) ⟨0, 0⟩ (setup [⟨0, 0⟩, ⟨0, 1⟩]) ⟨4, 2⟩ ∧
    overlap_in_range (setup [⟨0, 0⟩, ⟨1, 0⟩, ⟨1, 1⟩]) (⟨0, 0⟩ + ⟨-7, 5⟩)
      (setup [⟨0, 0⟩, ⟨0, 1⟩]) (⟨4, 2⟩ + ⟨-7, 5⟩) ∧
    gap_in_range (setup [⟨0, 0⟩, ⟨1, 0⟩, ⟨1, 1⟩]) ⟨0, 0⟩ (setup [⟨0, 0⟩, ⟨0, 1⟩]) ⟨4, 2⟩ ∧
    distance_int (setup [⟨0, 0⟩, ⟨1, 0⟩, ⟨1, 1⟩]) ⟨0, 0⟩ (setup [⟨0, 0⟩, ⟨0, 1⟩]) ⟨4, 2⟩ = 3 ∧
    distance_int (setup [⟨0, 0⟩, ⟨1, 0⟩, ⟨1, 1⟩]) ⟨0, 0⟩ (setup [⟨0, 0⟩, ⟨0, 1⟩]) ⟨4, 2⟩ =
      distance_int (setup [⟨0, 0⟩, ⟨0, 1⟩]) ⟨4, 2⟩ (setup [⟨0, 0⟩, ⟨1, 0⟩, ⟨1, 1⟩]) ⟨0, 0⟩ ∧
    distance_int (setup [⟨0, 0⟩, ⟨0, 1⟩]) ⟨4, 2⟩ (setup [⟨0, 0⟩, ⟨1, 0⟩, ⟨1, 1⟩]) ⟨0, 0⟩ =
      distance_int (setup [⟨0, 0⟩, ⟨1, 0⟩, ⟨1, 1⟩]) (⟨0, 0⟩ + ⟨-7, 5⟩)
        (setup [⟨0, 0⟩, ⟨0, 1⟩]) (⟨4, 2⟩ + ⟨-7, 5⟩) :=
  ⟨by decide, by decide, by decide, by decide,
    (overlap_distance_symmetric [⟨0, 0⟩, ⟨1, 0⟩, ⟨1, 1⟩] [⟨0, 0⟩, ⟨0, 1⟩] (by decide)
      (by decide) ⟨0, 0⟩ ⟨4, 2⟩ ⟨-7, 5⟩ (by decide) (by decide)).2.2 (by decide)⟩

/-- Where the early-out sum overflows, `overlap_status` in `int` arithmetic reports two
coinciding cells as disjoint: one-cell shapes, both at `(INT_MAX, 0)`. -/
theorem overlap_status_int_overflow :
    overlap_status_int (setup [⟨0, 0⟩]) ⟨2147483647, 0⟩ (setup [⟨0, 0⟩]) ⟨2147483647, 0⟩ =
      overlap.Disjoint ∧
    overlap_status (setup [⟨0, 0⟩]) ⟨2147483647, 0⟩ (setup [⟨0, 0⟩]) ⟨2147483647, 0⟩ =
      overlap.Overlap ∧
    ¬ overlap_in_range (setup [⟨0, 0⟩]) ⟨2147483647, 0⟩ (setup [⟨0, 0⟩]) ⟨2147483647, 0⟩ := by
  refine ⟨by decide, by decide, by decide⟩

/-! ### Centring in `int` arithmetic -/

/-- Where the corner sums and the moved placements fit an `int`, `center` in `int`
arithmetic is `center`. -/
theorem center_int_eq (variations : variation_array) (positions : List shape_pos)
    (hs : center_in_range variations positions)
    (hrc : in_int_range variations (center variations positions)) :
    center_int variations positions = center variations positions := by
  unfold center_int center
  simp only
  rw [wrap_int_fits _ hs.1, wrap_int_fits _ hs.2]
  apply List.map_congr_left
  intro pos hpos
  have hm : ({ pos with
      x := pos.x - Int.tdiv ((get_bounds variations positions).2.x +
        (get_bounds variations positions).1.x) 2,
      y := pos.y - Int.tdiv ((get_bounds variations positions).2.y +
        (get_bounds variations positions).1.y) 2 } : shape_pos) ∈
      center variations positions := by
    unfold center
    exact List.mem_map.mpr ⟨pos, hpos, rfl⟩
  obtain ⟨h1, h2, h3, h4, -⟩ := hrc _ hm
  simp only at h1 h2 h3 h4
  rw [wrap_int_fits _ ⟨h1, h2⟩, wrap_int_fits _ ⟨h3, h4⟩]

/-- The layout of one cell at `(2000000000, 0)`: every placement and every box corner fits
an `int`, before and after `center`, but the corner sum `rb.x + lt.x` does not, and `center`
in `int` arithmetic leaves the cell at `x = 2147483647`. -/
theorem center_int_overflow :
    valid_layout [[setup [⟨0, 0⟩]]] [⟨2000000000, 0, 0, 0⟩] ∧
    in_int_range [[setup [⟨0, 0⟩]]] [⟨2000000000, 0, 0, 0⟩] ∧
    in_int_range [[setup [⟨0, 0⟩]]] (center [[setup [⟨0, 0⟩]]] [⟨2000000000, 0, 0, 0⟩]) ∧
    ¬ center_in_range [[setup [⟨0, 0⟩]]] [⟨2000000000, 0, 0, 0⟩] ∧
    center_int [[setup [⟨0, 0⟩]]] [⟨2000000000, 0, 0, 0⟩] = [⟨2147483647, 0, 0, 0⟩] := by
  refine ⟨by decide, by decide, by decide, by decide, by decide⟩

/-- A number whose truncated half is 0 is -1, 0 or 1, so it fits an `int`. -/
theorem tdiv_two_zero (s : Int) (h : Int.tdiv s 2 = 0) : fits_int s := by
  unfold fits_int INT_MIN INT_MAX
  rcases le_or_lt 0 s with h0 | h0
  · rw [Int.tdiv_eq_ediv h0 (by norm_num)] at h
    omega
  · have e1 : Int.tdiv s 2 = -((-s) / 2) := by
      have : s = -(-s) := by ring
      conv_lhs => rw [this, Int.neg_tdiv, Int.tdiv_eq_ediv (by omega) (by norm_num)]
    rw [e1] at h
    omega

/-- C8: for every valid non-empty layout on which no `int` computation of `center`
overflows (the box corners before and after, and the corner sums `rb.x + lt.x` and
`rb.y + lt.y`), `center` in `int` arithmetic does what `center` does over the integers:
after it the bounding-box centre is the origin under truncating division, every placement
has been moved by one and the same vector with `shape_idx` and `var_idx` kept, and `center`
is idempotent. -/
theorem center_spec (variations : variation_array) (positions : List shape_pos)
    (hv : valid_layout variations positions) (hne : variations ≠ [])
    (hr : in_int_range variations positions)
    (hs : center_in_range variations positions)
    (hrc : in_int_range variations (center variations positions)) :
    center_int variations positions = center variations positions ∧
    Int.tdiv ((get_bounds variations (center_int variations positions)).1.x +
      (get_bounds variations (center_int variations positions)).2.x) 2 = 0 ∧
    Int.tdiv ((get_bounds variations (center_int variations positions)).1.y +
      (get_bounds variations (center_int variations positions)).2.y) 2 = 0 ∧
    (∃ t : vec2i, center_int variations positions =
      positions.map (fun pos => ⟨pos.x + t.x, pos.y + t.y, pos.shape_idx, pos.var_idx⟩)) ∧
    center_int variations (center_int variations positions) =
      center_int variations positions := by
  have he := center_int_eq variations positions hs hrc
  obtain ⟨hx, hy, ht, hid⟩ := center_facts variations positions hv hne hr hrc
  have hs2 : center_in_range variations (center variations positions) := by
    rw [add_comm] at hx hy
    exact ⟨tdiv_two_zero _ hx, tdiv_two_zero _ hy⟩
  have hrc2 : in_int_range variations (center variations (center variations positions)) := by
    rw [hid]; exact hrc
  have he2 := center_int_eq variations (center variations positions) hs2 hrc2
  rw [he]
  exact ⟨rfl, hx, hy, ht, by rw [he2, hid]⟩

set_option maxRecDepth 8000 in
theorem center_spec_witness :
    valid_layout ring_variations ring_positions ∧
    in_int_range ring_variations ring_positions ∧
    center_in_range ring_variations ring_positions ∧
    center_int ring_variations ring_positions = [⟨-1, -1, 0, 0⟩, ⟨0, 0, 1, 0⟩] ∧
    center_int ring_variations (center_int ring_variations ring_positions) =
      center_int ring_variations ring_positions :=
  ⟨by decide, by decide, by decide, by decide,
    (center_spec ring_variations ring_positions (by decide) (by decide)
      (by decide) (by decide) (by decide)).2.2.2.2⟩

/-! ### Angles -/

theorem PI_bounds : (3 : ℚ) < PI ∧ PI < 4 := by
  unfold PI
  constructor <;> norm_num

/-- C15: `angle_greater a b` is true exactly when `a < b` and `b - a > PI`, or `a > b` and
`a - b < PI`; on the literal cases it gives (1, 0) true, (0, 0) false, (0, 1) false,
(2, 1) true, (1, 6) true, (6, 1) false. -/
theorem angle_greater_spec :
    (∀ a b : ℚ, angle_greater a b = true ↔ ((a < b ∧ b - a > PI) ∨ (a > b ∧ a - b < PI))) ∧
    angle_greater 1 0 = true ∧ angle_greater 0 0 = false ∧ angle_greater 0 1 = false ∧
    angle_greater 2 1 = true ∧ angle_greater 1 6 = true ∧ angle_greater 6 1 = false := by
  have key : ∀ a b : ℚ, angle_greater a b = true ↔
      ((a < b ∧ b - a > PI) ∨ (a > b ∧ a - b < PI)) := by
    intro a b
    unfold angle_greater
    by_cases h : a < b ∧ b - a > PI
    · rw [if_pos h]
      simp only [true_iff]
      exact Or.inl h
    · rw [if_neg h, decide_eq_true_eq]
      constructor
      · intro h2; exact Or.inr h2
      · rintro (h2 | h2)
        · exact absurd h2 h
        · exact h2
  have hf : ∀ a b : ℚ, ¬ ((a < b ∧ b - a > PI) ∨ (a > b ∧ a - b < PI)) →
      angle_greater a b = false := by
    intro a b hn
    cases hv : angle_greater a b
    · rfl
    · exact absurd ((key a b).mp hv) hn
  obtain ⟨h3, h4⟩ := PI_bounds
  refine ⟨key, (key 1 0).mpr ?_, hf 0 0 ?_, hf 0 1 ?_, (key 2 1).mpr ?_, (key 1 6).mpr ?_,
    hf 6 1 ?_⟩
  · right; constructor
    · norm_num
    · linarith
  · rintro (⟨h, -⟩ | ⟨h, -⟩) <;> exact absurd h (lt_irrefl 0)
  · rintro (⟨-, h⟩ | ⟨h, -⟩)
    · linarith
    · linarith
  · right; constructor
    · norm_num
    · linarith
  · left; constructor
    · norm_num
    · linarith
  · rintro (⟨h, -⟩ | ⟨-, h⟩)
    · linarith
    · linarith

end Polyfarm
